import Mathlib

/-!
# TyrQuake material chains (`include/gl_model.h`)

A shallow embedding of the material-chain builder of `gl_model.h`:
`MaterialChains_Init`, `MaterialChains_Init_Reverse`, `MaterialChain_AddSurf`,
`MaterialChain_AddSurf_Tail` and the `ForEach_MaterialChain` loop header.

Memory is explicit.  A pointer is an address (`Nat`) into a typed region, `NULL`
is `none`.  Element `i` of an array that starts at address `base` lives at
address `base + i`.  `int` and `int32_t` values are integers that are reduced
into the 32-bit two's complement range after every arithmetic operation.
-/

namespace TyrQuake

/-! ## Data model -/

/-- The fields of `msurface_t` (declared in `model.h`) that `gl_model.h` reads
or writes: the polygon pointer, the edge count and the intrusive chain link. -/
structure msurface_t where
  poly : Option Nat
  numedges : Int
  chain : Option Nat
  deriving DecidableEq, Repr

/-- The struct `materialchain_t`, lines 95-101. -/
structure materialchain_t where
  numverts : Int
  numindices : Int
  surf : Option Nat
  overflow : Option Nat
  overflow_tail : Option Nat
  deriving DecidableEq, Repr

/-- Calls that leave `gl_model.h`, recorded in program order: a call of
`MaterialChain_HandleOverflow(chain, surf, tail)`, one run of the statement that
follows `ForEach_MaterialChain` on a segment, and `Z_Free(mainzone, seg)`. -/
inductive Event where
  | handleOverflow (chain surf : Nat) (tail : Option Nat)
  | visit (seg : Nat)
  | zfree (seg : Nat)
  deriving DecidableEq, Repr

/-- The program state.  `chains` holds every `materialchain_t` object (array
elements and zone blocks), `surfs` the surfaces, `tails` the callers' tail
variables (`msurface_t *`, addressed through `msurface_t **`).  `brk` is the
address of the next block `Z_Malloc` hands out, `junk` is what a block holds
once `Z_Free` has released it, and `trace` is the list of recorded calls. -/
structure Mem where
  chains : Nat → materialchain_t
  surfs : Nat → msurface_t
  tails : Nat → Option Nat
  brk : Nat
  junk : Nat → materialchain_t
  trace : List Event

/-- The value of `MATERIALCHAIN_MAX_VERTS`, line 93. -/
def MATERIALCHAIN_MAX_VERTS : Int := 65536

/-- Reduction of an integer into the range of `int32_t`. -/
def wrap32 (x : Int) : Int := (x + 2147483648) % 4294967296 - 2147483648

/-- All bytes zero: the chain header `memset` leaves behind. -/
def zeroChain : materialchain_t :=
  { numverts := 0, numindices := 0, surf := none, overflow := none, overflow_tail := none }

/-! ## Reset -/

/-- `memset(materialchains, 0, count * sizeof(*materialchains))`: the `count`
headers starting at `materialchains` become all zero. -/
def memsetChains (chains : Nat → materialchain_t) (materialchains count : Nat) :
    Nat → materialchain_t :=
  fun a => if materialchains ≤ a ∧ a < materialchains + count then zeroChain else chains a

/-- `MaterialChains_Init`, lines 103-107. -/
def MaterialChains_Init (m : Mem) (materialchains count : Nat) : Mem :=
  { m with chains := memsetChains m.chains materialchains count }

/-- The loop `for (int i = 0; i < count; i++) materialchains[i].overflow_tail =
&materialchains[i];` of lines 113-114, started at `i` with `n` iterations left. -/
def initReverseLoop (chains : Nat → materialchain_t) (materialchains : Nat) :
    Nat → Nat → Nat → materialchain_t
  | _, 0 => chains
  | i, n + 1 =>
    initReverseLoop
      (Function.update chains (materialchains + i)
        { chains (materialchains + i) with overflow_tail := some (materialchains + i) })
      materialchains (i + 1) n

/-- `MaterialChains_Init_Reverse`, lines 109-115. -/
def MaterialChains_Init_Reverse (m : Mem) (materialchains count : Nat) : Mem :=
  { m with
    chains := initReverseLoop (memsetChains m.chains materialchains count) materialchains 0 count }

/-! ## Overflow handler and append -/

/-- `Z_Malloc(mainzone, sizeof(materialchain_t))`: the zone hands out the block
at `brk`, zero filled, and never fails (it aborts the program instead). -/
def Z_Malloc (m : Mem) : Mem × Nat :=
  ({ m with chains := Function.update m.chains m.brk zeroChain, brk := m.brk + 1 }, m.brk)

/-- `Z_Free(mainzone, seg)`: the call is recorded and the block's contents
become whatever the zone leaves there. -/
def Z_Free (m : Mem) (seg : Nat) : Mem :=
  { m with chains := Function.update m.chains seg (m.junk seg),
           trace := m.trace ++ [Event.zfree seg] }

/-- Modelled from the spec: the body of `MaterialChain_HandleOverflow`, which
`gl_model.h` only declares (line 132).  The spec (4.3) has the handler allocate
a new chain segment linked through the `overflow` pointer, with all later
appends going to the new segment, and its example (8) fixes the layout: with
budget 4 and counts {3, 3} the new segment holds the second surface with count
3, a walk without tail sees that segment first, and a walk of a tail-built
chain sees the first surface first.  The later appends of the header file
always write the caller's header, so the header is the new segment: the
handler moves the full segment's counts and surface list into the allocated
block and lets the header start over with `surf` as its only surface; lines
145-146 and 162-163 then count `surf` into the header.
Without a tail (`tail = NULL`) the block is linked from the header's `overflow`
pointer, in front of the older blocks.  With a tail the blocks are linked in
submission order ending in the header, the header's `overflow_tail` refers to
the first filled block (where `ForEach_MaterialChain` starts), the first
block's own `overflow_tail` remembers the newest block, and the caller's tail is
advanced to `surf`. -/
def MaterialChain_HandleOverflow (m : Mem) (materialchain surf : Nat) (tail : Option Nat) : Mem :=
  let hdr := m.chains materialchain
  let (m1, seg) := Z_Malloc m
  let surfs1 := Function.update m1.surfs surf { m1.surfs surf with chain := none }
  match tail with
  | none =>
    { m1 with
      chains :=
        Function.update (Function.update m1.chains seg hdr) materialchain
          { hdr with numverts := 0, numindices := 0, surf := some surf, overflow := some seg },
      surfs := surfs1 }
  | some t =>
    let full : materialchain_t :=
      { hdr with overflow := some materialchain, overflow_tail := some seg }
    let linked : Nat → materialchain_t :=
      match hdr.overflow_tail with
      | none => Function.update m1.chains seg full
      | some first =>
        if first = materialchain then Function.update m1.chains seg full
        else
          let last := (m1.chains first).overflow_tail.getD first
          let c1 := Function.update m1.chains last { m1.chains last with overflow := some seg }
          let c2 := Function.update c1 first { c1 first with overflow_tail := some seg }
          Function.update c2 seg { full with overflow_tail := none }
    let first := match hdr.overflow_tail with
      | none => seg
      | some f => if f = materialchain then seg else f
    { m1 with
      chains :=
        Function.update linked materialchain
          { hdr with numverts := 0, numindices := 0, surf := some surf, overflow := none,
                     overflow_tail := some first },
      surfs := surfs1,
      tails := Function.update m1.tails t (some surf) }

/-- The two statements that close both append functions (lines 145-146 and
162-163): `numverts += numedges; numindices += (numedges - 2) * 3;`. -/
def addCounts (m : Mem) (materialchain surf : Nat) : Mem :=
  let c := m.chains materialchain
  let e := (m.surfs surf).numedges
  { m with
    chains := Function.update m.chains materialchain
      { c with numverts := wrap32 (c.numverts + e),
               numindices := wrap32 (c.numindices + wrap32 (wrap32 (e - 2) * 3)) } }

/-- The test of lines 139 and 155, `materialchain->numverts + surf->numedges >=
MATERIALCHAIN_MAX_VERTS`, for a budget `maxVerts`. -/
def overflows (maxVerts : Int) (m : Mem) (materialchain surf : Nat) : Bool :=
  decide (maxVerts ≤ wrap32 ((m.chains materialchain).numverts + (m.surfs surf).numedges))

/-- `MaterialChain_AddSurf`, lines 135-148.  The budget `MATERIALCHAIN_MAX_VERTS`
is a compile-time constant that the header invites to change (line 92), so it
is the parameter `maxVerts`. -/
def MaterialChain_AddSurf (maxVerts : Int) (m : Mem) (materialchain surf : Nat) : Mem :=
  if (m.surfs surf).poly.isSome then
    let m1 :=
      if overflows maxVerts m materialchain surf then
        MaterialChain_HandleOverflow
          { m with trace := m.trace ++ [Event.handleOverflow materialchain surf none] }
          materialchain surf none
      else
        { m with
          surfs := Function.update m.surfs surf
            { m.surfs surf with chain := (m.chains materialchain).surf },
          chains := Function.update m.chains materialchain
            { m.chains materialchain with surf := some surf } }
    addCounts m1 materialchain surf
  else m

/-- `MaterialChain_AddSurf_Tail`, lines 151-165.  `tail` is the address of the
caller's tail variable.  The result is `none` when `*tail` is `NULL` at line
159, where the code dereferences it. -/
def MaterialChain_AddSurf_Tail (maxVerts : Int) (m : Mem) (materialchain surf tail : Nat) :
    Option Mem :=
  if (m.surfs surf).poly.isSome then
    if overflows maxVerts m materialchain surf then
      some (addCounts
        (MaterialChain_HandleOverflow
          { m with trace := m.trace ++ [Event.handleOverflow materialchain surf (some tail)] }
          materialchain surf (some tail))
        materialchain surf)
    else
      match m.tails tail with
      | none => none
      | some last =>
        let surfs1 := Function.update m.surfs surf { m.surfs surf with chain := none }
        let surfs2 := Function.update surfs1 last { surfs1 last with chain := some surf }
        some (addCounts
          { m with surfs := surfs2, tails := Function.update m.tails tail (some surf) }
          materialchain surf)
  else some m

/-! ## Consumption -/

/-- The initialiser of the `ForEach_MaterialChain` loop header (lines 122-125):
the segment the walk starts on.  `_head` keeps the caller's chain. -/
def forEachStart (m : Mem) (materialchain : Nat) : Nat :=
  match (m.chains materialchain).overflow_tail with
  | some t => t
  | none => materialchain

/-- The increment of the loop header (lines 127-129): read the successor, free
the segment unless it is `_head`, and move on. -/
def forEachNext (m : Mem) (head cur : Nat) : Mem × Option Nat :=
  let next := (m.chains cur).overflow
  let m1 := if cur ≠ head then Z_Free m cur else m
  (m1, next)

/-- The loop of `ForEach_MaterialChain` from the segment `cur` on.  `body` is the
statement the caller puts after the loop header; every run of it is recorded.
`fuel` bounds the number of iterations; the result is `none` when it runs out. -/
def forEachLoop (body : Nat → Mem → Mem) (head : Nat) : Nat → Mem → Option Nat → Option Mem
  | _, m, none => some m
  | 0, _, some _ => none
  | fuel + 1, m, some cur =>
    let m1 := body cur { m with trace := m.trace ++ [Event.visit cur] }
    let r := forEachNext m1 head cur
    forEachLoop body head fuel r.1 r.2

/-- `ForEach_MaterialChain(materialchain) body`, lines 121-129. -/
def ForEach_MaterialChain (body : Nat → Mem → Mem) (fuel : Nat) (m : Mem) (materialchain : Nat) :
    Option Mem :=
  forEachLoop body materialchain fuel m (some (forEachStart m materialchain))

/-- The consumer's inner loop `for (s = first; s; s = s->chain)`: the surfaces
met when following chain links from `first`, or `none` when `fuel` links do not
reach `NULL`. -/
def surfWalk (surfs : Nat → msurface_t) : Nat → Option Nat → Option (List Nat)
  | _, none => some []
  | 0, some _ => none
  | fuel + 1, some s => (surfWalk surfs fuel (surfs s).chain).map (fun l => s :: l)

/-- The segments met when following `overflow` links from `first` up to the
first `NULL`, or `none` when `fuel` links do not reach it. -/
def overflowPath (chains : Nat → materialchain_t) : Nat → Option Nat → Option (List Nat)
  | _, none => some []
  | 0, some _ => none
  | fuel + 1, some p => (overflowPath chains fuel (chains p).overflow).map (fun l => p :: l)

/-- The segments on which the loop body ran, in order. -/
def visited (tr : List Event) : List Nat :=
  tr.filterMap fun e => match e with
    | Event.visit p => some p
    | _ => none

/-- The caller's statement under `ForEach_MaterialChain` leaves the chain
segments, the zone and the record of calls alone (it draws surfaces). -/
def BodyFrame (body : Nat → Mem → Mem) : Prop :=
  ∀ seg m, (body seg m).chains = m.chains ∧ (body seg m).junk = m.junk ∧
    (body seg m).trace = m.trace

/-- Appends `ss` to `materialchain` with `MaterialChain_AddSurf`, first to last. -/
def addSurfs (maxVerts : Int) (m : Mem) (materialchain : Nat) (ss : List Nat) : Mem :=
  ss.foldl (fun acc s => MaterialChain_AddSurf maxVerts acc materialchain s) m

/-- Appends `ss` to `materialchain` with `MaterialChain_AddSurf_Tail` through the
tail variable at `tail`, first to last; `none` as soon as one call fails. -/
def addSurfsTail (maxVerts : Int) (materialchain tail : Nat) : Mem → List Nat → Option Mem
  | m, [] => some m
  | m, s :: ss =>
    match MaterialChain_AddSurf_Tail maxVerts m materialchain s tail with
    | none => none
    | some m1 => addSurfsTail maxVerts materialchain tail m1 ss

/-- Sum of `numedges` over the surfaces of `ss` that have geometry. -/
def totalEdges (surfs : Nat → msurface_t) (ss : List Nat) : Int :=
  (ss.map fun s => if (surfs s).poly.isSome then (surfs s).numedges else 0).sum

/-- A state used to evaluate the definitions on concrete inputs: every chain
header holds stale data, every surface has geometry except surface 7, every
surface is a triangle except surface 5, which has 65536 edges, and the zone
starts at address 100. -/
def sampleMem : Mem :=
  { chains := fun _ =>
      { numverts := 7, numindices := 15, surf := some 9, overflow := some 8,
        overflow_tail := some 8 },
    surfs := fun s =>
      { poly := if s = 7 then none else some 0, numedges := if s = 5 then 65536 else 3,
        chain := none },
    tails := fun _ => none,
    brk := 100,
    junk := fun a => { numverts := -1, numindices := -1, surf := none, overflow := some a,
                       overflow_tail := none },
    trace := [] }

/-- The caller's assignment `tail = surf;` to the tail variable at `tail`. -/
def setTail (m : Mem) (tail surf : Nat) : Mem :=
  { m with tails := Function.update m.tails tail (some surf) }

/-- The state `sampleMem` with every tail variable referring to surface 9. -/
def sampleTailMem : Mem := { sampleMem with tails := fun _ => some 9 }

/-- The calls the loop header makes for one visited segment: the body runs on
it, and it is freed right after unless it is the caller's chain `head`. -/
def segmentEvents (head seg : Nat) : List Event :=
  if seg = head then [Event.visit seg] else [Event.visit seg, Event.zfree seg]

/-- One call of the append interface on a chain: `MaterialChain_AddSurf(chain,
surf)` or `MaterialChain_AddSurf_Tail(chain, surf, tail)`. -/
inductive AppendCall where
  | head (surf : Nat)
  | tail (surf tail : Nat)
  deriving DecidableEq, Repr

/-- The surface a call appends. -/
def AppendCall.surf : AppendCall → Nat
  | AppendCall.head s => s
  | AppendCall.tail s _ => s

/-- Runs one call on `materialchain`. -/
def appendCall (maxVerts : Int) (materialchain : Nat) (m : Mem) : AppendCall → Option Mem
  | AppendCall.head s => some (MaterialChain_AddSurf maxVerts m materialchain s)
  | AppendCall.tail s t => MaterialChain_AddSurf_Tail maxVerts m materialchain s t

/-- Runs a sequence of calls on `materialchain`, first to last; `none` as soon
as one call fails. -/
def runAppends (maxVerts : Int) (materialchain : Nat) : Mem → List AppendCall → Option Mem
  | m, [] => some m
  | m, call :: calls =>
    match appendCall maxVerts materialchain m call with
    | none => none
    | some m1 => runAppends maxVerts materialchain m1 calls

/-- The state after `MaterialChains_Init_Reverse` and three tail appends of
triangles with budget 4 and the tail starting on surface 9: two overflows. -/
def sampleFifoMem : Mem :=
  (addSurfsTail 4 0 0 (MaterialChains_Init_Reverse sampleTailMem 0 1) [1, 2, 3]).getD sampleMem

/-- The state after `MaterialChains_Init_Reverse`, one `MaterialChain_AddSurf` and
one `MaterialChain_AddSurf_Tail` of triangles with the tail on surface 9. -/
def sampleRunMem : Mem :=
  (runAppends MATERIALCHAIN_MAX_VERTS 0 (MaterialChains_Init_Reverse sampleTailMem 0 1)
    [AppendCall.head 1, AppendCall.tail 2 0]).getD sampleMem

/-- Sum of `3 * (numedges - 2)` over the surfaces of `ss` that have geometry. -/
def totalIndices (surfs : Nat → msurface_t) (ss : List Nat) : Int :=
  (ss.map fun s => if (surfs s).poly.isSome then 3 * ((surfs s).numedges - 2) else 0).sum

/-- A state in which every surface has geometry and 40000 edges, so that two of
them cross the budget of 65536; every tail variable refers to surface 9. -/
def sampleBigMem : Mem :=
  { sampleMem with
    surfs := fun _ => { poly := some 0, numedges := 40000, chain := none },
    tails := fun _ => some 9 }

/-- The surfaces of the segments `segs`, segment by segment: each segment's
surfaces are walked from its `surf` along the chain links. -/
def segmentSurfaces (m : Mem) (fuel : Nat) : List Nat → Option (List Nat)
  | [] => some []
  | seg :: segs =>
    match surfWalk m.surfs fuel (m.chains seg).surf, segmentSurfaces m fuel segs with
    | some l, some r => some (l ++ r)
    | _, _ => none

/-- The surfaces a consumer meets: the segments in the order
`ForEach_MaterialChain` visits them, and inside each visited segment its
surfaces from the segment's head. -/
def chainSurfaces (m : Mem) (fuel : Nat) (materialchain : Nat) : Option (List Nat) :=
  match overflowPath m.chains fuel (some (forEachStart m materialchain)) with
  | some segs => segmentSurfaces m fuel segs
  | none => none

/-- The shape of a chain that is built through the tail variable `t`: `closed`
lists the allocated blocks in submission order, each with its surfaces, and
`cur` lists the surfaces of the header's segment, ending in the surface the
tail refers to. -/
def TailBuilt (maxVerts : Int) (m : Mem) (c t : Nat) (closed : List (Nat × List Nat))
    (cur : List Nat) : Prop :=
  ∃ h last pre, cur = pre ++ [last] ∧
    (m.chains c).surf = some h ∧ (m.chains c).overflow = none ∧
    0 ≤ (m.chains c).numverts ∧ (m.chains c).numverts < maxVerts ∧
    surfWalk m.surfs cur.length (some h) = some cur ∧
    m.tails t = some last ∧ c < m.brk ∧
    (∀ b ∈ closed.map Prod.fst, b < m.brk ∧ b ≠ c) ∧
    overflowPath m.chains (closed.length + 1)
      (some ((closed.map Prod.fst).head?.getD c)) = some (closed.map Prod.fst ++ [c]) ∧
    (m.chains c).overflow_tail = some ((closed.map Prod.fst).head?.getD c) ∧
    (∀ b1 ∈ (closed.map Prod.fst).head?,
      (m.chains b1).overflow_tail = some ((closed.map Prod.fst).getLast?.getD b1)) ∧
    (∀ bl ∈ closed, bl.2 ≠ [] ∧
      surfWalk m.surfs bl.2.length (m.chains bl.1).surf = some bl.2)

/-! ## Material registry and lightmap atlas (declared in `gl_model.h`) -/

/-- The value `MATERIAL_END` of `enum material_class`, lines 52-61: the classes
are `MATERIAL_SKY = 0`, `MATERIAL_BASE`, `MATERIAL_FULLBRIGHT`, `MATERIAL_FENCE`,
`MATERIAL_FENCE_FULLBRIGHT`, `MATERIAL_LIQUID = 5`. -/
def MATERIAL_END : Nat := 6

/-- The struct `surface_material_t`, lines 64-67. -/
structure surface_material_t where
  texturenum : Int
  lightmapblock : Int
  deriving DecidableEq, Repr

/-- A surface as the material registry sees it: its material class and its
(texture, lightmap block) pairing. -/
structure ClassifiedSurface where
  cls : Nat
  material : surface_material_t
  deriving DecidableEq, Repr

/-- The material fields of `glbrushmodel_t`, lines 174-179. -/
structure glbrushmodel_t where
  material_index : List Nat
  nummaterials : Nat
  materials : List surface_material_t
  deriving DecidableEq, Repr

/-- Modelled from the spec: the dedup step of `GL_BuildMaterials`, which
`gl_model.h` only declares (line 212).  The pairing is looked up among the
materials of the current class, which start at `start`; a match is reused,
otherwise the pairing is appended as a new material (spec 4.2). -/
def addMaterial (start : Nat) (materials : List surface_material_t) (p : surface_material_t) :
    List surface_material_t :=
  if p ∈ materials.drop start then materials else materials ++ [p]

/-- Modelled from the spec: one class of `GL_BuildMaterials`, the surfaces of the
class visited in order (spec 4.2). -/
def addClass (start : Nat) (materials : List surface_material_t)
    (ps : List surface_material_t) : List surface_material_t :=
  ps.foldl (addMaterial start) materials

/-- The pairings of the surfaces of class `cls`, in surface order. -/
def classPairings (surfs : List ClassifiedSurface) (cls : Nat) : List surface_material_t :=
  (surfs.filter fun s => s.cls = cls).map ClassifiedSurface.material

/-- Modelled from the spec: the class loop of `GL_BuildMaterials` over the
classes `classes`: `material_index[class]` records the first id of each class,
and a final entry records the id one past the last material (spec 4.2, 3). -/
def buildClasses (surfs : List ClassifiedSurface) :
    List Nat → List surface_material_t → List Nat × List surface_material_t
  | [], materials => ([materials.length], materials)
  | cls :: classes, materials =>
    let r := buildClasses surfs classes
      (addClass materials.length materials (classPairings surfs cls))
    (materials.length :: r.1, r.2)

/-- Modelled from the spec: `GL_BuildMaterials` for one brush model, the classes
visited in the order sky, base, fullbright, fence, fence-fullbright, liquid. -/
def GL_BuildMaterials (surfs : List ClassifiedSurface) : glbrushmodel_t :=
  let r := buildClasses surfs (List.range MATERIAL_END) []
  { material_index := r.1, nummaterials := r.2.length, materials := r.2 }

/-- The struct `material_animation_t`, lines 69-75; `frames` and `alt` are the
arrays of 10 entries. -/
structure material_animation_t where
  material : Int
  numframes : Int
  numalt : Int
  frames : List Int
  alt : List Int
  deriving DecidableEq, Repr

/-- Entry `i` of an `int` array, `none` outside the array. -/
def arrayAt (a : List Int) (i : Int) : Option Int :=
  if 0 ≤ i then a[i.toNat]? else none

/-- Modelled from the spec: the animation lookup of the material registry, which
is not among the sources: `frames[frame mod numframes]`, or
`alt[frame mod numalt]` with the alternate flag (spec 4.2).  `mod` is the `%` of
C. -/
def resolveAnimation (a : material_animation_t) (frame : Int) (alternate : Bool) :
    Option Int :=
  if alternate then arrayAt a.alt (Int.tmod frame a.numalt)
  else arrayAt a.frames (Int.tmod frame a.numframes)

/-- The animation of the spec's example: three frames 10, 11, 12. -/
def sampleAnimation : material_animation_t :=
  { material := 10, numframes := 3, numalt := 0,
    frames := [10, 11, 12, 0, 0, 0, 0, 0, 0, 0], alt := [0, 0, 0, 0, 0, 0, 0, 0, 0, 0] }

/-- An `int` array of 10 entries that holds `ids` from entry 0 on and zero
behind them. -/
def fillArray (ids : List Int) : List Int := (ids ++ List.replicate 10 0).take 10

/-- Modelled from the spec: the build of one animation entry of the material
registry, which is not among the sources.  The entry maps the base material to
the ordered list of frame material ids and the alternate cycle's list (spec 3);
the build fails fatally, `none`, when the animation needs more frame or alt
entries than the fixed capacity of 10 (spec 4.2 and 7), the length of the
arrays `frames` and `alt` of lines 73-74. -/
def buildAnimation (material : Int) (frameIds altIds : List Int) :
    Option material_animation_t :=
  if 10 < frameIds.length ∨ 10 < altIds.length then none
  else
    some { material := material, numframes := frameIds.length, numalt := altIds.length,
           frames := fillArray frameIds, alt := fillArray altIds }

/-- Surfaces of a small model: two sky surfaces with one pairing, three base
surfaces with two pairings, one liquid surface. -/
def sampleSurfaces : List ClassifiedSurface :=
  [{ cls := 1, material := { texturenum := 4, lightmapblock := 0 } },
   { cls := 0, material := { texturenum := 1, lightmapblock := 0 } },
   { cls := 5, material := { texturenum := 9, lightmapblock := 0 } },
   { cls := 1, material := { texturenum := 4, lightmapblock := 1 } },
   { cls := 0, material := { texturenum := 1, lightmapblock := 0 } },
   { cls := 1, material := { texturenum := 4, lightmapblock := 0 } }]

/-- The value of `BLOCK_WIDTH`, line 29. -/
def BLOCK_WIDTH : Nat := 256

/-- The value of `BLOCK_HEIGHT`, line 30. -/
def BLOCK_HEIGHT : Nat := 256

/-- The struct `glRect_t`, lines 32-34: left, top, width, height. -/
structure glRect_t where
  l : Nat
  t : Nat
  w : Nat
  h : Nat
  deriving DecidableEq, Repr

/-- The highest entry of `allocated` (the per-column allocated height of
`lm_block_t`, line 40) over the `w` columns from `x` on. -/
def runTop (allocated : Nat → Nat) (x : Nat) : Nat → Nat
  | 0 => 0
  | w + 1 => max (allocated x) (runTop allocated (x + 1) w)

/-- Modelled from the spec: the scan of the column-height array for a run of `w`
columns, over the candidate left edges `xs`: the lowest run wins, the leftmost
among equally low ones (spec 4.1; the spec's example puts the second of two
64-wide requests at column 64, row 0, not on top of the first). -/
def bestRun (allocated : Nat → Nat) (w : Nat) : List Nat → Option (Nat × Nat)
  | [] => none
  | x :: xs =>
    match bestRun allocated w xs with
    | none => some (x, runTop allocated x w)
    | some b =>
      if runTop allocated x w ≤ b.2 then some (x, runTop allocated x w) else some b

/-- Modelled from the spec: `Allocate(width, height)` within one lightmap block,
whose body is not among the sources.  The request is placed on the lowest run
of `w` columns that lies inside the block; it fails (`none`, the spec's
`AtlasFull` for this block) when the run's height plus `h` exceeds the block
height.  On success the columns of the run rise to the rectangle's bottom
edge. -/
def LM_AllocBlock (allocated : Nat → Nat) (w h : Nat) : Option (glRect_t × (Nat → Nat)) :=
  match bestRun allocated w (List.range (BLOCK_WIDTH + 1 - w)) with
  | none => none
  | some b =>
    if b.2 + h ≤ BLOCK_HEIGHT then
      some ({ l := b.1, t := b.2, w := w, h := h },
        fun i => if b.1 ≤ i ∧ i < b.1 + w then b.2 + h else allocated i)
    else none

/-- A sequence of `Allocate(width, height)` requests on one block: the
rectangles of the successful calls, in order, and the final column heights.  A
request that does not fit leaves the block as it is. -/
def allocateAll : (Nat → Nat) → List (Nat × Nat) → List glRect_t × (Nat → Nat)
  | allocated, [] => ([], allocated)
  | allocated, req :: reqs =>
    match LM_AllocBlock allocated req.1 req.2 with
    | none => allocateAll allocated reqs
    | some r =>
      let rest := allocateAll r.2 reqs
      (r.1 :: rest.1, rest.2)

/-- Two rectangles share a texel. -/
def rectOverlap (r1 r2 : glRect_t) : Prop :=
  ∃ i j, r1.l ≤ i ∧ i < r1.l + r1.w ∧ r1.t ≤ j ∧ j < r1.t + r1.h ∧
    r2.l ≤ i ∧ i < r2.l + r2.w ∧ r2.t ≤ j ∧ j < r2.t + r2.h

/-- The texels covered by the rectangles, counted per rectangle. -/
def totalArea (rects : List glRect_t) : Nat :=
  (rects.map fun r => r.w * r.h).sum

/-- Sum of the column heights of a block. -/
def columnSum (allocated : Nat → Nat) : Nat :=
  ∑ i in Finset.range BLOCK_WIDTH, allocated i

/-- The state of a block with the rectangles `placed` in it: no column is
higher than the block, every rectangle lies inside the block and below the
heights of its columns, no two rectangles overlap, and the covered area is at
most the sum of the column heights. -/
def AtlasInv (allocated : Nat → Nat) (placed : List glRect_t) : Prop :=
  (∀ i, allocated i ≤ BLOCK_HEIGHT) ∧
  (∀ r ∈ placed, r.l + r.w ≤ BLOCK_WIDTH ∧ r.t + r.h ≤ BLOCK_HEIGHT ∧
    ∀ i, r.l ≤ i → i < r.l + r.w → r.t + r.h ≤ allocated i) ∧
  placed.Pairwise (fun r1 r2 => ¬ rectOverlap r1 r2) ∧
  totalArea placed ≤ columnSum allocated

/-! ## WAV loading (`snd_mem.c`, lines 186-362) -/

/-- The record `wavinfo_t` (lines 28-35). -/
structure wavinfo_t where
  rate : Int
  width : Int
  channels : Int
  loopstart : Int
  samples : Int
  dataofs : Int
deriving DecidableEq, Repr

/-- The parser's file-scope variables (lines 195-199). A pointer is the byte
offset from the start of the buffer `wav`; `none` is the NULL pointer. -/
structure WavState where
  data_p : Option Int
  iff_end : Int
  last_chunk : Int
  iff_data : Int
  iff_chunk_len : Int
deriving DecidableEq, Repr

/-- How `GetWavinfo` can fail to return: the division of line 351 by a zero
`info.width`, the `Sys_Error` of line 355, or a chunk search that does not
return within its fuel. -/
inductive WavFault where
  | divideByZero
  | badLoopLength
  | outOfFuel
deriving DecidableEq, Repr

/-- The `byte` at offset `p`. Memory is a function of the offset: the bytes
past `wavlength` are whatever follows the buffer. -/
def byteAt (wav : Int → Nat) (p : Int) : Int := ((wav p % 256 : Nat) : Int)

/-- Memory holding the listed bytes from offset 0 on, zero elsewhere. -/
def bufferOf (bytes : List Nat) : Int → Nat :=
  fun p => if 0 ≤ p then bytes.getD p.toNat 0 else 0

/-- Reduction of an integer into the range of `short`. -/
def wrap16 (x : Int) : Int := (x + 32768) % 65536 - 32768

/-- The value of `x & ~1` for a two's complement `x`. -/
def clearBit0 (x : Int) : Int := x - x % 2

/-- `GetLittleShort` (lines 202-211) reading at `p`: the value and the advanced
`data_p`. -/
def GetLittleShort (wav : Int → Nat) (p : Int) : Int × Int :=
  (wrap16 (byteAt wav p + byteAt wav (p + 1) * 256), p + 2)

/-- `GetLittleLong` (lines 213-224) reading at `p`: the value and the advanced
`data_p`. -/
def GetLittleLong (wav : Int → Nat) (p : Int) : Int × Int :=
  (wrap32 (byteAt wav p + byteAt wav (p + 1) * 256 + byteAt wav (p + 2) * 65536
    + byteAt wav (p + 3) * 16777216), p + 4)

/-- The C library's `strncmp` of the bytes at `p` against the string `name`
(its characters, the terminating NUL implied), over at most `n` characters: the
difference at the first mismatch, 0 when none is met before a NUL or the end. -/
def strncmp (wav : Int → Nat) (p : Int) (name : List Nat) : Nat → Int
  | 0 => 0
  | n + 1 =>
    if byteAt wav p ≠ ((name.headD 0 % 256 : Nat) : Int) then
      byteAt wav p - ((name.headD 0 % 256 : Nat) : Int)
    else if byteAt wav p = 0 then 0
    else strncmp wav (p + 1) name.tail n

/-- One pass through the body of the `while (1)` of `FindNextChunk`
(lines 230-247): whether the function returned, and the variables after. -/
def FindNextChunk_iter (wav : Int → Nat) (name : List Nat) (s : WavState) : Bool × WavState :=
  if s.last_chunk + 8 ≥ s.iff_end then
    (true, { s with data_p := none })
  else
    let r := GetLittleLong wav (s.last_chunk + 4)
    if r.1 < 0 ∨ r.1 > s.iff_end - r.2 then
      (true, { s with data_p := none, iff_chunk_len := r.1 })
    else
      (decide (strncmp wav (r.2 - 8) name 4 = 0),
        { s with
          iff_chunk_len := r.1
          last_chunk := r.2 + clearBit0 (wrap32 (r.1 + 1))
          data_p := some (r.2 - 8) })

/-- `FindNextChunk` (lines 226-249): the loop run for at most `fuel` passes;
`none` when it has not returned by then. -/
def FindNextChunk : Nat → (Int → Nat) → List Nat → WavState → Option WavState
  | 0, _, _, _ => none
  | fuel + 1, wav, name, s =>
    if (FindNextChunk_iter wav name s).1 then some (FindNextChunk_iter wav name s).2
    else FindNextChunk fuel wav name (FindNextChunk_iter wav name s).2

/-- `FindChunk` (lines 251-256). -/
def FindChunk (fuel : Nat) (wav : Int → Nat) (name : List Nat) (s : WavState) : Option WavState :=
  FindNextChunk fuel wav name { s with last_chunk := s.iff_data }

/-- Passes that suffice for `FindNextChunk` to return from the state `s`. -/
def chunkFuel (s : WavState) : Nat := (s.iff_end - s.last_chunk).toNat / 8 + 1

/-- The string "RIFF". -/
def tagRIFF : List Nat := [82, 73, 70, 70]

/-- The string "WAVE". -/
def tagWAVE : List Nat := [87, 65, 86, 69]

/-- The string "fmt ". -/
def tagFmt : List Nat := [102, 109, 116, 32]

/-- The string "cue ". -/
def tagCue : List Nat := [99, 117, 101, 32]

/-- The string "LIST". -/
def tagLIST : List Nat := [76, 73, 83, 84]

/-- The string "mark". -/
def tagMark : List Nat := [109, 97, 114, 107]

/-- The string "data". -/
def tagData : List Nat := [100, 97, 116, 97]

/-- The record after `memset(&info, 0, sizeof(info))`, line 289. -/
def zeroInfo : wavinfo_t :=
  { rate := 0, width := 0, channels := 0, loopstart := 0, samples := 0, dataofs := 0 }
/-- Lines 343-361 of `GetWavinfo`: the search for the data chunk and the sample
count, from the record `info` filled so far. -/
def GetWavinfo_data (fuel : Nat) (wav : Int → Nat) (info : wavinfo_t) (s : WavState) :
    Except WavFault wavinfo_t :=
  match FindChunk fuel wav tagData s with
  | none => .error .outOfFuel
  | some s1 =>
    match s1.data_p with
    | none => .ok info
    | some d =>
      let r := GetLittleLong wav (d + 4)
      if info.width = 0 then .error .divideByZero
      else
        let samples := wrap32 (Int.tdiv r.1 info.width)
        if info.samples ≠ 0 then
          if samples < info.samples then .error .badLoopLength
          else .ok { info with dataofs := r.2 }
        else .ok { info with samples := samples, dataofs := r.2 }

/-- Lines 324-341 of `GetWavinfo`: the cue chunk and the loop length marker,
followed by the data chunk. -/
def GetWavinfo_cue (fuel : Nat) (wav : Int → Nat) (info : wavinfo_t) (s : WavState) :
    Except WavFault wavinfo_t :=
  match FindChunk fuel wav tagCue s with
  | none => .error .outOfFuel
  | some s1 =>
    match s1.data_p with
    | none => GetWavinfo_data fuel wav { info with loopstart := -1 } s1
    | some c =>
      let r := GetLittleLong wav (c + 32)
      match FindNextChunk fuel wav tagLIST { s1 with data_p := some r.2 } with
      | none => .error .outOfFuel
      | some s2 =>
        match s2.data_p with
        | none => GetWavinfo_data fuel wav { info with loopstart := r.1 } s2
        | some l =>
          if strncmp wav (l + 28) tagMark 4 = 0 then
            let i := GetLittleLong wav (l + 24)
            GetWavinfo_data fuel wav
              { info with loopstart := r.1, samples := wrap32 (r.1 + i.1) }
              { s2 with data_p := some i.2 }
          else GetWavinfo_data fuel wav { info with loopstart := r.1 } s2

/-- `GetWavinfo` (lines 281-362) on the buffer `wav` (`none` for a NULL
pointer) of `wavlength` bytes; `s` holds what earlier calls left in the
file-scope variables. -/
def GetWavinfo (wav : Option (Int → Nat)) (wavlength : Int) (s : WavState) : Except WavFault wavinfo_t :=
  match wav with
  | none => .ok zeroInfo
  | some mem =>
    let fuel := wavlength.toNat / 8 + 1
    match FindChunk fuel mem tagRIFF { s with iff_data := 0, iff_end := wavlength } with
    | none => .error .outOfFuel
    | some s1 =>
      match s1.data_p with
      | none => .ok zeroInfo
      | some p =>
        if strncmp mem (p + 8) tagWAVE 4 ≠ 0 then .ok zeroInfo
        else
          match FindChunk fuel mem tagFmt { s1 with iff_data := p + 12 } with
          | none => .error .outOfFuel
          | some s2 =>
            match s2.data_p with
            | none => .ok zeroInfo
            | some q =>
              let format := GetLittleShort mem (q + 8)
              if format.1 ≠ 1 then .ok zeroInfo
              else
                let channels := GetLittleShort mem format.2
                let rate := GetLittleLong mem channels.2
                let bits := GetLittleShort mem (rate.2 + (4 + 2))
                GetWavinfo_cue fuel mem
                  { zeroInfo with
                    channels := channels.1
                    rate := rate.1
                    width := Int.tdiv bits.1 8 }
                  { s2 with data_p := some bits.2 }

/-- The test of `S_LoadSound`, lines 158-162: the sound is rejected when the
record's `channels` is not 1. -/
def S_LoadSound_rejects (info : wavinfo_t) : Bool := decide (info.channels ≠ 1)

/-- A 46-byte WAV file: RIFF/WAVE header, a 16-byte fmt chunk (PCM, one
channel, 11025 Hz, 4 bits per sample) and a data chunk of 2 bytes. -/
def fourBitWav : List Nat :=
  [82, 73, 70, 70, 38, 0, 0, 0, 87, 65, 86, 69,
   102, 109, 116, 32, 16, 0, 0, 0,
   1, 0, 1, 0, 17, 43, 0, 0, 17, 43, 0, 0, 1, 0, 4, 0,
   100, 97, 116, 97, 2, 0, 0, 0,
   0, 0]

/-- The same file with 8 bits per sample. -/
def eightBitWav : List Nat :=
  [82, 73, 70, 70, 38, 0, 0, 0, 87, 65, 86, 69,
   102, 109, 116, 32, 16, 0, 0, 0,
   1, 0, 1, 0, 17, 43, 0, 0, 17, 43, 0, 0, 1, 0, 8, 0,
   100, 97, 116, 97, 2, 0, 0, 0,
   0, 0]

/-- The file-scope variables before the first call: all zero. -/
def zeroWavState : WavState :=
  { data_p := none, iff_end := 0, last_chunk := 0, iff_data := 0, iff_chunk_len := 0 }

/-- The file-scope variables at a search that starts behind the RIFF/WAVE
header of the 46-byte sample files. -/
def sampleChunkState : WavState :=
  { data_p := none, iff_end := 46, last_chunk := 12, iff_data := 12, iff_chunk_len := 0 }

/-- What a search for `name` that started at offset `start` guarantees of the
variables `s` it leaves when `data_p` is not NULL: `data_p` is at or behind
`start`, `strncmp` finds the tag there equal to `name` (byte for byte when
`name` is four non-NUL characters), `iff_chunk_len` is the header's length
field and is not negative, and header and body end at or before `iff_end`. -/
def ChunkFound (wav : Int → Nat) (name : List Nat) (start : Int) (s : WavState) : Prop :=
  ∀ p, s.data_p = some p →
    start ≤ p ∧ strncmp wav p name 4 = 0 ∧
    (∀ a b c d, name = [a, b, c, d] →
      a % 256 ≠ 0 → b % 256 ≠ 0 → c % 256 ≠ 0 → d % 256 ≠ 0 →
      wav p % 256 = a % 256 ∧ wav (p + 1) % 256 = b % 256 ∧
      wav (p + 1 + 1) % 256 = c % 256 ∧ wav (p + 1 + 1 + 1) % 256 = d % 256) ∧
    s.iff_chunk_len = (GetLittleLong wav (p + 4)).1 ∧
    0 ≤ s.iff_chunk_len ∧ p + 8 + s.iff_chunk_len ≤ s.iff_end

/-- A 46-byte file whose first tag is "RIFX": the chunk walk meets no RIFF
chunk. -/
def noRiffWav : List Nat :=
  [82, 73, 70, 88, 38, 0, 0, 0, 87, 65, 86, 69,
   102, 109, 116, 32, 16, 0, 0, 0,
   1, 0, 1, 0, 17, 43, 0, 0, 17, 43, 0, 0, 1, 0, 8, 0,
   100, 97, 116, 97, 2, 0, 0, 0,
   0, 0]

/-- A 46-byte file whose RIFF chunk is followed by "AVI " instead of "WAVE". -/
def noWaveWav : List Nat :=
  [82, 73, 70, 70, 38, 0, 0, 0, 65, 86, 73, 32,
   102, 109, 116, 32, 16, 0, 0, 0,
   1, 0, 1, 0, 17, 43, 0, 0, 17, 43, 0, 0, 1, 0, 8, 0,
   100, 97, 116, 97, 2, 0, 0, 0,
   0, 0]

/-- A 22-byte RIFF/WAVE file that holds a data chunk but no fmt chunk. -/
def noFmtWav : List Nat :=
  [82, 73, 70, 70, 14, 0, 0, 0, 87, 65, 86, 69,
   100, 97, 116, 97, 2, 0, 0, 0,
   0, 0]

/-- The 46-byte sample file with format code 2 (ADPCM) in its fmt chunk. -/
def adpcmWav : List Nat :=
  [82, 73, 70, 70, 38, 0, 0, 0, 87, 65, 86, 69,
   102, 109, 116, 32, 16, 0, 0, 0,
   2, 0, 1, 0, 17, 43, 0, 0, 17, 43, 0, 0, 1, 0, 8, 0,
   100, 97, 116, 97, 2, 0, 0, 0,
   0, 0]

/-! ## Basic facts -/

theorem wrap32_of_range {x : Int} (h1 : -2147483648 ≤ x) (h2 : x < 2147483648) :
    wrap32 x = x := by
  unfold wrap32
  omega

theorem memsetChains_inside (chains : Nat → materialchain_t) (b n a : Nat)
    (h : b ≤ a ∧ a < b + n) : memsetChains chains b n a = zeroChain := by
  simp [memsetChains, h]

theorem memsetChains_outside (chains : Nat → materialchain_t) (b n a : Nat)
    (h : ¬ (b ≤ a ∧ a < b + n)) : memsetChains chains b n a = chains a := by
  simp only [memsetChains, if_neg h]

theorem initReverseLoop_apply (b : Nat) :
    ∀ (n i : Nat) (chains : Nat → materialchain_t) (a : Nat),
      initReverseLoop chains b i n a =
        if b + i ≤ a ∧ a < b + i + n then { chains a with overflow_tail := some a }
        else chains a := by
  intro n
  induction n with
  | zero =>
    intro i chains a
    have : ¬ (b + i ≤ a ∧ a < b + i + 0) := by omega
    simp only [initReverseLoop, if_neg this]
  | succ n ih =>
    intro i chains a
    rw [initReverseLoop, ih]
    by_cases h1 : a = b + i
    · subst h1
      have hn : ¬ (b + (i + 1) ≤ b + i ∧ b + i < b + (i + 1) + n) := by omega
      have hp : b + i ≤ b + i ∧ b + i < b + i + (n + 1) := by omega
      rw [if_neg hn, if_pos hp, Function.update_same]
    · rw [Function.update_noteq h1]
      by_cases h2 : b + (i + 1) ≤ a ∧ a < b + (i + 1) + n
      · have hp : b + i ≤ a ∧ a < b + i + (n + 1) := by omega
        rw [if_pos h2, if_pos hp]
      · have hp : ¬ (b + i ≤ a ∧ a < b + i + (n + 1)) := by omega
        rw [if_neg h2, if_neg hp]

/-! ## Reset: C7, C8 -/

/-- C7: `MaterialChains_Init` leaves each of the first `count` headers with
`numverts = 0`, `numindices = 0`, `surf = NULL`, `overflow = NULL` and
`overflow_tail = NULL`, whatever they held before; every header outside the
first `count` (index `count` and beyond in particular) and everything else in
the state is unchanged. -/
theorem MaterialChains_Init_zeroes (m : Mem) (materialchains count : Nat) :
    (∀ i, i < count →
      (MaterialChains_Init m materialchains count).chains (materialchains + i) =
        { numverts := 0, numindices := 0, surf := none, overflow := none,
          overflow_tail := none }) ∧
    (∀ i, count ≤ i →
      (MaterialChains_Init m materialchains count).chains (materialchains + i) =
        m.chains (materialchains + i)) ∧
    (∀ a, a < materialchains →
      (MaterialChains_Init m materialchains count).chains a = m.chains a) ∧
    (MaterialChains_Init m materialchains count).surfs = m.surfs ∧
    (MaterialChains_Init m materialchains count).tails = m.tails ∧
    (MaterialChains_Init m materialchains count).trace = m.trace := by
  refine ⟨?_, ?_, ?_, rfl, rfl, rfl⟩
  · intro i hi
    exact memsetChains_inside _ _ _ _ (by omega)
  · intro i hi
    exact memsetChains_outside _ _ _ _ (by omega)
  · intro a ha
    exact memsetChains_outside _ _ _ _ (by omega)

theorem MaterialChains_Init_zeroes_witness :
    (MaterialChains_Init sampleMem 4 3).chains (4 + 2) =
        { numverts := 0, numindices := 0, surf := none, overflow := none,
          overflow_tail := none } ∧
      (MaterialChains_Init sampleMem 4 3).chains (4 + 3) = sampleMem.chains (4 + 3) ∧
      (MaterialChains_Init sampleMem 4 3).chains 3 = sampleMem.chains 3 :=
  ⟨(MaterialChains_Init_zeroes sampleMem 4 3).1 2 (by decide),
   (MaterialChains_Init_zeroes sampleMem 4 3).2.1 3 (by decide),
   (MaterialChains_Init_zeroes sampleMem 4 3).2.2.1 3 (by decide)⟩

/-- C8: `MaterialChains_Init_Reverse` produces the state of
`MaterialChains_Init` except that, for each `i < count`, the `overflow_tail` of
chain `i` refers to chain `i` itself; its `numverts`, `numindices`, `surf` and
`overflow` are zero or `NULL`. -/
theorem MaterialChains_Init_Reverse_self (m : Mem) (materialchains count : Nat) :
    (∀ i, i < count →
      (MaterialChains_Init_Reverse m materialchains count).chains (materialchains + i) =
        { numverts := 0, numindices := 0, surf := none, overflow := none,
          overflow_tail := some (materialchains + i) }) ∧
    (∀ a, ¬ (materialchains ≤ a ∧ a < materialchains + count) →
      (MaterialChains_Init_Reverse m materialchains count).chains a =
        (MaterialChains_Init m materialchains count).chains a) ∧
    (MaterialChains_Init_Reverse m materialchains count).surfs =
      (MaterialChains_Init m materialchains count).surfs ∧
    (MaterialChains_Init_Reverse m materialchains count).tails =
      (MaterialChains_Init m materialchains count).tails ∧
    (MaterialChains_Init_Reverse m materialchains count).brk =
      (MaterialChains_Init m materialchains count).brk ∧
    (MaterialChains_Init_Reverse m materialchains count).junk =
      (MaterialChains_Init m materialchains count).junk ∧
    (MaterialChains_Init_Reverse m materialchains count).trace =
      (MaterialChains_Init m materialchains count).trace := by
  refine ⟨?_, ?_, rfl, rfl, rfl, rfl, rfl⟩
  · intro i hi
    have hp : materialchains + 0 ≤ materialchains + i ∧
        materialchains + i < materialchains + 0 + count := by omega
    show initReverseLoop _ _ _ _ _ = _
    rw [initReverseLoop_apply, if_pos hp, memsetChains_inside _ _ _ _ (by omega)]
    rfl
  · intro a ha
    have hp : ¬ (materialchains + 0 ≤ a ∧ a < materialchains + 0 + count) := by omega
    show initReverseLoop _ _ _ _ _ = memsetChains _ _ _ _
    rw [initReverseLoop_apply, if_neg hp]

theorem MaterialChains_Init_Reverse_self_witness :
    (MaterialChains_Init_Reverse sampleMem 4 3).chains (4 + 2) =
        { numverts := 0, numindices := 0, surf := none, overflow := none,
          overflow_tail := some (4 + 2) } ∧
      (MaterialChains_Init_Reverse sampleMem 4 3).chains 7 =
        (MaterialChains_Init sampleMem 4 3).chains 7 :=
  ⟨(MaterialChains_Init_Reverse_self sampleMem 4 3).1 2 (by decide),
   (MaterialChains_Init_Reverse_self sampleMem 4 3).2.1 7 (by decide)⟩

/-! ## One append -/

theorem overflows_iff (maxVerts : Int) (m : Mem) (c s : Nat)
    (h1 : -2147483648 ≤ (m.chains c).numverts + (m.surfs s).numedges)
    (h2 : (m.chains c).numverts + (m.surfs s).numedges < 2147483648) :
    overflows maxVerts m c s = true ↔
      maxVerts ≤ (m.chains c).numverts + (m.surfs s).numedges := by
  simp [overflows, wrap32_of_range h1 h2]

theorem addCounts_trace (m : Mem) (c s : Nat) : (addCounts m c s).trace = m.trace := rfl

theorem addCounts_surfs (m : Mem) (c s : Nat) : (addCounts m c s).surfs = m.surfs := rfl

theorem addCounts_tails (m : Mem) (c s : Nat) : (addCounts m c s).tails = m.tails := rfl

theorem addCounts_brk (m : Mem) (c s : Nat) : (addCounts m c s).brk = m.brk := rfl

theorem addCounts_chains_self (m : Mem) (c s : Nat) :
    (addCounts m c s).chains c =
      { m.chains c with
        numverts := wrap32 ((m.chains c).numverts + (m.surfs s).numedges),
        numindices := wrap32 ((m.chains c).numindices +
          wrap32 (wrap32 ((m.surfs s).numedges - 2) * 3)) } := by
  simp [addCounts]

theorem addCounts_chains_other (m : Mem) (c s a : Nat) (h : a ≠ c) :
    (addCounts m c s).chains a = m.chains a := by
  simp [addCounts, Function.update_noteq h]

theorem HandleOverflow_trace (m : Mem) (c s : Nat) (tail : Option Nat) :
    (MaterialChain_HandleOverflow m c s tail).trace = m.trace := by
  cases tail <;> rfl

theorem AddSurf_skip (maxVerts : Int) (m : Mem) (c s : Nat) (h : (m.surfs s).poly = none) :
    MaterialChain_AddSurf maxVerts m c s = m := by
  simp [MaterialChain_AddSurf, h]

theorem AddSurf_link (maxVerts : Int) (m : Mem) (c s : Nat)
    (hp : (m.surfs s).poly.isSome = true) (hno : overflows maxVerts m c s = false) :
    MaterialChain_AddSurf maxVerts m c s =
      addCounts
        { m with
          surfs := Function.update m.surfs s { m.surfs s with chain := (m.chains c).surf },
          chains := Function.update m.chains c { m.chains c with surf := some s } } c s := by
  simp [MaterialChain_AddSurf, hp, hno]

theorem AddSurf_spill (maxVerts : Int) (m : Mem) (c s : Nat)
    (hp : (m.surfs s).poly.isSome = true) (hov : overflows maxVerts m c s = true) :
    MaterialChain_AddSurf maxVerts m c s =
      addCounts
        (MaterialChain_HandleOverflow
          { m with trace := m.trace ++ [Event.handleOverflow c s none] } c s none) c s := by
  simp [MaterialChain_AddSurf, hp, hov]

theorem AddSurf_Tail_skip (maxVerts : Int) (m : Mem) (c s t : Nat)
    (h : (m.surfs s).poly = none) : MaterialChain_AddSurf_Tail maxVerts m c s t = some m := by
  simp [MaterialChain_AddSurf_Tail, h]

theorem AddSurf_Tail_link (maxVerts : Int) (m : Mem) (c s t last : Nat)
    (hp : (m.surfs s).poly.isSome = true) (hno : overflows maxVerts m c s = false)
    (ht : m.tails t = some last) :
    MaterialChain_AddSurf_Tail maxVerts m c s t =
      some (addCounts
        { m with
          surfs := Function.update
            (Function.update m.surfs s { m.surfs s with chain := none }) last
            { Function.update m.surfs s { m.surfs s with chain := none } last with
              chain := some s },
          tails := Function.update m.tails t (some s) } c s) := by
  simp [MaterialChain_AddSurf_Tail, hp, hno, ht]

theorem AddSurf_Tail_null (maxVerts : Int) (m : Mem) (c s t : Nat)
    (hp : (m.surfs s).poly.isSome = true) (hno : overflows maxVerts m c s = false)
    (ht : m.tails t = none) : MaterialChain_AddSurf_Tail maxVerts m c s t = none := by
  simp [MaterialChain_AddSurf_Tail, hp, hno, ht]

theorem AddSurf_Tail_spill (maxVerts : Int) (m : Mem) (c s t : Nat)
    (hp : (m.surfs s).poly.isSome = true) (hov : overflows maxVerts m c s = true) :
    MaterialChain_AddSurf_Tail maxVerts m c s t =
      some (addCounts
        (MaterialChain_HandleOverflow
          { m with trace := m.trace ++ [Event.handleOverflow c s (some t)] } c s (some t))
        c s) := by
  simp [MaterialChain_AddSurf_Tail, hp, hov]

/-! ## C6: surfaces without geometry -/

/-- C6: for every chain, every tail variable and every surface whose `poly` is
`NULL`, `MaterialChain_AddSurf` and `MaterialChain_AddSurf_Tail` return with the
whole state unchanged, whatever the surface's `numedges` and whatever the
budget: the chain's `numverts`, `numindices`, `surf`, `overflow` and
`overflow_tail`, the surface's chain link, the caller's tail and the record of
overflow-handler calls are those of the state before the call. -/
theorem AddSurf_without_geometry (maxVerts : Int) (m : Mem) (materialchain surf tail : Nat)
    (h : (m.surfs surf).poly = none) :
    MaterialChain_AddSurf maxVerts m materialchain surf = m ∧
    MaterialChain_AddSurf_Tail maxVerts m materialchain surf tail = some m :=
  ⟨AddSurf_skip maxVerts m materialchain surf h,
   AddSurf_Tail_skip maxVerts m materialchain surf tail h⟩

theorem AddSurf_without_geometry_witness :
    (sampleMem.surfs 7).poly = none ∧
      MaterialChain_AddSurf MATERIALCHAIN_MAX_VERTS sampleMem 0 7 = sampleMem ∧
      MaterialChain_AddSurf_Tail MATERIALCHAIN_MAX_VERTS sampleMem 0 7 0 = some sampleMem :=
  ⟨by decide, AddSurf_without_geometry MATERIALCHAIN_MAX_VERTS sampleMem 0 7 0 (by decide)⟩

/-! ## C5: when the overflow handler runs -/

theorem AddSurf_trace (maxVerts : Int) (m : Mem) (c s : Nat) :
    (MaterialChain_AddSurf maxVerts m c s).trace =
      if (m.surfs s).poly.isSome = true ∧ overflows maxVerts m c s = true
      then m.trace ++ [Event.handleOverflow c s none] else m.trace := by
  by_cases hp : (m.surfs s).poly.isSome = true
  · by_cases hov : overflows maxVerts m c s = true
    · rw [AddSurf_spill maxVerts m c s hp hov, addCounts_trace, HandleOverflow_trace,
        if_pos ⟨hp, hov⟩]
    · have hno : overflows maxVerts m c s = false := by simpa using hov
      rw [AddSurf_link maxVerts m c s hp hno, addCounts_trace, if_neg (fun h => hov h.2)]
  · have hn : (m.surfs s).poly = none := by simpa using hp
    rw [AddSurf_skip maxVerts m c s hn, if_neg (fun h => hp h.1)]

theorem AddSurf_Tail_trace (maxVerts : Int) (m m1 : Mem) (c s t : Nat)
    (h : MaterialChain_AddSurf_Tail maxVerts m c s t = some m1) :
    m1.trace =
      if (m.surfs s).poly.isSome = true ∧ overflows maxVerts m c s = true
      then m.trace ++ [Event.handleOverflow c s (some t)] else m.trace := by
  by_cases hp : (m.surfs s).poly.isSome = true
  · by_cases hov : overflows maxVerts m c s = true
    · rw [AddSurf_Tail_spill maxVerts m c s t hp hov] at h
      cases h
      rw [addCounts_trace, HandleOverflow_trace, if_pos ⟨hp, hov⟩]
    · have hno : overflows maxVerts m c s = false := by simpa using hov
      cases ht : m.tails t with
      | none => rw [AddSurf_Tail_null maxVerts m c s t hp hno ht] at h; cases h
      | some last =>
        rw [AddSurf_Tail_link maxVerts m c s t last hp hno ht] at h
        cases h
        rw [addCounts_trace, if_neg (fun h => hov h.2)]
  · have hn : (m.surfs s).poly = none := by simpa using hp
    rw [AddSurf_Tail_skip maxVerts m c s t hn] at h
    cases h
    rw [if_neg (fun h => hp h.1)]

/-- C5: `MaterialChain_AddSurf` and `MaterialChain_AddSurf_Tail` call the
overflow handler exactly when the surface has geometry and the chain's
`numverts` plus the surface's `numedges` is greater than or equal to the budget
(reaching the budget exactly overflows).  Otherwise the handler is not called,
and a surface with geometry is linked into the current segment: by `AddSurf` as
the new head in front of the old one, by `AddSurf_Tail` behind the surface the
caller's tail refers to, with the tail advanced.  With budget 4 and two
surfaces of 3 vertices on an empty chain the first append does not call the
handler and the second does. -/
theorem overflow_handler_called_iff (maxVerts : Int) (m : Mem) (materialchain surf tail : Nat)
    (h1 : -2147483648 ≤ (m.chains materialchain).numverts + (m.surfs surf).numedges)
    (h2 : (m.chains materialchain).numverts + (m.surfs surf).numedges < 2147483648) :
    ((MaterialChain_AddSurf maxVerts m materialchain surf).trace =
      if (m.surfs surf).poly.isSome = true ∧
          maxVerts ≤ (m.chains materialchain).numverts + (m.surfs surf).numedges
      then m.trace ++ [Event.handleOverflow materialchain surf none] else m.trace) ∧
    ((m.surfs surf).poly.isSome = true →
      (m.chains materialchain).numverts + (m.surfs surf).numedges < maxVerts →
      ((MaterialChain_AddSurf maxVerts m materialchain surf).chains materialchain).surf =
          some surf ∧
        ((MaterialChain_AddSurf maxVerts m materialchain surf).surfs surf).chain =
          (m.chains materialchain).surf) ∧
    (∀ m1, MaterialChain_AddSurf_Tail maxVerts m materialchain surf tail = some m1 →
      m1.trace =
        if (m.surfs surf).poly.isSome = true ∧
            maxVerts ≤ (m.chains materialchain).numverts + (m.surfs surf).numedges
        then m.trace ++ [Event.handleOverflow materialchain surf (some tail)] else m.trace) ∧
    ((m.surfs surf).poly.isSome = true →
      maxVerts ≤ (m.chains materialchain).numverts + (m.surfs surf).numedges →
      ∃ m1, MaterialChain_AddSurf_Tail maxVerts m materialchain surf tail = some m1) ∧
    ((m.surfs surf).poly.isSome = true →
      (m.chains materialchain).numverts + (m.surfs surf).numedges < maxVerts →
      ∀ last, m.tails tail = some last →
        ∃ m1, MaterialChain_AddSurf_Tail maxVerts m materialchain surf tail = some m1 ∧
          m1.trace = m.trace ∧ (m1.surfs last).chain = some surf ∧
          m1.tails tail = some surf) ∧
    (∀ (m0 : Mem) (c s1 s2 : Nat), (m0.chains c).numverts = 0 →
      (m0.surfs s1).poly.isSome = true → (m0.surfs s2).poly.isSome = true →
      (m0.surfs s1).numedges = 3 → (m0.surfs s2).numedges = 3 →
      (MaterialChain_AddSurf 4 m0 c s1).trace = m0.trace ∧
        (MaterialChain_AddSurf 4 (MaterialChain_AddSurf 4 m0 c s1) c s2).trace =
          m0.trace ++ [Event.handleOverflow c s2 none]) := by
  have hiff := overflows_iff maxVerts m materialchain surf h1 h2
  refine ⟨?_, ?_, ?_, ?_, ?_, ?_⟩
  · rw [AddSurf_trace]
    simp only [hiff]
  · intro hp hlt
    have hno : overflows maxVerts m materialchain surf = false := by
      cases hov : overflows maxVerts m materialchain surf with
      | false => rfl
      | true => exact absurd (hiff.mp hov) (by omega)
    rw [AddSurf_link maxVerts m materialchain surf hp hno]
    constructor
    · rw [addCounts_chains_self]
      simp
    · rw [addCounts_surfs]
      simp
  · intro m1 hm1
    rw [AddSurf_Tail_trace maxVerts m m1 materialchain surf tail hm1]
    simp only [hiff]
  · intro hp hge
    exact ⟨_, AddSurf_Tail_spill maxVerts m materialchain surf tail hp (hiff.mpr hge)⟩
  · intro hp hlt last ht
    have hno : overflows maxVerts m materialchain surf = false := by
      cases hov : overflows maxVerts m materialchain surf with
      | false => rfl
      | true => exact absurd (hiff.mp hov) (by omega)
    refine ⟨_, AddSurf_Tail_link maxVerts m materialchain surf tail last hp hno ht, ?_, ?_, ?_⟩
    · rw [addCounts_trace]
    · rw [addCounts_surfs]
      simp
    · rw [addCounts_tails]
      simp
  · intro m0 c s1 s2 hz hp1 hp2 he1 he2
    have hno1 : overflows 4 m0 c s1 = false := by
      simp [overflows, hz, he1, wrap32]
    have e1 := AddSurf_link 4 m0 c s1 hp1 hno1
    have hs2 : (MaterialChain_AddSurf 4 m0 c s1).surfs s2 =
        { m0.surfs s2 with chain := ((MaterialChain_AddSurf 4 m0 c s1).surfs s2).chain } := by
      rw [e1, addCounts_surfs]
      by_cases hs : s2 = s1
      · subst hs
        simp
      · simp [Function.update_noteq hs]
    have hnv : ((MaterialChain_AddSurf 4 m0 c s1).chains c).numverts = 3 := by
      rw [e1, addCounts_chains_self]
      simp [hz, he1, wrap32]
    have hov2 : overflows 4 (MaterialChain_AddSurf 4 m0 c s1) c s2 = true := by
      have : ((MaterialChain_AddSurf 4 m0 c s1).surfs s2).numedges = 3 := by
        rw [hs2]; exact he2
      simp [overflows, hnv, this, wrap32]
    have hp2b : ((MaterialChain_AddSurf 4 m0 c s1).surfs s2).poly.isSome = true := by
      rw [hs2]; exact hp2
    constructor
    · rw [AddSurf_trace, if_neg (fun h => by simp [hno1] at h)]
    · rw [AddSurf_trace, if_pos ⟨hp2b, hov2⟩, AddSurf_trace,
        if_neg (fun h => by simp [hno1] at h)]

theorem overflow_handler_called_iff_witness :
    (MaterialChain_AddSurf 4 (MaterialChains_Init sampleMem 0 1) 0 1).trace = [] ∧
      (MaterialChain_AddSurf 4
        (MaterialChain_AddSurf 4 (MaterialChains_Init sampleMem 0 1) 0 1) 0 2).trace =
        [] ++ [Event.handleOverflow 0 2 none] :=
  (overflow_handler_called_iff 4 sampleMem 0 1 0 (by decide) (by decide)).2.2.2.2.2
    (MaterialChains_Init sampleMem 0 1) 0 1 2 (by decide) (by decide) (by decide)
    (by decide) (by decide)

/-! ## Walking surfaces -/

theorem surfWalk_congr (surfs1 surfs2 : Nat → msurface_t) :
    ∀ (fuel : Nat) (p : Option Nat) (l : List Nat),
      (∀ x ∈ l, (surfs2 x).chain = (surfs1 x).chain) →
      surfWalk surfs1 fuel p = some l → surfWalk surfs2 fuel p = some l := by
  intro fuel
  induction fuel with
  | zero =>
    intro p l _ h
    cases p with
    | none => simpa [surfWalk] using h
    | some s => simp [surfWalk] at h
  | succ fuel ih =>
    intro p l hl h
    cases p with
    | none => simpa [surfWalk] using h
    | some s =>
      simp only [surfWalk, Option.map_eq_some'] at h ⊢
      obtain ⟨r, hr, rfl⟩ := h
      refine ⟨r, ?_, rfl⟩
      rw [hl s (List.mem_cons_self _ _)]
      exact ih _ r (fun x hx => hl x (List.mem_cons_of_mem _ hx)) hr

theorem surfWalk_mono (surfs : Nat → msurface_t) :
    ∀ (fuel fuel2 : Nat) (p : Option Nat) (l : List Nat), fuel ≤ fuel2 →
      surfWalk surfs fuel p = some l → surfWalk surfs fuel2 p = some l := by
  intro fuel
  induction fuel with
  | zero =>
    intro fuel2 p l _ h
    cases p with
    | none => cases fuel2 <;> simpa [surfWalk] using h
    | some s => simp [surfWalk] at h
  | succ fuel ih =>
    intro fuel2 p l hle h
    cases p with
    | none => cases fuel2 <;> simpa [surfWalk] using h
    | some s =>
      obtain ⟨f2, rfl⟩ : ∃ f2, fuel2 = f2 + 1 := ⟨fuel2 - 1, by omega⟩
      simp only [surfWalk, Option.map_eq_some'] at h ⊢
      obtain ⟨r, hr, rfl⟩ := h
      exact ⟨r, ih f2 _ r (by omega) hr, rfl⟩

theorem totalEdges_congr (surfs1 surfs2 : Nat → msurface_t) (l : List Nat)
    (h : ∀ x, (surfs2 x).poly = (surfs1 x).poly ∧ (surfs2 x).numedges = (surfs1 x).numedges) :
    totalEdges surfs2 l = totalEdges surfs1 l := by
  unfold totalEdges
  congr 1
  apply List.map_congr_left
  intro x _
  rw [(h x).1, (h x).2]

theorem totalEdges_cons (surfs : Nat → msurface_t) (s : Nat) (l : List Nat) :
    totalEdges surfs (s :: l) =
      (if (surfs s).poly.isSome then (surfs s).numedges else 0) + totalEdges surfs l := by
  simp [totalEdges]

/-- What an append that does not overflow does to the state. -/
theorem AddSurf_link_facts (maxVerts : Int) (m : Mem) (c s : Nat)
    (hp : (m.surfs s).poly.isSome = true) (hno : overflows maxVerts m c s = false) :
    (∀ x, ((MaterialChain_AddSurf maxVerts m c s).surfs x).poly = (m.surfs x).poly ∧
      ((MaterialChain_AddSurf maxVerts m c s).surfs x).numedges = (m.surfs x).numedges) ∧
    ((MaterialChain_AddSurf maxVerts m c s).surfs s).chain = (m.chains c).surf ∧
    (∀ x, x ≠ s → (MaterialChain_AddSurf maxVerts m c s).surfs x = m.surfs x) ∧
    (MaterialChain_AddSurf maxVerts m c s).chains c =
      { m.chains c with
        surf := some s,
        numverts := wrap32 ((m.chains c).numverts + (m.surfs s).numedges),
        numindices := wrap32 ((m.chains c).numindices +
          wrap32 (wrap32 ((m.surfs s).numedges - 2) * 3)) } ∧
    (∀ a, a ≠ c → (MaterialChain_AddSurf maxVerts m c s).chains a = m.chains a) ∧
    (MaterialChain_AddSurf maxVerts m c s).tails = m.tails ∧
    (MaterialChain_AddSurf maxVerts m c s).brk = m.brk ∧
    (MaterialChain_AddSurf maxVerts m c s).junk = m.junk ∧
    (MaterialChain_AddSurf maxVerts m c s).trace = m.trace := by
  rw [AddSurf_link maxVerts m c s hp hno]
  refine ⟨?_, ?_, ?_, ?_, ?_, rfl, rfl, rfl, rfl⟩
  · intro x
    rw [addCounts_surfs]
    by_cases hx : x = s
    · subst hx
      simp
    · simp [Function.update_noteq hx]
  · rw [addCounts_surfs]
    simp
  · intro x hx
    rw [addCounts_surfs]
    simp [Function.update_noteq hx]
  · rw [addCounts_chains_self]
    simp
  · intro a ha
    rw [addCounts_chains_other _ _ _ _ ha]
    simp [Function.update_noteq ha]

/-- Head insertion without overflow: the walk from the head yields the appended
surfaces, last first, followed by what the head led to before. -/
theorem addSurfs_walk (maxVerts : Int) (c : Nat) (hB : maxVerts ≤ 2147483648) :
    ∀ (ss : List Nat) (m : Mem) (done : List Nat) (fuel : Nat),
      ss.Nodup → (∀ s ∈ ss, s ∉ done) → (∀ s ∈ ss, (m.surfs s).poly.isSome = true) →
      (∀ k, -2147483648 ≤ (m.chains c).numverts + totalEdges m.surfs (ss.take k) ∧
        (m.chains c).numverts + totalEdges m.surfs (ss.take k) < maxVerts) →
      surfWalk m.surfs fuel (m.chains c).surf = some done →
      surfWalk (addSurfs maxVerts m c ss).surfs (fuel + ss.length)
        ((addSurfs maxVerts m c ss).chains c).surf = some (ss.reverse ++ done) := by
  intro ss
  induction ss with
  | nil =>
    intro m done fuel _ _ _ _ hw
    simpa [addSurfs] using hw
  | cons s ss ih =>
    intro m done fuel hnd hdone hpoly hrun hw
    have hp : (m.surfs s).poly.isSome = true := hpoly s (List.mem_cons_self _ _)
    have hk1 := hrun 1
    simp only [List.take_succ_cons, List.take_zero, totalEdges_cons, hp, if_true] at hk1
    have hte : totalEdges m.surfs [] = 0 := rfl
    rw [hte, add_zero] at hk1
    have hno : overflows maxVerts m c s = false := by
      have hw32 := wrap32_of_range hk1.1 (by omega)
      simp only [overflows, hw32, decide_eq_false_iff_not, not_le]
      exact hk1.2
    obtain ⟨f1, f2, f3, f4, -, -, -, -, -⟩ := AddSurf_link_facts maxVerts m c s hp hno
    have hnd2 := List.nodup_cons.mp hnd
    have hs_done : s ∉ done := hdone s (List.mem_cons_self _ _)
    have hstep : addSurfs maxVerts m c (s :: ss) =
        addSurfs maxVerts (MaterialChain_AddSurf maxVerts m c s) c ss := rfl
    rw [hstep]
    have hw2 : surfWalk (MaterialChain_AddSurf maxVerts m c s).surfs (fuel + 1)
        ((MaterialChain_AddSurf maxVerts m c s).chains c).surf = some (s :: done) := by
      rw [f4]
      simp only [surfWalk, Option.map_eq_some']
      refine ⟨done, ?_, rfl⟩
      rw [f2]
      apply surfWalk_congr m.surfs _ fuel _ done _ hw
      intro x hx
      rw [f3 x (fun h => hs_done (h ▸ hx))]
    have := ih (MaterialChain_AddSurf maxVerts m c s) (s :: done) (fuel + 1) hnd2.2
      (fun x hx hmem => by
        rcases List.mem_cons.mp hmem with h | h
        · exact hnd2.1 (h ▸ hx)
        · exact hdone x (List.mem_cons_of_mem _ hx) h)
      (fun x hx => by rw [(f1 x).1]; exact hpoly x (List.mem_cons_of_mem _ hx))
      (fun k => by
        have hk := hrun (k + 1)
        simp only [List.take_succ_cons, totalEdges_cons, hp, if_true] at hk
        rw [totalEdges_congr m.surfs _ _ f1, f4]
        simp only []
        rw [wrap32_of_range hk1.1 (by omega)]
        omega)
      hw2
    rw [show fuel + (s :: ss).length = fuel + 1 + ss.length by simp; omega]
    simpa using this

/-! ## C1: head insertion yields the reverse order -/

/-- C1: for a chain freshly reset with `MaterialChains_Init` and distinct
surfaces `S1..Sn` that all have geometry and whose running vertex total stays
below the batch budget, after `MaterialChain_AddSurf` on `S1, ..., Sn` in that
order, walking from the chain's `surf` along the chain links yields exactly
`Sn, ..., S1` and then reaches `NULL`. -/
theorem AddSurf_walk_reversed (m : Mem) (materialchains count i : Nat) (ss : List Nat)
    (hi : i < count) (hnd : ss.Nodup)
    (hpoly : ∀ s ∈ ss, (m.surfs s).poly.isSome = true)
    (hrun : ∀ k, -2147483648 ≤ totalEdges m.surfs (ss.take k) ∧
      totalEdges m.surfs (ss.take k) < MATERIALCHAIN_MAX_VERTS)
    (fuel : Nat) (hfuel : ss.length ≤ fuel) :
    surfWalk
      (addSurfs MATERIALCHAIN_MAX_VERTS (MaterialChains_Init m materialchains count)
        (materialchains + i) ss).surfs fuel
      ((addSurfs MATERIALCHAIN_MAX_VERTS (MaterialChains_Init m materialchains count)
        (materialchains + i) ss).chains (materialchains + i)).surf = some ss.reverse := by
  have hz : (MaterialChains_Init m materialchains count).chains (materialchains + i) =
      zeroChain := memsetChains_inside _ _ _ _ (by omega)
  have h := addSurfs_walk MATERIALCHAIN_MAX_VERTS (materialchains + i) (by decide) ss
    (MaterialChains_Init m materialchains count) [] 0 hnd (fun _ _ h => by simp at h) hpoly
    (fun k => by
      rw [hz]
      have := hrun k
      simp only [zeroChain, zero_add]
      exact this)
    (by rw [hz]; rfl)
  rw [List.append_nil, Nat.zero_add] at h
  exact surfWalk_mono _ _ _ _ _ hfuel h

theorem AddSurf_walk_reversed_witness :
    surfWalk
      (addSurfs MATERIALCHAIN_MAX_VERTS (MaterialChains_Init sampleMem 0 2) (0 + 1)
        [1, 2, 3]).surfs 3
      ((addSurfs MATERIALCHAIN_MAX_VERTS (MaterialChains_Init sampleMem 0 2) (0 + 1)
        [1, 2, 3]).chains (0 + 1)).surf = some [3, 2, 1] :=
  AddSurf_walk_reversed sampleMem 0 2 1 [1, 2, 3] (by decide) (by decide) (by decide)
    (fun k => by
      rcases k with _ | _ | _ | _ | k <;>
        simp [totalEdges, sampleMem, MATERIALCHAIN_MAX_VERTS])
    3 (by decide)

/-! ## C2: tail insertion -/

theorem surfWalk_nil_inv (surfs : Nat → msurface_t) (fuel : Nat) (p : Option Nat)
    (h : surfWalk surfs fuel p = some []) : p = none := by
  cases p with
  | none => rfl
  | some s =>
    cases fuel with
    | zero => simp [surfWalk] at h
    | succ f => simp [surfWalk] at h

/-- Linking `s` behind the last surface of a walk extends the walk by `s`. -/
theorem surfWalk_snoc (surfs : Nat → msurface_t) (s last : Nat) :
    ∀ (l : List Nat) (fuel : Nat) (p : Option Nat),
      surfWalk surfs fuel p = some (l ++ [last]) → (l ++ [last]).Nodup → s ∉ l ++ [last] →
      surfWalk
        (Function.update (Function.update surfs s { surfs s with chain := none }) last
          { Function.update surfs s { surfs s with chain := none } last with chain := some s })
        (fuel + 1) p = some (l ++ [last, s]) := by
  intro l
  induction l with
  | nil =>
    intro fuel p h _ hs
    have hsl : s ≠ last := by
      intro e
      exact hs (by simp [e])
    cases p with
    | none => cases fuel <;> simp [surfWalk] at h
    | some x =>
      cases fuel with
      | zero => simp [surfWalk] at h
      | succ f =>
        simp only [surfWalk, Option.map_eq_some', List.nil_append] at h
        obtain ⟨r, hr, hcons⟩ := h
        have hx : x = last := by
          have := List.cons_eq_cons.mp hcons
          exact this.1
        subst hx
        simp [surfWalk, Function.update_noteq hsl]
  | cons y l ih =>
    intro fuel p h hnd hs
    cases p with
    | none => cases fuel <;> simp [surfWalk] at h
    | some x =>
      cases fuel with
      | zero => simp [surfWalk] at h
      | succ f =>
        simp only [surfWalk, Option.map_eq_some', List.cons_append] at h
        obtain ⟨r, hr, hcons⟩ := h
        obtain ⟨hxy, hrl⟩ := List.cons_eq_cons.mp hcons
        subst hxy
        subst hrl
        have hnd2 := List.nodup_cons.mp hnd
        have hxlast : x ≠ last := by
          intro e
          exact hnd2.1 (by simp [e])
        have hxs : x ≠ s := by
          intro e
          exact hs (by simp [e])
        have hs2 : s ∉ l ++ [last] := fun hmem => hs (List.mem_cons_of_mem _ hmem)
        have := ih f _ hr hnd2.2 hs2
        simp only [surfWalk, Option.map_eq_some', List.cons_append]
        refine ⟨l ++ [last, s], ?_, rfl⟩
        rw [Function.update_noteq hxlast, Function.update_noteq hxs]
        exact this

/-- Tail insertion without overflow: a walk that ends in the surface the tail
refers to is extended by the appended surfaces in submission order, and the
chain header keeps its head reference. -/
theorem addSurfsTail_walk (maxVerts : Int) (c t : Nat) (hB : maxVerts ≤ 2147483648)
    (p : Option Nat) :
    ∀ (ss : List Nat) (m : Mem) (done : List Nat) (last fuel : Nat),
      ss.Nodup → (∀ s ∈ ss, s ∉ done ++ [last]) → (done ++ [last]).Nodup →
      (∀ s ∈ ss, (m.surfs s).poly.isSome = true) →
      (∀ k, -2147483648 ≤ (m.chains c).numverts + totalEdges m.surfs (ss.take k) ∧
        (m.chains c).numverts + totalEdges m.surfs (ss.take k) < maxVerts) →
      m.tails t = some last →
      surfWalk m.surfs fuel p = some (done ++ [last]) →
      ∃ m1, addSurfsTail maxVerts c t m ss = some m1 ∧
        surfWalk m1.surfs (fuel + ss.length) p = some (done ++ [last] ++ ss) ∧
        (m1.chains c).surf = (m.chains c).surf ∧
        m1.tails t = some ((last :: ss).getLast (List.cons_ne_nil _ _)) := by
  intro ss
  induction ss with
  | nil =>
    intro m done last fuel _ _ _ _ _ ht hw
    exact ⟨m, rfl, by simpa using hw, rfl, by simpa using ht⟩
  | cons s ss ih =>
    intro m done last fuel hnd hdone hnd0 hpoly hrun ht hw
    have hp : (m.surfs s).poly.isSome = true := hpoly s (List.mem_cons_self _ _)
    have hk1 := hrun 1
    simp only [List.take_succ_cons, List.take_zero, totalEdges_cons, hp, if_true] at hk1
    have hte : totalEdges m.surfs [] = 0 := rfl
    rw [hte, add_zero] at hk1
    have hno : overflows maxVerts m c s = false := by
      have hw32 := wrap32_of_range hk1.1 (by omega)
      simp only [overflows, hw32, decide_eq_false_iff_not, not_le]
      exact hk1.2
    have hstep := AddSurf_Tail_link maxVerts m c s t last hp hno ht
    have hnd2 := List.nodup_cons.mp hnd
    have hs_done : s ∉ done ++ [last] := hdone s (List.mem_cons_self _ _)
    have hsl : s ≠ last := fun e => hs_done (by simp [e])
    obtain ⟨m1, hm1, hw1, hsurf1, htail1⟩ := ih
      (addCounts
        { m with
          surfs := Function.update
            (Function.update m.surfs s { m.surfs s with chain := none }) last
            { Function.update m.surfs s { m.surfs s with chain := none } last with
              chain := some s },
          tails := Function.update m.tails t (some s) } c s)
      (done ++ [last]) s (fuel + 1) hnd2.2
      (fun x hx hmem => by
        rcases List.mem_append.mp hmem with h | h
        · exact hdone x (List.mem_cons_of_mem _ hx) h
        · exact hnd2.1 ((List.mem_singleton.mp h) ▸ hx))
      (by
        rw [List.nodup_append]
        refine ⟨hnd0, by simp, ?_⟩
        intro a ha hb
        simp only [List.mem_singleton] at hb
        exact hs_done (hb ▸ ha))
      (fun x hx => by
        rw [addCounts_surfs]
        have := hpoly x (List.mem_cons_of_mem _ hx)
        by_cases h1 : x = last
        · subst h1
          simpa [Function.update_noteq (Ne.symm hsl)] using this
        · by_cases h2 : x = s
          · subst h2
            simpa [Function.update_noteq h1] using this
          · simpa [Function.update_noteq h1, Function.update_noteq h2] using this)
      (fun k => by
        have hk := hrun (k + 1)
        simp only [List.take_succ_cons, totalEdges_cons, hp, if_true] at hk
        have hcong : totalEdges
            (addCounts
              { m with
                surfs := Function.update
                  (Function.update m.surfs s { m.surfs s with chain := none }) last
                  { Function.update m.surfs s { m.surfs s with chain := none } last with
                    chain := some s },
                tails := Function.update m.tails t (some s) } c s).surfs (ss.take k) =
            totalEdges m.surfs (ss.take k) := by
          apply totalEdges_congr
          intro x
          rw [addCounts_surfs]
          by_cases h1 : x = last
          · subst h1
            simp [Function.update_noteq (Ne.symm hsl)]
          · by_cases h2 : x = s
            · subst h2
              simp [Function.update_noteq h1]
            · simp [Function.update_noteq h1, Function.update_noteq h2]
        rw [hcong, addCounts_chains_self]
        simp only []
        have hsame : ((Function.update (Function.update m.surfs s
            { m.surfs s with chain := none }) last
            { Function.update m.surfs s { m.surfs s with chain := none } last with
              chain := some s }) s).numedges = (m.surfs s).numedges := by
          simp [Function.update_noteq hsl]
        rw [hsame, wrap32_of_range hk1.1 (by omega)]
        omega)
      (by rw [addCounts_tails]; simp)
      (by
        rw [addCounts_surfs]
        have := surfWalk_snoc m.surfs s last done fuel p hw hnd0 hs_done
        simpa using this)
    refine ⟨m1, ?_, ?_, ?_, ?_⟩
    · simp only [addSurfsTail, hstep]
      exact hm1
    · rw [show fuel + (s :: ss).length = fuel + 1 + ss.length by simp; omega, hw1]
      simp
    · rw [hsurf1, addCounts_chains_self]
    · rw [htail1]
      simp [List.getLast_cons]

theorem Init_Reverse_chain (m : Mem) (b n i : Nat) (hi : i < n) :
    (MaterialChains_Init_Reverse m b n).chains (b + i) =
      { numverts := 0, numindices := 0, surf := none, overflow := none,
        overflow_tail := some (b + i) } := by
  have hp : b + 0 ≤ b + i ∧ b + i < b + 0 + n := by omega
  show initReverseLoop _ _ _ _ _ = _
  rw [initReverseLoop_apply, if_pos hp, memsetChains_inside _ _ _ _ (by omega)]
  rfl

/-- C2, as stated, fails: on a chain reset with `MaterialChains_Init_Reverse`
whose caller's tail refers to surface 9, `MaterialChain_AddSurf_Tail` on the
surfaces 1 and 2 (triangles with geometry, far below the budget) leaves the
chain's `surf` at `NULL`, so the walk from it never yields `[1, 2]`.  With the
tail variable still `NULL` the first call dereferences it. -/
theorem AddSurf_Tail_leaves_head_null :
    (∃ m1, addSurfsTail MATERIALCHAIN_MAX_VERTS 0 0
        (MaterialChains_Init_Reverse sampleTailMem 0 1) [1, 2] = some m1 ∧
      (m1.chains 0).surf = none ∧
      ∀ fuel, surfWalk m1.surfs fuel (m1.chains 0).surf ≠ some [1, 2]) ∧
    addSurfsTail MATERIALCHAIN_MAX_VERTS 0 0
      (MaterialChains_Init_Reverse sampleMem 0 1) [1, 2] = none := by
  constructor
  · obtain ⟨m1, h1, -, h3, -⟩ := addSurfsTail_walk MATERIALCHAIN_MAX_VERTS 0 0 (by decide)
      (some 9) [1, 2] (MaterialChains_Init_Reverse sampleTailMem 0 1) [] 9 1 (by decide)
      (by decide) (by decide) (by decide)
      (fun k => by
        rw [show (0 : Nat) = 0 + 0 from rfl, Init_Reverse_chain sampleTailMem 0 1 0 (by decide)]
        rcases k with _ | _ | _ | k <;>
          simp [totalEdges, sampleTailMem, sampleMem, MaterialChains_Init_Reverse,
            MATERIALCHAIN_MAX_VERTS])
      rfl rfl
    have h0 : ((MaterialChains_Init_Reverse sampleTailMem 0 1).chains 0).surf = none := by
      rw [show (0 : Nat) = 0 + 0 from rfl, Init_Reverse_chain sampleTailMem 0 1 0 (by decide)]
    refine ⟨m1, h1, h3.trans h0, ?_⟩
    intro fuel
    rw [h3.trans h0]
    cases fuel <;> simp [surfWalk]
  · have hp : ((MaterialChains_Init_Reverse sampleMem 0 1).surfs 1).poly.isSome = true := by
      decide
    have hno : overflows MATERIALCHAIN_MAX_VERTS (MaterialChains_Init_Reverse sampleMem 0 1)
        0 1 = false := by
      have h0 := Init_Reverse_chain sampleMem 0 1 0 (by decide)
      rw [Nat.add_zero] at h0
      have he : ((MaterialChains_Init_Reverse sampleMem 0 1).surfs 1).numedges = 3 := rfl
      simp [overflows, h0, he, wrap32, MATERIALCHAIN_MAX_VERTS]
    simp only [addSurfsTail,
      AddSurf_Tail_null MATERIALCHAIN_MAX_VERTS _ 0 1 0 hp hno rfl]

/-- C2, amended: on a chain freshly reset with `MaterialChains_Init_Reverse`,
let `S1` be linked as the head with `MaterialChain_AddSurf` and the caller's
tail be set to `S1`; for distinct surfaces `S1..Sn` with geometry whose running
vertex total stays below the batch budget, `MaterialChain_AddSurf_Tail` on
`S2, ..., Sn` in that order succeeds, and walking from the chain's `surf` along
the chain links yields exactly `S1, ..., Sn` and then reaches `NULL`; the tail
refers to `Sn`. -/
theorem AddSurf_Tail_walk_in_order (m : Mem) (materialchains count i tail s1 : Nat)
    (ss : List Nat) (hi : i < count) (hnd : (s1 :: ss).Nodup)
    (hpoly : ∀ s ∈ s1 :: ss, (m.surfs s).poly.isSome = true)
    (hrun : ∀ k, -2147483648 ≤ totalEdges m.surfs ((s1 :: ss).take k) ∧
      totalEdges m.surfs ((s1 :: ss).take k) < MATERIALCHAIN_MAX_VERTS) :
    ∃ m1, addSurfsTail MATERIALCHAIN_MAX_VERTS (materialchains + i) tail
        (setTail (MaterialChain_AddSurf MATERIALCHAIN_MAX_VERTS
          (MaterialChains_Init_Reverse m materialchains count) (materialchains + i) s1)
          tail s1) ss = some m1 ∧
      (∀ fuel, (s1 :: ss).length ≤ fuel →
        surfWalk m1.surfs fuel (m1.chains (materialchains + i)).surf = some (s1 :: ss)) ∧
      m1.tails tail = some ((s1 :: ss).getLast (List.cons_ne_nil _ _)) := by
  have hc := Init_Reverse_chain m materialchains count i hi
  have hp : ((MaterialChains_Init_Reverse m materialchains count).surfs s1).poly.isSome =
      true := hpoly s1 (List.mem_cons_self _ _)
  have hk1 := hrun 1
  simp only [List.take_succ_cons, List.take_zero, totalEdges_cons,
    hpoly s1 (List.mem_cons_self _ _), if_true] at hk1
  have hte : totalEdges m.surfs [] = 0 := rfl
  rw [hte, add_zero] at hk1
  have hMAX : MATERIALCHAIN_MAX_VERTS = 65536 := rfl
  have hno : overflows MATERIALCHAIN_MAX_VERTS
      (MaterialChains_Init_Reverse m materialchains count) (materialchains + i) s1 = false := by
    have he : ((MaterialChains_Init_Reverse m materialchains count).surfs s1).numedges =
        (m.surfs s1).numedges := rfl
    simp only [overflows, hc, he, zero_add, decide_eq_false_iff_not, not_le]
    rw [wrap32_of_range hk1.1 (by omega)]
    exact hk1.2
  obtain ⟨f1, f2, f3, f4, -, -, -, -, -⟩ := AddSurf_link_facts MATERIALCHAIN_MAX_VERTS
    (MaterialChains_Init_Reverse m materialchains count) (materialchains + i) s1 hp hno
  have hnd2 := List.nodup_cons.mp hnd
  obtain ⟨m1, hm1, hw1, hsurf1, htail1⟩ := addSurfsTail_walk MATERIALCHAIN_MAX_VERTS
    (materialchains + i) tail (by decide) (some s1) ss
    (setTail (MaterialChain_AddSurf MATERIALCHAIN_MAX_VERTS
      (MaterialChains_Init_Reverse m materialchains count) (materialchains + i) s1) tail s1)
    [] s1 1 hnd2.2
    (fun x hx hmem => by
      simp only [List.nil_append, List.mem_singleton] at hmem
      exact hnd2.1 (hmem ▸ hx))
    (by simp)
    (fun x hx => by
      show ((MaterialChain_AddSurf _ _ _ _).surfs x).poly.isSome = true
      rw [(f1 x).1]
      exact hpoly x (List.mem_cons_of_mem _ hx))
    (fun k => by
      have hk := hrun (k + 1)
      simp only [List.take_succ_cons, totalEdges_cons, hpoly s1 (List.mem_cons_self _ _),
        if_true] at hk
      show -2147483648 ≤ ((MaterialChain_AddSurf _ _ _ _).chains _).numverts +
          totalEdges (MaterialChain_AddSurf _ _ _ _).surfs _ ∧
        ((MaterialChain_AddSurf _ _ _ _).chains _).numverts +
          totalEdges (MaterialChain_AddSurf _ _ _ _).surfs _ < _
      rw [totalEdges_congr _ _ _ f1, f4, hc]
      have he : ((MaterialChains_Init_Reverse m materialchains count).surfs s1).numedges =
          (m.surfs s1).numedges := rfl
      have hs : (MaterialChains_Init_Reverse m materialchains count).surfs = m.surfs := rfl
      simp only [he, hs, zero_add]
      rw [wrap32_of_range hk1.1 (by omega)]
      exact hk)
    (by simp [setTail])
    (by
      show surfWalk (MaterialChain_AddSurf _ _ _ _).surfs 1 (some s1) = some ([] ++ [s1])
      simp only [surfWalk, f2, hc, List.nil_append, Option.map_some'])
  have hhead : (m1.chains (materialchains + i)).surf = some s1 := by
    rw [hsurf1]
    show ((MaterialChain_AddSurf _ _ _ _).chains _).surf = _
    rw [f4]
  refine ⟨m1, hm1, ?_, htail1⟩
  intro fuel hfuel
  rw [hhead]
  apply surfWalk_mono _ (1 + ss.length) fuel _ _ (by simp at hfuel; omega)
  simpa using hw1

theorem AddSurf_Tail_walk_in_order_witness :
    ∃ m1, addSurfsTail MATERIALCHAIN_MAX_VERTS (0 + 0) 0
        (setTail (MaterialChain_AddSurf MATERIALCHAIN_MAX_VERTS
          (MaterialChains_Init_Reverse sampleMem 0 1) (0 + 0) 1) 0 1) [2, 3] = some m1 ∧
      surfWalk m1.surfs 3 (m1.chains (0 + 0)).surf = some [1, 2, 3] ∧
      m1.tails 0 = some 3 :=
  let ⟨m1, h1, h2, h3⟩ := AddSurf_Tail_walk_in_order sampleMem 0 1 0 0 1 [2, 3] (by decide)
    (by decide) (by decide)
    (fun k => by
      rcases k with _ | _ | _ | _ | k <;>
        simp [totalEdges, sampleMem, MATERIALCHAIN_MAX_VERTS])
  ⟨m1, h1, h2 3 (by decide), h3⟩

/-! ## Walking segments -/

theorem overflowPath_congr (chains1 chains2 : Nat → materialchain_t) :
    ∀ (fuel : Nat) (p : Option Nat) (l : List Nat),
      (∀ x ∈ l, (chains2 x).overflow = (chains1 x).overflow) →
      overflowPath chains1 fuel p = some l → overflowPath chains2 fuel p = some l := by
  intro fuel
  induction fuel with
  | zero =>
    intro p l _ h
    cases p with
    | none => simpa [overflowPath] using h
    | some s => simp [overflowPath] at h
  | succ fuel ih =>
    intro p l hl h
    cases p with
    | none => simpa [overflowPath] using h
    | some s =>
      simp only [overflowPath, Option.map_eq_some'] at h ⊢
      obtain ⟨r, hr, rfl⟩ := h
      refine ⟨r, ?_, rfl⟩
      rw [hl s (List.mem_cons_self _ _)]
      exact ih _ r (fun x hx => hl x (List.mem_cons_of_mem _ hx)) hr

theorem overflowPath_det (chains : Nat → materialchain_t) :
    ∀ (f1 f2 : Nat) (p : Option Nat) (l1 l2 : List Nat),
      overflowPath chains f1 p = some l1 → overflowPath chains f2 p = some l2 → l1 = l2 := by
  intro f1
  induction f1 with
  | zero =>
    intro f2 p l1 l2 h1 h2
    cases p with
    | none =>
      cases f2 <;> simp [overflowPath] at h1 h2 <;> rw [h1, h2]
    | some s => simp [overflowPath] at h1
  | succ f1 ih =>
    intro f2 p l1 l2 h1 h2
    cases p with
    | none =>
      cases f2 <;> simp [overflowPath] at h1 h2 <;> rw [h1, h2]
    | some s =>
      cases f2 with
      | zero => simp [overflowPath] at h2
      | succ f2 =>
        simp only [overflowPath, Option.map_eq_some'] at h1 h2
        obtain ⟨r1, hr1, rfl⟩ := h1
        obtain ⟨r2, hr2, rfl⟩ := h2
        rw [ih f2 _ r1 r2 hr1 hr2]

theorem overflowPath_from_member (chains : Nat → materialchain_t) :
    ∀ (fuel : Nat) (p : Option Nat) (l : List Nat) (x : Nat),
      overflowPath chains fuel p = some l → x ∈ l →
      ∃ f2 l2, overflowPath chains f2 (some x) = some l2 ∧ l2.length ≤ l.length := by
  intro fuel
  induction fuel with
  | zero =>
    intro p l x h hx
    cases p with
    | none =>
      simp [overflowPath] at h
      subst h
      simp at hx
    | some s => simp [overflowPath] at h
  | succ fuel ih =>
    intro p l x h hx
    cases p with
    | none =>
      simp [overflowPath] at h
      subst h
      simp at hx
    | some s =>
      have h0 := h
      simp only [overflowPath, Option.map_eq_some'] at h
      obtain ⟨r, hr, rfl⟩ := h
      rcases List.mem_cons.mp hx with e | hmem
      · subst e
        exact ⟨fuel + 1, x :: r, h0, le_refl _⟩
      · obtain ⟨f2, l2, h2, hlen⟩ := ih _ r x hr hmem
        exact ⟨f2, l2, h2, by simp; omega⟩

/-- A walk along `overflow` links that reaches `NULL` meets no segment twice. -/
theorem overflowPath_nodup (chains : Nat → materialchain_t) :
    ∀ (fuel : Nat) (p : Option Nat) (l : List Nat),
      overflowPath chains fuel p = some l → l.Nodup := by
  intro fuel
  induction fuel with
  | zero =>
    intro p l h
    cases p with
    | none =>
      simp [overflowPath] at h
      subst h
      exact List.nodup_nil
    | some s => simp [overflowPath] at h
  | succ fuel ih =>
    intro p l h
    cases p with
    | none =>
      simp [overflowPath] at h
      subst h
      exact List.nodup_nil
    | some s =>
      have h0 := h
      simp only [overflowPath, Option.map_eq_some'] at h
      obtain ⟨r, hr, rfl⟩ := h
      refine List.nodup_cons.mpr ⟨?_, ih _ r hr⟩
      intro hmem
      obtain ⟨f2, l2, h2, hlen⟩ := overflowPath_from_member chains fuel _ r s hr hmem
      have := overflowPath_det chains _ _ _ _ _ h2 h0
      subst this
      simp at hlen

theorem visited_append (a b : List Event) : visited (a ++ b) = visited a ++ visited b := by
  simp [visited, List.filterMap_append]

theorem visited_segmentEvents (head : Nat) (l : List Nat) :
    visited (l.flatMap (segmentEvents head)) = l := by
  induction l with
  | nil => rfl
  | cons x l ih =>
    rw [List.flatMap_cons, visited_append, ih]
    by_cases h : x = head <;> simp [segmentEvents, visited, h]

theorem count_zfree_segmentEvents (head x : Nat) (l : List Nat) (hnd : l.Nodup) :
    (l.flatMap (segmentEvents head)).count (Event.zfree x) =
      if x ∈ l ∧ x ≠ head then 1 else 0 := by
  induction l with
  | nil => simp
  | cons y l ih =>
    have hnd2 := List.nodup_cons.mp hnd
    rw [List.flatMap_cons, List.count_append, ih hnd2.2]
    by_cases hy : y = head
    · by_cases hxy : x = y
      · subst hxy
        simp [segmentEvents, hy]
      · subst hy
        simp [segmentEvents, hxy]
    · by_cases hxy : x = y
      · subst hxy
        simp [segmentEvents, hy, hnd2.1]
      · have hne : Event.zfree y ≠ Event.zfree x := by
          intro e
          injection e with e2
          exact hxy e2.symm
        simp [segmentEvents, hy, hxy, List.count_cons, hne]

/-- The loop of `ForEach_MaterialChain` follows the `overflow` links of the state
it starts in: it runs the body on every segment of the path, frees each one but
`head` right after, leaves `head` as it was and every freed block with the
zone's contents. -/
theorem forEachLoop_path (body : Nat → Mem → Mem) (hbody : BodyFrame body) (head : Nat) :
    ∀ (fuel : Nat) (m : Mem) (p : Option Nat) (l : List Nat),
      overflowPath m.chains fuel p = some l →
      ∃ m1, forEachLoop body head fuel m p = some m1 ∧
        m1.trace = m.trace ++ l.flatMap (segmentEvents head) ∧
        m1.junk = m.junk ∧
        (∀ a, a ∈ l → a ≠ head → m1.chains a = m.junk a) ∧
        (∀ a, a ∉ l ∨ a = head → m1.chains a = m.chains a) := by
  intro fuel
  induction fuel with
  | zero =>
    intro m p l h
    cases p with
    | none =>
      simp [overflowPath] at h
      subst h
      exact ⟨m, rfl, by simp, rfl, by simp, fun _ _ => rfl⟩
    | some x => simp [overflowPath] at h
  | succ fuel ih =>
    intro m p l h
    cases p with
    | none =>
      simp [overflowPath] at h
      subst h
      exact ⟨m, rfl, by simp, rfl, by simp, fun _ _ => rfl⟩
    | some x =>
      have hnd := overflowPath_nodup m.chains _ _ _ h
      simp only [overflowPath, Option.map_eq_some'] at h
      obtain ⟨r, hr, rfl⟩ := h
      have hxr : x ∉ r := (List.nodup_cons.mp hnd).1
      obtain ⟨hb1, hb2, hb3⟩ := hbody x { m with trace := m.trace ++ [Event.visit x] }
      simp only [] at hb1 hb2 hb3
      by_cases hx : x = head
      · -- the caller's chain: visited, not freed
        have hnext : forEachNext (body x { m with trace := m.trace ++ [Event.visit x] }) head x
            = (body x { m with trace := m.trace ++ [Event.visit x] }, (m.chains x).overflow) := by
          show ((if x ≠ head then Z_Free _ x else _), ((body x _).chains x).overflow) = _
          rw [hb1, if_neg (not_not.mpr hx)]
        obtain ⟨m1, h1, h2, h3, h4, h5⟩ :=
          ih (body x { m with trace := m.trace ++ [Event.visit x] }) (m.chains x).overflow r
            (by rw [hb1]; exact hr)
        refine ⟨m1, ?_, ?_, ?_, ?_, ?_⟩
        · simp only [forEachLoop, hnext]
          exact h1
        · rw [h2, hb3, List.flatMap_cons]
          simp [segmentEvents, hx]
        · rw [h3, hb2]
        · intro a ha hne
          rcases List.mem_cons.mp ha with e | hmem
          · exact absurd (e.trans hx) hne
          · rw [h4 a hmem hne, hb2]
        · intro a ha
          rw [h5 a (by
            rcases ha with h | h
            · exact Or.inl (fun hm => h (List.mem_cons_of_mem _ hm))
            · exact Or.inr h), hb1]
      · -- an overflow block: visited, successor read, freed
        have hnext : forEachNext (body x { m with trace := m.trace ++ [Event.visit x] }) head x
            = (Z_Free (body x { m with trace := m.trace ++ [Event.visit x] }) x,
                (m.chains x).overflow) := by
          show ((if x ≠ head then Z_Free _ x else _), ((body x _).chains x).overflow) = _
          rw [hb1, if_pos hx]
        obtain ⟨m1, h1, h2, h3, h4, h5⟩ :=
          ih (Z_Free (body x { m with trace := m.trace ++ [Event.visit x] }) x)
            (m.chains x).overflow r
            (by
              apply overflowPath_congr m.chains _ _ _ _ _ hr
              intro y hy
              have hyx : y ≠ x := fun e => hxr (e ▸ hy)
              simp [Z_Free, hb1, Function.update_noteq hyx])
        have hj : (Z_Free (body x { m with trace := m.trace ++ [Event.visit x] }) x).junk =
            m.junk := hb2
        refine ⟨m1, ?_, ?_, ?_, ?_, ?_⟩
        · simp only [forEachLoop, hnext]
          exact h1
        · rw [h2, List.flatMap_cons]
          simp [segmentEvents, hx, Z_Free, hb3]
        · rw [h3, hj]
        · intro a ha hne
          rcases List.mem_cons.mp ha with e | hmem
          · subst e
            rw [h5 a (Or.inl hxr)]
            simp [Z_Free, hb2]
          · rw [h4 a hmem hne, hj]
        · intro a ha
          have hax : a ≠ x := by
            rcases ha with h | h
            · exact fun e => h (e ▸ List.mem_cons_self _ _)
            · exact fun e => hx (e ▸ h)
          rw [h5 a (by
            rcases ha with h | h
            · exact Or.inl (fun hm => h (List.mem_cons_of_mem _ hm))
            · exact Or.inr h)]
          simp [Z_Free, hb1, Function.update_noteq hax]

theorem overflowPath_links (chains : Nat → materialchain_t) :
    ∀ (fuel : Nat) (p : Option Nat) (l : List Nat),
      overflowPath chains fuel p = some l →
      l.head? = p ∧ ∀ k x, l[k]? = some x → l[k + 1]? = (chains x).overflow := by
  intro fuel
  induction fuel with
  | zero =>
    intro p l h
    cases p with
    | none =>
      simp [overflowPath] at h
      subst h
      simp
    | some s => simp [overflowPath] at h
  | succ fuel ih =>
    intro p l h
    cases p with
    | none =>
      simp [overflowPath] at h
      subst h
      simp
    | some s =>
      simp only [overflowPath, Option.map_eq_some'] at h
      obtain ⟨r, hr, rfl⟩ := h
      obtain ⟨ih1, ih2⟩ := ih _ r hr
      refine ⟨rfl, ?_⟩
      intro k x hk
      cases k with
      | zero =>
        simp only [List.getElem?_cons_zero, Option.some.injEq] at hk
        subst hk
        simp only [zero_add, List.getElem?_cons_succ]
        rw [← ih1]
        cases r <;> simp
      | succ k =>
        simp only [List.getElem?_cons_succ] at hk ⊢
        exact ih2 k x hk

theorem forEachStart_eq (m : Mem) (c : Nat) :
    forEachStart m c = (m.chains c).overflow_tail.getD c := by
  unfold forEachStart
  cases (m.chains c).overflow_tail <;> rfl

/-! ## C9, C10: the consuming walk -/

/-- C9: when following `overflow` links from the starting segment reaches `NULL`
(the links are acyclic), the `ForEach_MaterialChain` walk terminates and the
segments it visits are: first the segment the chain's `overflow_tail` refers to
when that is not `NULL` and otherwise the chain itself, then every visited
segment's `overflow` successor in turn, up to the first `NULL`.  In particular
a chain whose `overflow` is `NULL` and whose `overflow_tail` is `NULL` or the
chain itself, as `MaterialChains_Init` and `MaterialChains_Init_Reverse` leave
it and as it stays until an overflow, is visited exactly once, as the chain
itself. -/
theorem ForEach_visits_overflow_path (body : Nat → Mem → Mem) (hbody : BodyFrame body) :
    (∀ (m : Mem) (materialchain fuel : Nat) (l : List Nat),
      overflowPath m.chains fuel
          (some ((m.chains materialchain).overflow_tail.getD materialchain)) = some l →
      ∃ m1, ForEach_MaterialChain body fuel m materialchain = some m1 ∧
        visited m1.trace = visited m.trace ++ l ∧
        l.head? = some ((m.chains materialchain).overflow_tail.getD materialchain) ∧
        ∀ k x, l[k]? = some x → l[k + 1]? = (m.chains x).overflow) ∧
    (∀ (m : Mem) (materialchain : Nat), (m.chains materialchain).overflow = none →
      ((m.chains materialchain).overflow_tail = none ∨
        (m.chains materialchain).overflow_tail = some materialchain) →
      ∃ m1, ForEach_MaterialChain body 1 m materialchain = some m1 ∧
        visited m1.trace = visited m.trace ++ [materialchain]) ∧
    (∀ (m : Mem) (materialchains count i : Nat), i < count →
      (∃ m1, ForEach_MaterialChain body 1 (MaterialChains_Init m materialchains count)
          (materialchains + i) = some m1 ∧
        visited m1.trace = visited m.trace ++ [materialchains + i]) ∧
      ∃ m1, ForEach_MaterialChain body 1 (MaterialChains_Init_Reverse m materialchains count)
          (materialchains + i) = some m1 ∧
        visited m1.trace = visited m.trace ++ [materialchains + i]) := by
  have hgen : ∀ (m : Mem) (materialchain fuel : Nat) (l : List Nat),
      overflowPath m.chains fuel
          (some ((m.chains materialchain).overflow_tail.getD materialchain)) = some l →
      ∃ m1, ForEach_MaterialChain body fuel m materialchain = some m1 ∧
        visited m1.trace = visited m.trace ++ l ∧
        l.head? = some ((m.chains materialchain).overflow_tail.getD materialchain) ∧
        ∀ k x, l[k]? = some x → l[k + 1]? = (m.chains x).overflow := by
    intro m c fuel l hl
    obtain ⟨m1, h1, h2, -, -, -⟩ := forEachLoop_path body hbody c fuel m _ l hl
    obtain ⟨hl1, hl2⟩ := overflowPath_links m.chains fuel _ l hl
    refine ⟨m1, ?_, ?_, hl1, hl2⟩
    · unfold ForEach_MaterialChain
      rw [forEachStart_eq]
      exact h1
    · rw [h2, visited_append, visited_segmentEvents]
  have hone : ∀ (m : Mem) (materialchain : Nat), (m.chains materialchain).overflow = none →
      ((m.chains materialchain).overflow_tail = none ∨
        (m.chains materialchain).overflow_tail = some materialchain) →
      ∃ m1, ForEach_MaterialChain body 1 m materialchain = some m1 ∧
        visited m1.trace = visited m.trace ++ [materialchain] := by
    intro m c hov ht
    have hstart : (m.chains c).overflow_tail.getD c = c := by
      rcases ht with h | h <;> rw [h] <;> rfl
    obtain ⟨m1, h1, h2, -, -⟩ := hgen m c 1 [c] (by
      rw [hstart]
      simp [overflowPath, hov])
    exact ⟨m1, h1, h2⟩
  refine ⟨hgen, hone, ?_⟩
  intro m b n i hi
  constructor
  · have hc : (MaterialChains_Init m b n).chains (b + i) = zeroChain :=
      memsetChains_inside _ _ _ _ (by omega)
    exact hone (MaterialChains_Init m b n) (b + i) (by rw [hc]; rfl) (Or.inl (by rw [hc]; rfl))
  · have hc := Init_Reverse_chain m b n i hi
    exact hone (MaterialChains_Init_Reverse m b n) (b + i) (by rw [hc])
      (Or.inr (by rw [hc]))

theorem ForEach_visits_overflow_path_witness :
    ∃ m1, ForEach_MaterialChain (fun _ m => m) 3
        (addSurfs 4 (MaterialChains_Init sampleMem 0 1) 0 [1, 2, 3]) 0 = some m1 ∧
      visited m1.trace =
        visited (addSurfs 4 (MaterialChains_Init sampleMem 0 1) 0 [1, 2, 3]).trace ++
          [0, 101, 100] :=
  let ⟨m1, h1, h2, _⟩ := (ForEach_visits_overflow_path (fun _ m => m)
    (fun _ _ => ⟨rfl, rfl, rfl⟩)).1
    (addSurfs 4 (MaterialChains_Init sampleMem 0 1) 0 [1, 2, 3]) 0 3 [0, 101, 100] (by decide)
  ⟨m1, h1, h2⟩

/-- C10: during a `ForEach_MaterialChain` walk over an acyclic chain, the calls
made are, segment by segment in visiting order, the body's run on the segment
followed at once by `Z_Free` of that segment, except that the caller's chain
(the one the walk was started on) gets no `Z_Free`.  So every visited segment
other than the caller's chain is freed exactly once, the caller's chain is
never freed (also when the walk starts elsewhere through `overflow_tail`), and
segments off the path are not freed.  After the walk the caller's chain holds
what it held before and every freed block holds the zone's contents, although
the walk went on to the successor that block held before it was freed. -/
theorem ForEach_frees_visited_overflow (body : Nat → Mem → Mem) (hbody : BodyFrame body)
    (m : Mem) (materialchain fuel : Nat) (l : List Nat)
    (hpath : overflowPath m.chains fuel
      (some ((m.chains materialchain).overflow_tail.getD materialchain)) = some l) :
    ∃ m1, ForEach_MaterialChain body fuel m materialchain = some m1 ∧
      m1.trace = m.trace ++ l.flatMap (segmentEvents materialchain) ∧
      (l.flatMap (segmentEvents materialchain)).count (Event.zfree materialchain) = 0 ∧
      (∀ x ∈ l, x ≠ materialchain →
        (l.flatMap (segmentEvents materialchain)).count (Event.zfree x) = 1) ∧
      (∀ x, x ∉ l → (l.flatMap (segmentEvents materialchain)).count (Event.zfree x) = 0) ∧
      m1.chains materialchain = m.chains materialchain ∧
      (∀ x ∈ l, x ≠ materialchain → m1.chains x = m.junk x) ∧
      ∀ k x, l[k]? = some x → l[k + 1]? = (m.chains x).overflow := by
  obtain ⟨m1, h1, h2, -, h4, h5⟩ := forEachLoop_path body hbody materialchain fuel m _ l hpath
  have hnd := overflowPath_nodup m.chains _ _ _ hpath
  refine ⟨m1, ?_, h2, ?_, ?_, ?_, h5 _ (Or.inr rfl), h4,
    (overflowPath_links m.chains fuel _ l hpath).2⟩
  · unfold ForEach_MaterialChain
    rw [forEachStart_eq]
    exact h1
  · rw [count_zfree_segmentEvents _ _ _ hnd]
    simp
  · intro x hx hne
    rw [count_zfree_segmentEvents _ _ _ hnd, if_pos ⟨hx, hne⟩]
  · intro x hx
    rw [count_zfree_segmentEvents _ _ _ hnd, if_neg (fun h => hx h.1)]

theorem ForEach_frees_visited_overflow_witness :
    ∃ m1, ForEach_MaterialChain (fun _ m => m) 3 sampleFifoMem 0 = some m1 ∧
      m1.trace = sampleFifoMem.trace ++
        [Event.visit 100, Event.zfree 100, Event.visit 101, Event.zfree 101, Event.visit 0] ∧
      m1.chains 0 = sampleFifoMem.chains 0 ∧ m1.chains 100 = sampleFifoMem.junk 100 :=
  let ⟨m1, h1, h2, _, _, _, h6, h7, _⟩ := ForEach_frees_visited_overflow (fun _ m => m)
    (fun _ _ => ⟨rfl, rfl, rfl⟩) sampleFifoMem 0 3 [100, 101, 0] (by decide)
  ⟨m1, h1, h2.trans (by decide), h6, h7 100 (by decide) (by decide)⟩

/-! ## The overflow handler -/

theorem HandleOverflow_brk (m : Mem) (c s : Nat) (tail : Option Nat) :
    (MaterialChain_HandleOverflow m c s tail).brk = m.brk + 1 := by
  cases tail <;> rfl

theorem HandleOverflow_surfs (m : Mem) (c s : Nat) (tail : Option Nat) (x : Nat) :
    ((MaterialChain_HandleOverflow m c s tail).surfs x).poly = (m.surfs x).poly ∧
    ((MaterialChain_HandleOverflow m c s tail).surfs x).numedges = (m.surfs x).numedges := by
  have h : (MaterialChain_HandleOverflow m c s tail).surfs =
      Function.update m.surfs s { m.surfs s with chain := none } := by
    cases tail <;> rfl
  rw [h]
  by_cases hx : x = s
  · subst hx
    simp
  · simp [Function.update_noteq hx]

theorem update_overflow_numverts (f : Nat → materialchain_t) (p a : Nat) (v : Option Nat) :
    (Function.update f p { f p with overflow := v } a).numverts = (f a).numverts := by
  by_cases h : a = p
  · subst h
    simp
  · simp [Function.update_noteq h]

theorem update_overflow_tail_numverts (f : Nat → materialchain_t) (p a : Nat)
    (v : Option Nat) :
    (Function.update f p { f p with overflow_tail := v } a).numverts = (f a).numverts := by
  by_cases h : a = p
  · subst h
    simp
  · simp [Function.update_noteq h]

/-- The handler moves the header's vertex count into the new block and resets
the header's; no other block's count changes. -/
theorem HandleOverflow_numverts (m : Mem) (c s : Nat) (tail : Option Nat) (a : Nat) :
    ((MaterialChain_HandleOverflow m c s tail).chains a).numverts =
      if a = c then 0
      else if a = m.brk then (m.chains c).numverts
      else (m.chains a).numverts := by
  cases tail with
  | none =>
    simp only [MaterialChain_HandleOverflow, Z_Malloc, Function.update_apply]
    split_ifs <;> rfl
  | some t =>
    simp only [MaterialChain_HandleOverflow, Z_Malloc]
    by_cases hac : a = c
    · subst hac
      simp
    · rw [Function.update_noteq hac, if_neg hac]
      cases hot : (m.chains c).overflow_tail with
      | none =>
        simp only [Function.update_apply]
        split_ifs <;> rfl
      | some first =>
        simp only []
        by_cases hf : first = c
        · simp only [hf, if_true, Function.update_apply]
          split_ifs <;> rfl
        · simp only [hf, if_false]
          by_cases hab : a = m.brk
          · subst hab
            simp
          · rw [Function.update_noteq hab, if_neg hab, update_overflow_tail_numverts,
              update_overflow_numverts, Function.update_noteq hab]

/-- Without a tail the handler copies the header into the new block and links
the block from the header. -/
theorem HandleOverflow_none_chains (m : Mem) (c s : Nat) (hc : c ≠ m.brk) :
    (MaterialChain_HandleOverflow m c s none).chains c =
      { m.chains c with numverts := 0, numindices := 0, surf := some s,
                        overflow := some m.brk } ∧
    (MaterialChain_HandleOverflow m c s none).chains m.brk = m.chains c ∧
    ∀ a, a ≠ c → a ≠ m.brk →
      (MaterialChain_HandleOverflow m c s none).chains a = m.chains a := by
  refine ⟨?_, ?_, ?_⟩
  · simp [MaterialChain_HandleOverflow, Z_Malloc]
  · simp [MaterialChain_HandleOverflow, Z_Malloc, Function.update_noteq (Ne.symm hc)]
  · intro a h1 h2
    simp [MaterialChain_HandleOverflow, Z_Malloc, Function.update_noteq h1,
      Function.update_noteq h2]

/-- The handler model on the spec's example (budget 4, two triangles): without a
tail the header holds the second surface with count 3 and is walked first, the
allocated block holds the first with count 3; built through the tail, the walk
starts on the block that holds the first surface and ends on the header. -/
theorem HandleOverflow_on_spec_example :
    ((addSurfs 4 (MaterialChains_Init sampleMem 0 1) 0 [1, 2]).chains 0).numverts = 3 ∧
    ((addSurfs 4 (MaterialChains_Init sampleMem 0 1) 0 [1, 2]).chains 0).surf = some 2 ∧
    ((addSurfs 4 (MaterialChains_Init sampleMem 0 1) 0 [1, 2]).chains 100).numverts = 3 ∧
    ((addSurfs 4 (MaterialChains_Init sampleMem 0 1) 0 [1, 2]).chains 100).surf = some 1 ∧
    overflowPath (addSurfs 4 (MaterialChains_Init sampleMem 0 1) 0 [1, 2]).chains 2
      (some (forEachStart (addSurfs 4 (MaterialChains_Init sampleMem 0 1) 0 [1, 2]) 0)) =
        some [0, 100] ∧
    (addSurfsTail 4 0 0
      (setTail (MaterialChain_AddSurf 4 (MaterialChains_Init_Reverse sampleMem 0 1) 0 1) 0 1)
      [2]).map (fun m =>
        (overflowPath m.chains 2 (some (forEachStart m 0)), (m.chains 100).surf,
          (m.chains 100).numverts, (m.chains 0).surf, (m.chains 0).numverts)) =
      some (some [100, 0], some 1, 3, some 2, 3) := by
  decide

/-! ## C4: segment capacity -/

theorem addCounts_numverts (m : Mem) (c s a : Nat) :
    ((addCounts m c s).chains a).numverts =
      if a = c then wrap32 ((m.chains c).numverts + (m.surfs s).numedges)
      else (m.chains a).numverts := by
  by_cases h : a = c
  · subst h
    rw [addCounts_chains_self, if_pos rfl]
  · rw [addCounts_chains_other _ _ _ _ h, if_neg h]

/-- One `MaterialChain_AddSurf` keeps every segment's count inside `[0, maxVerts)`
when the surface's own count is inside it. -/
theorem AddSurf_capacity (maxVerts : Int) (hB : maxVerts ≤ 1073741824) (m : Mem) (c s : Nat)
    (he : (m.surfs s).poly.isSome = true →
      0 ≤ (m.surfs s).numedges ∧ (m.surfs s).numedges < maxVerts)
    (brk0 : Nat) (hbrk : brk0 ≤ m.brk)
    (hinv : ∀ a, a = c ∨ (brk0 ≤ a ∧ a < m.brk) →
      0 ≤ (m.chains a).numverts ∧ (m.chains a).numverts < maxVerts) :
    (∀ x, ((MaterialChain_AddSurf maxVerts m c s).surfs x).poly = (m.surfs x).poly ∧
      ((MaterialChain_AddSurf maxVerts m c s).surfs x).numedges = (m.surfs x).numedges) ∧
    brk0 ≤ (MaterialChain_AddSurf maxVerts m c s).brk ∧
    ∀ a, a = c ∨ (brk0 ≤ a ∧ a < (MaterialChain_AddSurf maxVerts m c s).brk) →
      0 ≤ ((MaterialChain_AddSurf maxVerts m c s).chains a).numverts ∧
      ((MaterialChain_AddSurf maxVerts m c s).chains a).numverts < maxVerts := by
  by_cases hp : (m.surfs s).poly.isSome = true
  · obtain ⟨he1, he2⟩ := he hp
    obtain ⟨hc1, hc2⟩ := hinv c (Or.inl rfl)
    by_cases hov : overflows maxVerts m c s = true
    · rw [AddSurf_spill maxVerts m c s hp hov]
      refine ⟨fun x => ?_, ?_, ?_⟩
      · rw [addCounts_surfs]
        exact HandleOverflow_surfs _ c s none x
      · rw [addCounts_brk, HandleOverflow_brk]
        show brk0 ≤ m.brk + 1
        omega
      · intro a ha
        rw [addCounts_brk, HandleOverflow_brk] at ha
        rw [addCounts_numverts]
        by_cases hac : a = c
        · rw [if_pos hac, HandleOverflow_numverts, if_pos rfl,
            (HandleOverflow_surfs _ c s none s).2]
          show 0 ≤ wrap32 (0 + (m.surfs s).numedges) ∧ wrap32 (0 + (m.surfs s).numedges) < _
          rw [wrap32_of_range (by omega) (by omega)]
          omega
        · rw [if_neg hac, HandleOverflow_numverts, if_neg hac]
          by_cases hab : a = m.brk
          · rw [if_pos hab]
            exact ⟨hc1, hc2⟩
          · rw [if_neg hab]
            have hlt : a < m.brk := by
              rcases ha with h | h
              · exact absurd h hac
              · have : a < m.brk + 1 := h.2
                omega
            rcases ha with h | h
            · exact absurd h hac
            · exact hinv a (Or.inr ⟨h.1, hlt⟩)
    · have hno : overflows maxVerts m c s = false := by simpa using hov
      obtain ⟨f1, -, -, f4, f5, -, f7, -, -⟩ := AddSurf_link_facts maxVerts m c s hp hno
      refine ⟨f1, by rw [f7]; exact hbrk, ?_⟩
      intro a ha
      rw [f7] at ha
      by_cases hac : a = c
      · subst hac
        rw [f4]
        simp only []
        have hw := wrap32_of_range (x := (m.chains a).numverts + (m.surfs s).numedges)
          (by omega) (by omega)
        simp only [overflows, hw, decide_eq_false_iff_not, not_le] at hno
        rw [hw]
        omega
      · rw [f5 a hac]
        exact hinv a ha
  · have hn : (m.surfs s).poly = none := by simpa using hp
    rw [AddSurf_skip maxVerts m c s hn]
    exact ⟨fun _ => ⟨rfl, rfl⟩, hbrk, hinv⟩

/-- One successful `MaterialChain_AddSurf_Tail` keeps every segment's count
inside `[0, maxVerts)` when the surface's own count is inside it. -/
theorem AddSurf_Tail_capacity (maxVerts : Int) (hB : maxVerts ≤ 1073741824) (m m1 : Mem)
    (c s t : Nat) (hrun : MaterialChain_AddSurf_Tail maxVerts m c s t = some m1)
    (he : (m.surfs s).poly.isSome = true →
      0 ≤ (m.surfs s).numedges ∧ (m.surfs s).numedges < maxVerts)
    (brk0 : Nat) (hbrk : brk0 ≤ m.brk)
    (hinv : ∀ a, a = c ∨ (brk0 ≤ a ∧ a < m.brk) →
      0 ≤ (m.chains a).numverts ∧ (m.chains a).numverts < maxVerts) :
    (∀ x, (m1.surfs x).poly = (m.surfs x).poly ∧
      (m1.surfs x).numedges = (m.surfs x).numedges) ∧
    brk0 ≤ m1.brk ∧
    ∀ a, a = c ∨ (brk0 ≤ a ∧ a < m1.brk) →
      0 ≤ (m1.chains a).numverts ∧ (m1.chains a).numverts < maxVerts := by
  by_cases hp : (m.surfs s).poly.isSome = true
  · obtain ⟨he1, he2⟩ := he hp
    obtain ⟨hc1, hc2⟩ := hinv c (Or.inl rfl)
    by_cases hov : overflows maxVerts m c s = true
    · rw [AddSurf_Tail_spill maxVerts m c s t hp hov] at hrun
      cases hrun
      refine ⟨fun x => ?_, ?_, ?_⟩
      · rw [addCounts_surfs]
        exact HandleOverflow_surfs _ c s (some t) x
      · rw [addCounts_brk, HandleOverflow_brk]
        show brk0 ≤ m.brk + 1
        omega
      · intro a ha
        rw [addCounts_brk, HandleOverflow_brk] at ha
        rw [addCounts_numverts]
        by_cases hac : a = c
        · rw [if_pos hac, HandleOverflow_numverts, if_pos rfl,
            (HandleOverflow_surfs _ c s (some t) s).2]
          show 0 ≤ wrap32 (0 + (m.surfs s).numedges) ∧ wrap32 (0 + (m.surfs s).numedges) < _
          rw [wrap32_of_range (by omega) (by omega)]
          omega
        · rw [if_neg hac, HandleOverflow_numverts, if_neg hac]
          by_cases hab : a = m.brk
          · rw [if_pos hab]
            exact ⟨hc1, hc2⟩
          · rw [if_neg hab]
            have hlt : a < m.brk := by
              rcases ha with h | h
              · exact absurd h hac
              · have : a < m.brk + 1 := h.2
                omega
            rcases ha with h | h
            · exact absurd h hac
            · exact hinv a (Or.inr ⟨h.1, hlt⟩)
    · have hno : overflows maxVerts m c s = false := by simpa using hov
      cases ht : m.tails t with
      | none =>
        rw [AddSurf_Tail_null maxVerts m c s t hp hno ht] at hrun
        cases hrun
      | some last =>
        rw [AddSurf_Tail_link maxVerts m c s t last hp hno ht] at hrun
        cases hrun
        have hsurf : ∀ x,
            ((Function.update (Function.update m.surfs s { m.surfs s with chain := none }) last
              { Function.update m.surfs s { m.surfs s with chain := none } last with
                chain := some s }) x).poly = (m.surfs x).poly ∧
            ((Function.update (Function.update m.surfs s { m.surfs s with chain := none }) last
              { Function.update m.surfs s { m.surfs s with chain := none } last with
                chain := some s }) x).numedges = (m.surfs x).numedges := by
          intro x
          by_cases h1 : x = last
          · subst h1
            by_cases h2 : x = s
            · subst h2
              simp
            · simp [Function.update_noteq h2]
          · by_cases h2 : x = s
            · subst h2
              simp [Function.update_noteq h1]
            · simp [Function.update_noteq h1, Function.update_noteq h2]
        refine ⟨fun x => ?_, hbrk, ?_⟩
        · rw [addCounts_surfs]
          exact hsurf x
        · intro a ha
          rw [addCounts_numverts]
          by_cases hac : a = c
          · rw [if_pos hac]
            show 0 ≤ wrap32 ((m.chains c).numverts + _) ∧ wrap32 ((m.chains c).numverts + _) < _
            rw [(hsurf s).2]
            have hw := wrap32_of_range (x := (m.chains c).numverts + (m.surfs s).numedges)
              (by omega) (by omega)
            simp only [overflows, hw, decide_eq_false_iff_not, not_le] at hno
            rw [hw]
            omega
          · rw [if_neg hac]
            exact hinv a ha
  · have hn : (m.surfs s).poly = none := by simpa using hp
    rw [AddSurf_Tail_skip maxVerts m c s t hn] at hrun
    cases hrun
    exact ⟨fun _ => ⟨rfl, rfl⟩, hbrk, hinv⟩

theorem runAppends_capacity (maxVerts : Int) (hB : maxVerts ≤ 1073741824) (c brk0 : Nat) :
    ∀ (calls : List AppendCall) (m m1 : Mem), runAppends maxVerts c m calls = some m1 →
      (∀ call ∈ calls, (m.surfs call.surf).poly.isSome = true →
        0 ≤ (m.surfs call.surf).numedges ∧ (m.surfs call.surf).numedges < maxVerts) →
      brk0 ≤ m.brk →
      (∀ a, a = c ∨ (brk0 ≤ a ∧ a < m.brk) →
        0 ≤ (m.chains a).numverts ∧ (m.chains a).numverts < maxVerts) →
      brk0 ≤ m1.brk ∧
      ∀ a, a = c ∨ (brk0 ≤ a ∧ a < m1.brk) →
        0 ≤ (m1.chains a).numverts ∧ (m1.chains a).numverts < maxVerts := by
  intro calls
  induction calls with
  | nil =>
    intro m m1 h _ hbrk hinv
    simp only [runAppends, Option.some.injEq] at h
    subst h
    exact ⟨hbrk, hinv⟩
  | cons call calls ih =>
    intro m m1 h hsurf hbrk hinv
    simp only [runAppends] at h
    cases hstep : appendCall maxVerts c m call with
    | none => simp [hstep] at h
    | some m2 =>
      simp only [hstep] at h
      have hfacts : (∀ x, (m2.surfs x).poly = (m.surfs x).poly ∧
            (m2.surfs x).numedges = (m.surfs x).numedges) ∧
          brk0 ≤ m2.brk ∧
          ∀ a, a = c ∨ (brk0 ≤ a ∧ a < m2.brk) →
            0 ≤ (m2.chains a).numverts ∧ (m2.chains a).numverts < maxVerts := by
        cases call with
        | head s =>
          simp only [appendCall, Option.some.injEq] at hstep
          subst hstep
          exact AddSurf_capacity maxVerts hB m c s (hsurf _ (List.mem_cons_self _ _)) brk0
            hbrk hinv
        | tail s t =>
          exact AddSurf_Tail_capacity maxVerts hB m m2 c s t hstep
            (hsurf _ (List.mem_cons_self _ _)) brk0 hbrk hinv
      obtain ⟨g1, g2, g3⟩ := hfacts
      exact ih m2 m1 h
        (fun call2 hmem hp2 => by
          rw [(g1 call2.surf).1] at hp2
          rw [(g1 call2.surf).2]
          exact hsurf call2 (List.mem_cons_of_mem _ hmem) hp2)
        g2 g3

/-- C4, as stated, fails: surface 5 has geometry and 65536 edges, a non-negative
count.  Appended to a freshly reset chain it meets the budget, the handler
starts a new segment, and lines 145 and 162 then count all 65536 vertices into
that segment, which so holds a count that is not below the budget. -/
theorem append_oversized_surface_reaches_budget :
    0 ≤ (sampleMem.surfs 5).numedges ∧
    ((MaterialChain_AddSurf MATERIALCHAIN_MAX_VERTS
      (MaterialChains_Init sampleMem 0 1) 0 5).chains 0).numverts = 65536 ∧
    ¬ ((MaterialChain_AddSurf MATERIALCHAIN_MAX_VERTS
      (MaterialChains_Init sampleMem 0 1) 0 5).chains 0).numverts < MATERIALCHAIN_MAX_VERTS ∧
    (MaterialChain_AddSurf_Tail MATERIALCHAIN_MAX_VERTS
      (MaterialChains_Init_Reverse sampleTailMem 0 1) 0 5 0).map
        (fun m1 => (m1.chains 0).numverts) = some 65536 := by
  decide

/-- C4, amended: for every sequence of `MaterialChain_AddSurf` and
`MaterialChain_AddSurf_Tail` calls on a chain freshly reset with
`MaterialChains_Init` or `MaterialChains_Init_Reverse`, with surfaces whose
vertex count is non-negative and strictly below `MATERIALCHAIN_MAX_VERTS`,
after every call (after the first `k` calls, for every `k`) the `numverts` of
the chain header and of every block allocated since the reset is non-negative
and strictly below `MATERIALCHAIN_MAX_VERTS`. -/
theorem append_keeps_segments_below_budget (m m0 m1 : Mem) (materialchains count i : Nat)
    (calls : List AppendCall) (k : Nat) (hi : i < count)
    (hreset : m0 = MaterialChains_Init m materialchains count ∨
      m0 = MaterialChains_Init_Reverse m materialchains count)
    (hsurf : ∀ call ∈ calls, (m.surfs call.surf).poly.isSome = true →
      0 ≤ (m.surfs call.surf).numedges ∧
      (m.surfs call.surf).numedges < MATERIALCHAIN_MAX_VERTS)
    (hrun : runAppends MATERIALCHAIN_MAX_VERTS (materialchains + i) m0 (calls.take k) =
      some m1) :
    m.brk ≤ m1.brk ∧
    ∀ a, a = materialchains + i ∨ (m.brk ≤ a ∧ a < m1.brk) →
      0 ≤ (m1.chains a).numverts ∧ (m1.chains a).numverts < MATERIALCHAIN_MAX_VERTS := by
  have hsurfs : m0.surfs = m.surfs := by rcases hreset with h | h <;> rw [h] <;> rfl
  have hbrk : m0.brk = m.brk := by rcases hreset with h | h <;> rw [h] <;> rfl
  have hzero : (m0.chains (materialchains + i)).numverts = 0 := by
    rcases hreset with h | h
    · rw [h]
      show (memsetChains _ _ _ _).numverts = 0
      rw [memsetChains_inside _ _ _ _ (by omega)]
      rfl
    · rw [h, Init_Reverse_chain m materialchains count i hi]
  refine runAppends_capacity MATERIALCHAIN_MAX_VERTS (by decide) (materialchains + i) m.brk
    (calls.take k) m0 m1 hrun ?_ (by omega) ?_
  · intro call hmem
    rw [hsurfs]
    exact hsurf call (List.mem_of_mem_take hmem)
  · intro a ha
    rcases ha with h | h
    · rw [h, hzero]
      decide
    · omega

theorem append_keeps_segments_below_budget_witness :
    0 ≤ (sampleRunMem.chains (0 + 0)).numverts ∧
      (sampleRunMem.chains (0 + 0)).numverts < MATERIALCHAIN_MAX_VERTS :=
  (append_keeps_segments_below_budget sampleTailMem
    (MaterialChains_Init_Reverse sampleTailMem 0 1) sampleRunMem 0 1 0
    [AppendCall.head 1, AppendCall.tail 2 0] 2 (by decide) (Or.inr rfl) (by decide) rfl).2
    (0 + 0) (Or.inl rfl)

/-! ## C3: vertex counts over the segments -/

theorem overflowPath_mono (chains : Nat → materialchain_t) :
    ∀ (fuel fuel2 : Nat) (p : Option Nat) (l : List Nat), fuel ≤ fuel2 →
      overflowPath chains fuel p = some l → overflowPath chains fuel2 p = some l := by
  intro fuel
  induction fuel with
  | zero =>
    intro fuel2 p l _ h
    cases p with
    | none => cases fuel2 <;> simpa [overflowPath] using h
    | some s => simp [overflowPath] at h
  | succ fuel ih =>
    intro fuel2 p l hle h
    cases p with
    | none => cases fuel2 <;> simpa [overflowPath] using h
    | some s =>
      obtain ⟨f2, rfl⟩ : ∃ f2, fuel2 = f2 + 1 := ⟨fuel2 - 1, by omega⟩
      simp only [overflowPath, Option.map_eq_some'] at h ⊢
      obtain ⟨r, hr, rfl⟩ := h
      exact ⟨r, ih f2 _ r (by omega) hr, rfl⟩

/-- Head appends with overflow: the blocks behind the header stay a finite path,
and the header's count plus the counts of the blocks grows by exactly the edge
counts of the appended surfaces that have geometry. -/
theorem addSurfs_segments (maxVerts : Int) (hB : maxVerts ≤ 1073741824) (c : Nat) :
    ∀ (ss : List Nat) (m : Mem) (segs : List Nat) (fuel : Nat),
      c < m.brk → (∀ a ∈ segs, a < m.brk ∧ a ≠ c) →
      overflowPath m.chains fuel (m.chains c).overflow = some segs →
      0 ≤ (m.chains c).numverts → (m.chains c).numverts < 1073741824 →
      (∀ s ∈ ss, (m.surfs s).poly.isSome = true →
        0 ≤ (m.surfs s).numedges ∧ (m.surfs s).numedges < 1073741824) →
      ∃ segs2,
        overflowPath (addSurfs maxVerts m c ss).chains (fuel + ss.length)
          ((addSurfs maxVerts m c ss).chains c).overflow = some segs2 ∧
        ((addSurfs maxVerts m c ss).chains c).numverts +
            (segs2.map fun a => ((addSurfs maxVerts m c ss).chains a).numverts).sum =
          (m.chains c).numverts + (segs.map fun a => (m.chains a).numverts).sum +
            totalEdges m.surfs ss ∧
        ((addSurfs maxVerts m c ss).chains c).overflow_tail = (m.chains c).overflow_tail := by
  intro ss
  induction ss with
  | nil =>
    intro m segs fuel _ _ hpath _ _ _
    exact ⟨segs, by simpa [addSurfs] using hpath, by simp [addSurfs, totalEdges], rfl⟩
  | cons s ss ih =>
    intro m segs fuel hc hsegs hpath hn0 hn1 hsurf
    have hstep : addSurfs maxVerts m c (s :: ss) =
        addSurfs maxVerts (MaterialChain_AddSurf maxVerts m c s) c ss := rfl
    rw [hstep, totalEdges_cons]
    by_cases hp : (m.surfs s).poly.isSome = true
    · obtain ⟨he0, he1⟩ := hsurf s (List.mem_cons_self _ _) hp
      have hw := wrap32_of_range (x := (m.chains c).numverts + (m.surfs s).numedges)
        (by omega) (by omega)
      by_cases hov : overflows maxVerts m c s = true
      · -- overflow: the header's contents move to the block at `brk`
        have hcb : c ≠ m.brk := by omega
        have e := AddSurf_spill maxVerts m c s hp hov
        obtain ⟨k1, k2, k3⟩ := HandleOverflow_none_chains
          { m with trace := m.trace ++ [Event.handleOverflow c s none] } c s hcb
        have hS := HandleOverflow_surfs
          { m with trace := m.trace ++ [Event.handleOverflow c s none] } c s none
        have hchc : (MaterialChain_AddSurf maxVerts m c s).chains c =
            { m.chains c with
              numverts := wrap32 (0 + (m.surfs s).numedges),
              numindices := wrap32 (0 + wrap32 (wrap32 ((m.surfs s).numedges - 2) * 3)),
              surf := some s, overflow := some m.brk } := by
          rw [e, addCounts_chains_self, k1, (hS s).2]
        have hchb : (MaterialChain_AddSurf maxVerts m c s).chains m.brk = m.chains c := by
          rw [e, addCounts_chains_other _ _ _ _ (Ne.symm hcb)]
          exact k2
        have hcho : ∀ a, a ≠ c → a ≠ m.brk →
            (MaterialChain_AddSurf maxVerts m c s).chains a = m.chains a := by
          intro a h1 h2
          rw [e, addCounts_chains_other _ _ _ _ h1]
          exact k3 a h1 h2
        have hbrk : (MaterialChain_AddSurf maxVerts m c s).brk = m.brk + 1 := by
          rw [e, addCounts_brk, HandleOverflow_brk]
        have hsf : ∀ x, ((MaterialChain_AddSurf maxVerts m c s).surfs x).poly =
              (m.surfs x).poly ∧
            ((MaterialChain_AddSurf maxVerts m c s).surfs x).numedges =
              (m.surfs x).numedges := by
          intro x
          rw [e, addCounts_surfs]
          exact hS x
        have hw0 := wrap32_of_range (x := 0 + (m.surfs s).numedges) (by omega) (by omega)
        have hpath2 : overflowPath (MaterialChain_AddSurf maxVerts m c s).chains (fuel + 1)
            ((MaterialChain_AddSurf maxVerts m c s).chains c).overflow =
              some (m.brk :: segs) := by
          rw [hchc]
          simp only [overflowPath, Option.map_eq_some']
          refine ⟨segs, ?_, rfl⟩
          rw [hchb]
          apply overflowPath_congr m.chains _ _ _ _ _ hpath
          intro a ha
          have := hsegs a ha
          rw [hcho a this.2 (by omega)]
        obtain ⟨segs2, g1, g2, g3⟩ := ih (MaterialChain_AddSurf maxVerts m c s) (m.brk :: segs)
          (fuel + 1) (by rw [hbrk]; omega)
          (fun a ha => by
            rw [hbrk]
            rcases List.mem_cons.mp ha with h | h
            · exact ⟨by omega, by omega⟩
            · exact ⟨by have := (hsegs a h).1; omega, (hsegs a h).2⟩)
          hpath2
          (by rw [hchc]; simp only []; rw [hw0]; omega)
          (by rw [hchc]; simp only []; rw [hw0]; omega)
          (fun x hx hpx => by
            rw [(hsf x).1] at hpx
            rw [(hsf x).2]
            exact hsurf x (List.mem_cons_of_mem _ hx) hpx)
        refine ⟨segs2, ?_, ?_, ?_⟩
        · rw [show fuel + (s :: ss).length = fuel + 1 + ss.length by simp; omega]
          exact g1
        · rw [g2, totalEdges_congr _ _ _ hsf, hchc, List.map_cons, List.sum_cons, hchb]
          simp only [hp, if_true]
          rw [hw0]
          have hmap : (segs.map fun a =>
              ((MaterialChain_AddSurf maxVerts m c s).chains a).numverts) =
              segs.map fun a => (m.chains a).numverts := by
            apply List.map_congr_left
            intro a ha
            have := hsegs a ha
            rw [hcho a this.2 (by omega)]
          rw [hmap]
          omega
        · rw [g3, hchc]
      · -- no overflow: only the header changes
        have hno : overflows maxVerts m c s = false := by simpa using hov
        obtain ⟨f1, -, -, f4, f5, -, f7, -, -⟩ := AddSurf_link_facts maxVerts m c s hp hno
        have hlt : (m.chains c).numverts + (m.surfs s).numedges < maxVerts := by
          simp only [overflows, hw, decide_eq_false_iff_not, not_le] at hno
          exact hno
        obtain ⟨segs2, g1, g2, g3⟩ := ih (MaterialChain_AddSurf maxVerts m c s) segs
          (fuel + 1) (by rw [f7]; exact hc)
          (fun a ha => by rw [f7]; exact hsegs a ha)
          (by
            rw [f4]
            simp only []
            apply overflowPath_mono _ fuel (fuel + 1) _ _ (by omega)
            apply overflowPath_congr m.chains _ _ _ _ _ hpath
            intro a ha
            rw [f5 a (hsegs a ha).2])
          (by rw [f4]; simp only []; rw [hw]; omega)
          (by rw [f4]; simp only []; rw [hw]; omega)
          (fun x hx hpx => by
            rw [(f1 x).1] at hpx
            rw [(f1 x).2]
            exact hsurf x (List.mem_cons_of_mem _ hx) hpx)
        refine ⟨segs2, ?_, ?_, ?_⟩
        · rw [show fuel + (s :: ss).length = fuel + 1 + ss.length by simp; omega]
          exact g1
        · rw [g2, totalEdges_congr _ _ _ f1, f4]
          simp only [hp, if_true]
          rw [hw]
          have hmap : (segs.map fun a =>
              ((MaterialChain_AddSurf maxVerts m c s).chains a).numverts) =
              segs.map fun a => (m.chains a).numverts := by
            apply List.map_congr_left
            intro a ha
            rw [f5 a (hsegs a ha).2]
          rw [hmap]
          omega
        · rw [g3, f4]
    · -- no geometry: nothing happens
      have hn : (m.surfs s).poly = none := by simpa using hp
      have e := AddSurf_skip maxVerts m c s hn
      rw [e]
      obtain ⟨segs2, g1, g2, g3⟩ := ih m segs (fuel + 1) hc hsegs
        (overflowPath_mono _ fuel (fuel + 1) _ _ (by omega) hpath) hn0 hn1
        (fun x hx => hsurf x (List.mem_cons_of_mem _ hx))
      refine ⟨segs2, ?_, ?_, g3⟩
      · rw [show fuel + (s :: ss).length = fuel + 1 + ss.length by simp; omega]
        exact g1
      · rw [g2]
        simp [hn]

/-- C3: for any sequence of `MaterialChain_AddSurf` calls on a chain freshly
reset with `MaterialChains_Init` or `MaterialChains_Init_Reverse`, overflows
included, the segments of the chain (the segments `ForEach_MaterialChain` walks:
the header and the blocks reached from it along `overflow` links, a finite
path) have vertex counts whose sum equals the sum of `numedges` over the
appended surfaces that have geometry; surfaces without geometry contribute
zero.  The chain array lies below the zone's free space, and every edge count
is in `[0, 2^30)`, where the `int` additions cannot overflow. -/
theorem AddSurf_segment_counts_sum (m m0 : Mem) (materialchains count i : Nat) (ss : List Nat)
    (hi : i < count) (hbrk : materialchains + count ≤ m.brk)
    (hreset : m0 = MaterialChains_Init m materialchains count ∨
      m0 = MaterialChains_Init_Reverse m materialchains count)
    (hsurf : ∀ s ∈ ss, (m.surfs s).poly.isSome = true →
      0 ≤ (m.surfs s).numedges ∧ (m.surfs s).numedges < 1073741824) :
    ∃ segs,
      overflowPath
        (addSurfs MATERIALCHAIN_MAX_VERTS m0 (materialchains + i) ss).chains (ss.length + 1)
        (some (((addSurfs MATERIALCHAIN_MAX_VERTS m0 (materialchains + i) ss).chains
          (materialchains + i)).overflow_tail.getD (materialchains + i))) = some segs ∧
      (segs.map fun a =>
        ((addSurfs MATERIALCHAIN_MAX_VERTS m0 (materialchains + i) ss).chains a).numverts).sum =
          totalEdges m.surfs ss := by
  have hsurfs : m0.surfs = m.surfs := by rcases hreset with h | h <;> rw [h] <;> rfl
  have hbrk0 : m0.brk = m.brk := by rcases hreset with h | h <;> rw [h] <;> rfl
  have hz : (m0.chains (materialchains + i)).numverts = 0 ∧
      (m0.chains (materialchains + i)).overflow = none ∧
      (m0.chains (materialchains + i)).overflow_tail.getD (materialchains + i) =
        materialchains + i := by
    rcases hreset with h | h
    · have hc : (MaterialChains_Init m materialchains count).chains (materialchains + i) =
          zeroChain := memsetChains_inside _ _ _ _ (by omega)
      rw [h, hc]
      exact ⟨rfl, rfl, rfl⟩
    · rw [h, Init_Reverse_chain m materialchains count i hi]
      exact ⟨rfl, rfl, rfl⟩
  obtain ⟨hz1, hz2, hz3⟩ := hz
  obtain ⟨segs2, g1, g2, g3⟩ := addSurfs_segments MATERIALCHAIN_MAX_VERTS (by decide)
    (materialchains + i) ss m0 [] 0
    (by rw [hbrk0]; omega) (fun _ h => by simp at h)
    (by rw [hz2]; rfl) (by rw [hz1]) (by rw [hz1]; decide)
    (by rw [hsurfs]; exact hsurf)
  refine ⟨(materialchains + i) :: segs2, ?_, ?_⟩
  · rw [g3, hz3]
    simp only [overflowPath, Option.map_eq_some']
    refine ⟨segs2, ?_, rfl⟩
    rw [Nat.zero_add] at g1
    exact g1
  · rw [List.map_cons, List.sum_cons, g2, hz1, hsurfs]
    simp

theorem AddSurf_segment_counts_sum_witness :
    ∃ segs,
      overflowPath
        (addSurfs MATERIALCHAIN_MAX_VERTS (MaterialChains_Init sampleMem 0 1) (0 + 0)
          [1, 7, 5, 2]).chains ([1, 7, 5, 2].length + 1)
        (some (((addSurfs MATERIALCHAIN_MAX_VERTS (MaterialChains_Init sampleMem 0 1) (0 + 0)
          [1, 7, 5, 2]).chains (0 + 0)).overflow_tail.getD (0 + 0))) = some segs ∧
      (segs.map fun a =>
        ((addSurfs MATERIALCHAIN_MAX_VERTS (MaterialChains_Init sampleMem 0 1) (0 + 0)
          [1, 7, 5, 2]).chains a).numverts).sum = totalEdges sampleMem.surfs [1, 7, 5, 2] :=
  AddSurf_segment_counts_sum sampleMem (MaterialChains_Init sampleMem 0 1) 0 1 0 [1, 7, 5, 2]
    (by decide) (by decide) (Or.inl rfl) (by decide)

/-! ## C16: one tail append, and a run of them -/

/-- What a tail append that does not overflow does to the state. -/
theorem AddSurf_Tail_link_facts (maxVerts : Int) (m : Mem) (c s t last : Nat)
    (hp : (m.surfs s).poly.isSome = true) (hno : overflows maxVerts m c s = false)
    (ht : m.tails t = some last) :
    ∃ m1, MaterialChain_AddSurf_Tail maxVerts m c s t = some m1 ∧
      (∀ x, (m1.surfs x).poly = (m.surfs x).poly ∧
        (m1.surfs x).numedges = (m.surfs x).numedges) ∧
      (last ≠ s → (m1.surfs s).chain = none) ∧
      (m1.surfs last).chain = some s ∧
      (∀ x, x ≠ s → x ≠ last → m1.surfs x = m.surfs x) ∧
      m1.chains c =
        { m.chains c with
          numverts := wrap32 ((m.chains c).numverts + (m.surfs s).numedges),
          numindices := wrap32 ((m.chains c).numindices +
            wrap32 (wrap32 ((m.surfs s).numedges - 2) * 3)) } ∧
      (∀ a, a ≠ c → m1.chains a = m.chains a) ∧
      m1.tails = Function.update m.tails t (some s) ∧
      m1.brk = m.brk ∧ m1.junk = m.junk ∧ m1.trace = m.trace := by
  refine ⟨_, AddSurf_Tail_link maxVerts m c s t last hp hno ht, ?_, ?_, ?_, ?_, ?_, ?_,
    rfl, rfl, rfl, rfl⟩
  · intro x
    rw [addCounts_surfs]
    by_cases h1 : x = last
    · subst h1
      by_cases h2 : x = s
      · subst h2
        simp
      · simp [Function.update_noteq h2]
    · by_cases h2 : x = s
      · subst h2
        simp [Function.update_noteq h1]
      · simp [Function.update_noteq h1, Function.update_noteq h2]
  · intro hne
    rw [addCounts_surfs]
    simp [Function.update_noteq (Ne.symm hne)]
  · rw [addCounts_surfs]
    simp
  · intro x h1 h2
    rw [addCounts_surfs]
    simp [Function.update_noteq h1, Function.update_noteq h2]
  · rw [addCounts_chains_self]
    have hs : ((Function.update (Function.update m.surfs s { m.surfs s with chain := none }) last
        { Function.update m.surfs s { m.surfs s with chain := none } last with
          chain := some s }) s).numedges = (m.surfs s).numedges := by
      by_cases h1 : s = last
      · subst h1
        simp
      · simp [Function.update_noteq h1]
    simp only [hs]
  · intro a ha
    rw [addCounts_chains_other _ _ _ _ ha]

/-- C16, as stated, fails: the caller's tail refers to surface 9, and surface 9
(a triangle with geometry, far below the budget) is appended.  Line 158 sets
its chain link to `NULL`, line 159 then sets the chain link of the tail's
surface, the same surface, to itself: after the call the surface's chain link
is the surface, not `NULL`, and following chain links from it never ends. -/
theorem AddSurf_Tail_on_tail_surface_links_itself :
    (MaterialChain_AddSurf_Tail MATERIALCHAIN_MAX_VERTS
      (MaterialChains_Init_Reverse sampleTailMem 0 1) 0 9 0).map
        (fun m1 => ((m1.surfs 9).chain, surfWalk m1.surfs 50 (some 9))) =
      some (some 9, none) := by
  decide

/-- C16, amended: for every surface with geometry that does not trigger overflow
and is not the surface the caller's tail refers to, `MaterialChain_AddSurf_Tail`
sets the surface's chain link to `NULL`, sets the chain link of the surface the
tail referred to before the call to the new surface, and advances the tail to
the new surface, while the chain header's `surf`, `overflow` and
`overflow_tail` stay as they were.  Hence after appending distinct surfaces
`S1..Sn` (`n ≥ 1`), none of them the tail's surface `T`, whose running vertex
total stays below the budget, following chain links from `T` yields
`T, S1, ..., Sn` and the tail refers to `Sn`. -/
theorem AddSurf_Tail_links_behind_tail (m : Mem) (materialchain tail last : Nat)
    (ht : m.tails tail = some last) :
    (∀ surf, (m.surfs surf).poly.isSome = true → last ≠ surf →
      -2147483648 ≤ (m.chains materialchain).numverts + (m.surfs surf).numedges →
      (m.chains materialchain).numverts + (m.surfs surf).numedges <
        MATERIALCHAIN_MAX_VERTS →
      ∃ m1, MaterialChain_AddSurf_Tail MATERIALCHAIN_MAX_VERTS m materialchain surf tail =
          some m1 ∧
        (m1.surfs surf).chain = none ∧ (m1.surfs last).chain = some surf ∧
        m1.tails tail = some surf ∧
        (m1.chains materialchain).surf = (m.chains materialchain).surf ∧
        (m1.chains materialchain).overflow = (m.chains materialchain).overflow ∧
        (m1.chains materialchain).overflow_tail = (m.chains materialchain).overflow_tail ∧
        m1.trace = m.trace) ∧
    (∀ (s1 : Nat) (ss : List Nat), (s1 :: ss).Nodup → last ∉ s1 :: ss →
      (∀ s ∈ s1 :: ss, (m.surfs s).poly.isSome = true) →
      (∀ k, -2147483648 ≤ (m.chains materialchain).numverts +
          totalEdges m.surfs ((s1 :: ss).take k) ∧
        (m.chains materialchain).numverts + totalEdges m.surfs ((s1 :: ss).take k) <
          MATERIALCHAIN_MAX_VERTS) →
      ∃ m1, addSurfsTail MATERIALCHAIN_MAX_VERTS materialchain tail m (s1 :: ss) = some m1 ∧
        surfWalk m1.surfs ((s1 :: ss).length + 1) (some last) = some (last :: s1 :: ss) ∧
        m1.tails tail = some ((s1 :: ss).getLast (List.cons_ne_nil _ _)) ∧
        (m1.chains materialchain).surf = (m.chains materialchain).surf) := by
  have hstep : ∀ surf, (m.surfs surf).poly.isSome = true →
      -2147483648 ≤ (m.chains materialchain).numverts + (m.surfs surf).numedges →
      (m.chains materialchain).numverts + (m.surfs surf).numedges <
        MATERIALCHAIN_MAX_VERTS →
      overflows MATERIALCHAIN_MAX_VERTS m materialchain surf = false := by
    intro surf _ h1 h2
    have hM : MATERIALCHAIN_MAX_VERTS = 65536 := rfl
    have hw := wrap32_of_range h1 (by omega)
    simp only [overflows, hw, decide_eq_false_iff_not, not_le]
    exact h2
  constructor
  · intro surf hp hne h1 h2
    obtain ⟨m1, e, -, f2, f3, -, f5, -, f7, -, -, f10⟩ :=
      AddSurf_Tail_link_facts MATERIALCHAIN_MAX_VERTS m materialchain surf tail last hp
        (hstep surf hp h1 h2) ht
    refine ⟨m1, e, f2 hne, f3, ?_, ?_, ?_, ?_, f10⟩
    · rw [f7]
      simp
    · rw [f5]
    · rw [f5]
    · rw [f5]
  · intro s1 ss hnd hlast hpoly hrun
    have hp1 := hpoly s1 (List.mem_cons_self _ _)
    have hk1 := hrun 1
    simp only [List.take_succ_cons, List.take_zero, totalEdges_cons, hp1, if_true] at hk1
    have hte : totalEdges m.surfs [] = 0 := rfl
    rw [hte, add_zero] at hk1
    have hM : MATERIALCHAIN_MAX_VERTS = 65536 := rfl
    have hne : last ≠ s1 := fun e => hlast (e ▸ List.mem_cons_self _ _)
    obtain ⟨m2, e, f1, f2, f3, f4, f5, -, f7, -, -, -⟩ :=
      AddSurf_Tail_link_facts MATERIALCHAIN_MAX_VERTS m materialchain s1 tail last hp1
        (hstep s1 hp1 hk1.1 hk1.2) ht
    have hnd2 := List.nodup_cons.mp hnd
    obtain ⟨m1, g1, g2, g3, g4⟩ := addSurfsTail_walk MATERIALCHAIN_MAX_VERTS materialchain
      tail (by decide) (some last) ss m2 [last] s1 2 hnd2.2
      (fun x hx hmem => by
        simp only [List.cons_append, List.nil_append, List.mem_cons, List.mem_singleton,
          List.not_mem_nil, or_false] at hmem
        rcases hmem with h | h
        · exact hlast (h ▸ List.mem_cons_of_mem _ hx)
        · exact hnd2.1 (h ▸ hx))
      (by simp [hne])
      (fun x hx => by rw [(f1 x).1]; exact hpoly x (List.mem_cons_of_mem _ hx))
      (fun k => by
        have hk := hrun (k + 1)
        simp only [List.take_succ_cons, totalEdges_cons, hp1, if_true] at hk
        rw [totalEdges_congr _ _ _ f1, f5]
        simp only []
        rw [wrap32_of_range hk1.1 (by omega)]
        omega)
      (by rw [f7]; simp)
      (by
        simp only [surfWalk, f3, f2 hne, Option.map_some', List.cons_append,
          List.nil_append])
    refine ⟨m1, ?_, ?_, g4, ?_⟩
    · simp only [addSurfsTail, e]
      exact g1
    · rw [show (s1 :: ss).length + 1 = 2 + ss.length by simp; omega]
      simpa using g2
    · rw [g3, f5]

theorem AddSurf_Tail_links_behind_tail_witness :
    ∃ m1, addSurfsTail MATERIALCHAIN_MAX_VERTS 0 0
        (MaterialChains_Init_Reverse sampleTailMem 0 1) [1, 2, 3] = some m1 ∧
      surfWalk m1.surfs ([1, 2, 3].length + 1) (some 9) = some [9, 1, 2, 3] ∧
      m1.tails 0 = some 3 ∧
      (m1.chains 0).surf = ((MaterialChains_Init_Reverse sampleTailMem 0 1).chains 0).surf :=
  (AddSurf_Tail_links_behind_tail (MaterialChains_Init_Reverse sampleTailMem 0 1) 0 0 9
    rfl).2 1 [2, 3] (by decide) (by decide) (by decide)
    (fun k => by
      have h0 : ((MaterialChains_Init_Reverse sampleTailMem 0 1).chains 0).numverts = 0 := by
        decide
      rw [h0]
      rcases k with _ | _ | _ | _ | k <;>
        simp [totalEdges, sampleTailMem, sampleMem, MaterialChains_Init_Reverse,
          MATERIALCHAIN_MAX_VERTS])

/-! ## C17: index-count bookkeeping -/

/-- The header's counts after one call that does not overflow. -/
theorem appendCall_link_counts (maxVerts : Int) (m m2 : Mem) (c : Nat) (call : AppendCall)
    (hstep : appendCall maxVerts c m call = some m2)
    (hp : (m.surfs call.surf).poly.isSome = true)
    (hno : overflows maxVerts m c call.surf = false) :
    (∀ x, (m2.surfs x).poly = (m.surfs x).poly ∧
      (m2.surfs x).numedges = (m.surfs x).numedges) ∧
    (m2.chains c).numverts =
      wrap32 ((m.chains c).numverts + (m.surfs call.surf).numedges) ∧
    (m2.chains c).numindices =
      wrap32 ((m.chains c).numindices +
        wrap32 (wrap32 ((m.surfs call.surf).numedges - 2) * 3)) ∧
    m2.trace = m.trace := by
  cases call with
  | head s =>
    simp only [appendCall, Option.some.injEq] at hstep
    subst hstep
    obtain ⟨f1, -, -, f4, -, -, -, -, f9⟩ := AddSurf_link_facts maxVerts m c s hp hno
    exact ⟨f1, by rw [f4]; rfl, by rw [f4]; rfl, f9⟩
  | tail s t =>
    simp only [appendCall] at hstep
    cases ht : m.tails t with
    | none =>
      rw [AddSurf_Tail_null maxVerts m c s t hp hno ht] at hstep
      cases hstep
    | some last =>
      obtain ⟨m3, e, f1, -, -, -, f5, -, -, -, -, f10⟩ :=
        AddSurf_Tail_link_facts maxVerts m c s t last hp hno ht
      rw [e] at hstep
      cases hstep
      exact ⟨f1, by rw [f5]; rfl, by rw [f5]; rfl, f10⟩

theorem totalEdges_nonneg (surfs : Nat → msurface_t) (l : List Nat)
    (h : ∀ s ∈ l, 0 ≤ (surfs s).numedges) : 0 ≤ totalEdges surfs l := by
  induction l with
  | nil => simp [totalEdges]
  | cons s l ih =>
    rw [totalEdges_cons]
    have h1 := h s (List.mem_cons_self _ _)
    have h2 := ih (fun x hx => h x (List.mem_cons_of_mem _ hx))
    split_ifs <;> omega

theorem totalEdges_ge_two (surfs : Nat → msurface_t) (l : List Nat)
    (hp : ∀ s ∈ l, (surfs s).poly.isSome = true) (h : ∀ s ∈ l, 2 ≤ (surfs s).numedges) :
    2 * (l.length : Int) ≤ totalEdges surfs l := by
  induction l with
  | nil => simp [totalEdges]
  | cons s l ih =>
    rw [totalEdges_cons, if_pos (hp s (List.mem_cons_self _ _))]
    have h1 := h s (List.mem_cons_self _ _)
    have h2 := ih (fun x hx => hp x (List.mem_cons_of_mem _ hx))
      (fun x hx => h x (List.mem_cons_of_mem _ hx))
    simp only [List.length_cons, Nat.cast_add, Nat.cast_one]
    omega

/-- Appends that stay below the budget add `numedges` to `numverts` and
`3 * (numedges - 2)` to `numindices`, and never call the handler. -/
theorem runAppends_counts (maxVerts : Int) (hB : maxVerts ≤ 536870912) (c : Nat) :
    ∀ (calls : List AppendCall) (m m1 : Mem), runAppends maxVerts c m calls = some m1 →
      (∀ call ∈ calls, (m.surfs call.surf).poly.isSome = true) →
      (∀ call ∈ calls, 0 ≤ (m.surfs call.surf).numedges) →
      0 ≤ (m.chains c).numverts →
      (m.chains c).numverts + totalEdges m.surfs (calls.map AppendCall.surf) < maxVerts →
      -2147483648 + 6 * (calls.length : Int) ≤ (m.chains c).numindices →
      (m.chains c).numindices ≤ 3 * (m.chains c).numverts →
      m1.trace = m.trace ∧
      (m1.chains c).numverts =
        (m.chains c).numverts + totalEdges m.surfs (calls.map AppendCall.surf) ∧
      (m1.chains c).numindices =
        (m.chains c).numindices + 3 * totalEdges m.surfs (calls.map AppendCall.surf) -
          6 * (calls.length : Int) := by
  intro calls
  induction calls with
  | nil =>
    intro m m1 h _ _ _ _ _ _
    simp only [runAppends, Option.some.injEq] at h
    subst h
    simp [totalEdges]
  | cons call calls ih =>
    intro m m1 h hpoly he hn0 htot hi0 hi1
    simp only [runAppends] at h
    cases hstep : appendCall maxVerts c m call with
    | none => simp [hstep] at h
    | some m2 =>
      simp only [hstep] at h
      have hp := hpoly call (List.mem_cons_self _ _)
      have he0 := he call (List.mem_cons_self _ _)
      have hrest : 0 ≤ totalEdges m.surfs (calls.map AppendCall.surf) := by
        apply totalEdges_nonneg
        intro s hs
        obtain ⟨call2, hmem, rfl⟩ := List.mem_map.mp hs
        exact he call2 (List.mem_cons_of_mem _ hmem)
      simp only [List.map_cons, totalEdges_cons, hp, if_true] at htot
      simp only [List.length_cons, Nat.cast_add, Nat.cast_one] at hi0
      have hw := wrap32_of_range (x := (m.chains c).numverts + (m.surfs call.surf).numedges)
        (by omega) (by omega)
      have hno : overflows maxVerts m c call.surf = false := by
        simp only [overflows, hw, decide_eq_false_iff_not, not_le]
        omega
      obtain ⟨f1, f2, f3, f4⟩ := appendCall_link_counts maxVerts m m2 c call hstep hp hno
      have hw1 := wrap32_of_range (x := (m.surfs call.surf).numedges - 2)
        (by omega) (by omega)
      have hw2 := wrap32_of_range (x := ((m.surfs call.surf).numedges - 2) * 3)
        (by omega) (by omega)
      have hw3 := wrap32_of_range
        (x := (m.chains c).numindices + ((m.surfs call.surf).numedges - 2) * 3)
        (by omega) (by omega)
      rw [hw] at f2
      rw [hw1, hw2, hw3] at f3
      have hcong := totalEdges_congr m.surfs m2.surfs (calls.map AppendCall.surf) f1
      obtain ⟨g1, g2, g3⟩ := ih m2 m1 h
        (fun call2 hmem => by
          rw [(f1 call2.surf).1]
          exact hpoly call2 (List.mem_cons_of_mem _ hmem))
        (fun call2 hmem => by
          rw [(f1 call2.surf).2]
          exact he call2 (List.mem_cons_of_mem _ hmem))
        (by rw [f2]; omega)
        (by rw [f2, hcong]; omega)
        (by rw [f3]; omega)
        (by rw [f2, f3]; omega)
      refine ⟨by rw [g1, f4], ?_, ?_⟩
      · rw [g2, f2, hcong]
        simp only [List.map_cons, totalEdges_cons, hp, if_true]
        omega
      · rw [g3, f3, hcong]
        simp only [List.map_cons, totalEdges_cons, hp, if_true, List.length_cons,
          Nat.cast_add, Nat.cast_one]
        omega

/-- C17: on a chain freshly reset with `MaterialChains_Init` or
`MaterialChains_Init_Reverse`, after `k` surfaces with geometry are appended by
`MaterialChain_AddSurf` or `MaterialChain_AddSurf_Tail` and the vertex total
stays below the budget (so that no call overflows; the handler is not called),
the header holds `numverts` = the sum of the edge counts and
`numindices = 3 * numverts - 6 * k`; and `numindices` is non-negative when every
appended surface has at least 2 edges.  Edge counts are non-negative and `k` is
at most 357913941, so that `-6 * k` is an `int`. -/
theorem append_index_bookkeeping (m m0 m1 : Mem) (materialchains count i : Nat)
    (calls : List AppendCall) (hi : i < count)
    (hreset : m0 = MaterialChains_Init m materialchains count ∨
      m0 = MaterialChains_Init_Reverse m materialchains count)
    (hpoly : ∀ call ∈ calls, (m.surfs call.surf).poly.isSome = true)
    (he : ∀ call ∈ calls, 0 ≤ (m.surfs call.surf).numedges)
    (htotal : totalEdges m.surfs (calls.map AppendCall.surf) < MATERIALCHAIN_MAX_VERTS)
    (hlen : calls.length ≤ 357913941)
    (hrun : runAppends MATERIALCHAIN_MAX_VERTS (materialchains + i) m0 calls = some m1) :
    m1.trace = m0.trace ∧
    (m1.chains (materialchains + i)).numverts =
      totalEdges m.surfs (calls.map AppendCall.surf) ∧
    (m1.chains (materialchains + i)).numindices =
      3 * (m1.chains (materialchains + i)).numverts - 6 * (calls.length : Int) ∧
    ((∀ call ∈ calls, 2 ≤ (m.surfs call.surf).numedges) →
      0 ≤ (m1.chains (materialchains + i)).numindices) := by
  have hsurfs : m0.surfs = m.surfs := by rcases hreset with h | h <;> rw [h] <;> rfl
  have hz : (m0.chains (materialchains + i)).numverts = 0 ∧
      (m0.chains (materialchains + i)).numindices = 0 := by
    rcases hreset with h | h
    · have hc : (MaterialChains_Init m materialchains count).chains (materialchains + i) =
          zeroChain := memsetChains_inside _ _ _ _ (by omega)
      rw [h, hc]
      exact ⟨rfl, rfl⟩
    · rw [h, Init_Reverse_chain m materialchains count i hi]
      exact ⟨rfl, rfl⟩
  obtain ⟨hz1, hz2⟩ := hz
  have hlen2 : (calls.length : Int) ≤ 357913941 := by exact_mod_cast hlen
  obtain ⟨g1, g2, g3⟩ := runAppends_counts MATERIALCHAIN_MAX_VERTS (by decide)
    (materialchains + i) calls m0 m1 hrun (by rw [hsurfs]; exact hpoly)
    (by rw [hsurfs]; exact he) (by rw [hz1]) (by rw [hz1, hsurfs, zero_add]; exact htotal)
    (by rw [hz2]; omega) (by rw [hz1, hz2]; decide)
  rw [hz1, hsurfs, zero_add] at g2
  rw [hz2, hsurfs, zero_add] at g3
  refine ⟨g1, g2, by rw [g3, g2], ?_⟩
  intro h2
  rw [g3]
  have := totalEdges_ge_two m.surfs (calls.map AppendCall.surf)
    (fun s hs => by
      obtain ⟨call2, hmem, rfl⟩ := List.mem_map.mp hs
      exact hpoly call2 hmem)
    (fun s hs => by
      obtain ⟨call2, hmem, rfl⟩ := List.mem_map.mp hs
      exact h2 call2 hmem)
  rw [List.length_map] at this
  omega

theorem append_index_bookkeeping_witness :
    sampleRunMem.trace = (MaterialChains_Init_Reverse sampleTailMem 0 1).trace ∧
    (sampleRunMem.chains (0 + 0)).numverts =
      totalEdges sampleTailMem.surfs
        ([AppendCall.head 1, AppendCall.tail 2 0].map AppendCall.surf) ∧
    (sampleRunMem.chains (0 + 0)).numindices =
      3 * (sampleRunMem.chains (0 + 0)).numverts -
        6 * ([AppendCall.head 1, AppendCall.tail 2 0].length : Int) :=
  let h := append_index_bookkeeping sampleTailMem
    (MaterialChains_Init_Reverse sampleTailMem 0 1) sampleRunMem 0 1 0
    [AppendCall.head 1, AppendCall.tail 2 0] (by decide) (Or.inr rfl) (by decide) (by decide)
    (by decide) (by decide) rfl
  ⟨h.1, h.2.1, h.2.2.1⟩

/-! ## Vertex and index counts over the segments -/

theorem totalIndices_cons (surfs : Nat → msurface_t) (s : Nat) (l : List Nat) :
    totalIndices surfs (s :: l) =
      (if (surfs s).poly.isSome then 3 * ((surfs s).numedges - 2) else 0) +
        totalIndices surfs l := by
  simp [totalIndices]

theorem totalIndices_congr (surfs1 surfs2 : Nat → msurface_t) (l : List Nat)
    (h : ∀ x, (surfs2 x).poly = (surfs1 x).poly ∧ (surfs2 x).numedges = (surfs1 x).numedges) :
    totalIndices surfs2 l = totalIndices surfs1 l := by
  unfold totalIndices
  congr 1
  apply List.map_congr_left
  intro x _
  rw [(h x).1, (h x).2]

/-- Head appends with overflow: the vertex and index counts of the header and of
the blocks behind it grow, summed, by exactly the counts of the appended
surfaces that have geometry. -/
theorem addSurfs_segment_totals (maxVerts : Int) (hB : maxVerts ≤ 536870912) (c : Nat) :
    ∀ (ss : List Nat) (m : Mem) (segs : List Nat) (fuel : Nat),
      c < m.brk → (∀ a ∈ segs, a < m.brk ∧ a ≠ c) →
      overflowPath m.chains fuel (m.chains c).overflow = some segs →
      0 ≤ (m.chains c).numverts → (m.chains c).numverts < maxVerts →
      0 ≤ (m.chains c).numindices → (m.chains c).numindices ≤ 3 * (m.chains c).numverts →
      (∀ s ∈ ss, (m.surfs s).poly.isSome = true →
        2 ≤ (m.surfs s).numedges ∧ (m.surfs s).numedges < maxVerts) →
      ∃ segs2,
        overflowPath (addSurfs maxVerts m c ss).chains (fuel + ss.length)
          ((addSurfs maxVerts m c ss).chains c).overflow = some segs2 ∧
        ((addSurfs maxVerts m c ss).chains c).numverts +
            (segs2.map fun a => ((addSurfs maxVerts m c ss).chains a).numverts).sum =
          (m.chains c).numverts + (segs.map fun a => (m.chains a).numverts).sum +
            totalEdges m.surfs ss ∧
        ((addSurfs maxVerts m c ss).chains c).numindices +
            (segs2.map fun a => ((addSurfs maxVerts m c ss).chains a).numindices).sum =
          (m.chains c).numindices + (segs.map fun a => (m.chains a).numindices).sum +
            totalIndices m.surfs ss ∧
        ((addSurfs maxVerts m c ss).chains c).overflow_tail = (m.chains c).overflow_tail := by
  intro ss
  induction ss with
  | nil =>
    intro m segs fuel _ _ hpath _ _ _ _ _
    exact ⟨segs, by simpa [addSurfs] using hpath, by simp [addSurfs, totalEdges],
      by simp [addSurfs, totalIndices], rfl⟩
  | cons s ss ih =>
    intro m segs fuel hc hsegs hpath hn0 hn1 hi0 hi1 hsurf
    have hstep : addSurfs maxVerts m c (s :: ss) =
        addSurfs maxVerts (MaterialChain_AddSurf maxVerts m c s) c ss := rfl
    rw [hstep, totalEdges_cons, totalIndices_cons]
    by_cases hp : (m.surfs s).poly.isSome = true
    · obtain ⟨he0, he1⟩ := hsurf s (List.mem_cons_self _ _) hp
      have hw := wrap32_of_range (x := (m.chains c).numverts + (m.surfs s).numedges)
        (by omega) (by omega)
      have hw1 := wrap32_of_range (x := (m.surfs s).numedges - 2) (by omega) (by omega)
      have hw2 := wrap32_of_range (x := ((m.surfs s).numedges - 2) * 3) (by omega) (by omega)
      by_cases hov : overflows maxVerts m c s = true
      · -- overflow: the header's contents move to the block at `brk`
        have hcb : c ≠ m.brk := by omega
        have e := AddSurf_spill maxVerts m c s hp hov
        obtain ⟨k1, k2, k3⟩ := HandleOverflow_none_chains
          { m with trace := m.trace ++ [Event.handleOverflow c s none] } c s hcb
        have hS := HandleOverflow_surfs
          { m with trace := m.trace ++ [Event.handleOverflow c s none] } c s none
        have hchc : (MaterialChain_AddSurf maxVerts m c s).chains c =
            { m.chains c with
              numverts := wrap32 (0 + (m.surfs s).numedges),
              numindices := wrap32 (0 + wrap32 (wrap32 ((m.surfs s).numedges - 2) * 3)),
              surf := some s, overflow := some m.brk } := by
          rw [e, addCounts_chains_self, k1, (hS s).2]
        have hchb : (MaterialChain_AddSurf maxVerts m c s).chains m.brk = m.chains c := by
          rw [e, addCounts_chains_other _ _ _ _ (Ne.symm hcb)]
          exact k2
        have hcho : ∀ a, a ≠ c → a ≠ m.brk →
            (MaterialChain_AddSurf maxVerts m c s).chains a = m.chains a := by
          intro a h1 h2
          rw [e, addCounts_chains_other _ _ _ _ h1]
          exact k3 a h1 h2
        have hbrk : (MaterialChain_AddSurf maxVerts m c s).brk = m.brk + 1 := by
          rw [e, addCounts_brk, HandleOverflow_brk]
        have hsf : ∀ x, ((MaterialChain_AddSurf maxVerts m c s).surfs x).poly =
              (m.surfs x).poly ∧
            ((MaterialChain_AddSurf maxVerts m c s).surfs x).numedges =
              (m.surfs x).numedges := by
          intro x
          rw [e, addCounts_surfs]
          exact hS x
        have hw0 := wrap32_of_range (x := 0 + (m.surfs s).numedges) (by omega) (by omega)
        have hw3 := wrap32_of_range (x := 0 + ((m.surfs s).numedges - 2) * 3)
          (by omega) (by omega)
        rw [hw0, hw1, hw2, hw3] at hchc
        have hpath2 : overflowPath (MaterialChain_AddSurf maxVerts m c s).chains (fuel + 1)
            ((MaterialChain_AddSurf maxVerts m c s).chains c).overflow =
              some (m.brk :: segs) := by
          rw [hchc]
          simp only [overflowPath, Option.map_eq_some']
          refine ⟨segs, ?_, rfl⟩
          rw [hchb]
          apply overflowPath_congr m.chains _ _ _ _ _ hpath
          intro a ha
          have := hsegs a ha
          rw [hcho a this.2 (by omega)]
        obtain ⟨segs2, g1, g2, g3, g4⟩ := ih (MaterialChain_AddSurf maxVerts m c s)
          (m.brk :: segs) (fuel + 1) (by rw [hbrk]; omega)
          (fun a ha => by
            rw [hbrk]
            rcases List.mem_cons.mp ha with h | h
            · exact ⟨by omega, by omega⟩
            · exact ⟨by have := (hsegs a h).1; omega, (hsegs a h).2⟩)
          hpath2
          (by rw [hchc]; simp only []; omega)
          (by rw [hchc]; simp only []; omega)
          (by rw [hchc]; simp only []; omega)
          (by rw [hchc]; simp only []; omega)
          (fun x hx hpx => by
            rw [(hsf x).1] at hpx
            rw [(hsf x).2]
            exact hsurf x (List.mem_cons_of_mem _ hx) hpx)
        have hmapv : (segs.map fun a =>
            ((MaterialChain_AddSurf maxVerts m c s).chains a).numverts) =
            segs.map fun a => (m.chains a).numverts := by
          apply List.map_congr_left
          intro a ha
          have := hsegs a ha
          rw [hcho a this.2 (by omega)]
        have hmapi : (segs.map fun a =>
            ((MaterialChain_AddSurf maxVerts m c s).chains a).numindices) =
            segs.map fun a => (m.chains a).numindices := by
          apply List.map_congr_left
          intro a ha
          have := hsegs a ha
          rw [hcho a this.2 (by omega)]
        refine ⟨segs2, ?_, ?_, ?_, ?_⟩
        · rw [show fuel + (s :: ss).length = fuel + 1 + ss.length by simp; omega]
          exact g1
        · rw [g2, totalEdges_congr _ _ _ hsf, hchc, List.map_cons, List.sum_cons, hchb, hmapv]
          simp only [hp, if_true]
          omega
        · rw [g3, totalIndices_congr _ _ _ hsf, hchc, List.map_cons, List.sum_cons, hchb,
            hmapi]
          simp only [hp, if_true]
          omega
        · rw [g4, hchc]
      · -- no overflow: only the header changes
        have hno : overflows maxVerts m c s = false := by simpa using hov
        obtain ⟨f1, -, -, f4, f5, -, f7, -, -⟩ := AddSurf_link_facts maxVerts m c s hp hno
        have hlt : (m.chains c).numverts + (m.surfs s).numedges < maxVerts := by
          simp only [overflows, hw, decide_eq_false_iff_not, not_le] at hno
          exact hno
        have hw3 := wrap32_of_range
          (x := (m.chains c).numindices + ((m.surfs s).numedges - 2) * 3)
          (by omega) (by omega)
        rw [hw, hw1, hw2, hw3] at f4
        obtain ⟨segs2, g1, g2, g3, g4⟩ := ih (MaterialChain_AddSurf maxVerts m c s) segs
          (fuel + 1) (by rw [f7]; exact hc)
          (fun a ha => by rw [f7]; exact hsegs a ha)
          (by
            rw [f4]
            simp only []
            apply overflowPath_mono _ fuel (fuel + 1) _ _ (by omega)
            apply overflowPath_congr m.chains _ _ _ _ _ hpath
            intro a ha
            rw [f5 a (hsegs a ha).2])
          (by rw [f4]; simp only []; omega)
          (by rw [f4]; simp only []; omega)
          (by rw [f4]; simp only []; omega)
          (by rw [f4]; simp only []; omega)
          (fun x hx hpx => by
            rw [(f1 x).1] at hpx
            rw [(f1 x).2]
            exact hsurf x (List.mem_cons_of_mem _ hx) hpx)
        have hmapv : (segs.map fun a =>
            ((MaterialChain_AddSurf maxVerts m c s).chains a).numverts) =
            segs.map fun a => (m.chains a).numverts := by
          apply List.map_congr_left
          intro a ha
          rw [f5 a (hsegs a ha).2]
        have hmapi : (segs.map fun a =>
            ((MaterialChain_AddSurf maxVerts m c s).chains a).numindices) =
            segs.map fun a => (m.chains a).numindices := by
          apply List.map_congr_left
          intro a ha
          rw [f5 a (hsegs a ha).2]
        refine ⟨segs2, ?_, ?_, ?_, ?_⟩
        · rw [show fuel + (s :: ss).length = fuel + 1 + ss.length by simp; omega]
          exact g1
        · rw [g2, totalEdges_congr _ _ _ f1, f4, hmapv]
          simp only [hp, if_true]
          omega
        · rw [g3, totalIndices_congr _ _ _ f1, f4, hmapi]
          simp only [hp, if_true]
          omega
        · rw [g4, f4]
    · -- no geometry: nothing happens
      have hn : (m.surfs s).poly = none := by simpa using hp
      have e := AddSurf_skip maxVerts m c s hn
      rw [e]
      obtain ⟨segs2, g1, g2, g3, g4⟩ := ih m segs (fuel + 1) hc hsegs
        (overflowPath_mono _ fuel (fuel + 1) _ _ (by omega) hpath) hn0 hn1 hi0 hi1
        (fun x hx => hsurf x (List.mem_cons_of_mem _ hx))
      refine ⟨segs2, ?_, ?_, ?_, g4⟩
      · rw [show fuel + (s :: ss).length = fuel + 1 + ss.length by simp; omega]
        exact g1
      · rw [g2]
        simp [hn]
      · rw [g3]
        simp [hn]

/-- With the modelled handler the header starts over at an overflow: two
surfaces of 40000 edges are appended to a freshly reset chain, the second
append meets the budget (80000 ≥ 65536), the handler moves the first segment's
counts into an allocated block, and afterwards the header holds
`numverts = 40000` and `numindices = 119994`, the counts of the newest segment;
the totals are 80000 and 239988.  A handler that left the header's counts in
place would give the totals instead: the header file does not say which. -/
theorem AddSurf_header_restarts_on_overflow :
    ((addSurfs MATERIALCHAIN_MAX_VERTS (MaterialChains_Init sampleBigMem 0 1) 0
      [1, 2]).chains 0).numverts = 40000 ∧
    totalEdges sampleBigMem.surfs [1, 2] = 80000 ∧
    ((addSurfs MATERIALCHAIN_MAX_VERTS (MaterialChains_Init sampleBigMem 0 1) 0
      [1, 2]).chains 0).numindices = 119994 ∧
    totalIndices sampleBigMem.surfs [1, 2] = 239988 := by
  decide

/-- With the modelled handler the counts of the segments add up to the totals:
for any sequence of `MaterialChain_AddSurf` calls on a freshly reset chain,
including sequences that trigger overflow, summed over all segments (the header
and the blocks reached along `overflow` links) `numverts` equals the sum of
`numedges` and `numindices` the sum of `3 * (numedges - 2)` over all appended
surfaces with geometry.  Every such surface has at least 2 and fewer than
`MATERIALCHAIN_MAX_VERTS` edges, so that no `int` overflows, and the chain
array lies below the zone's free space. -/
theorem AddSurf_totals_over_segments (m m0 : Mem) (materialchains count i : Nat)
    (ss : List Nat) (hi : i < count) (hbrk : materialchains + count ≤ m.brk)
    (hreset : m0 = MaterialChains_Init m materialchains count ∨
      m0 = MaterialChains_Init_Reverse m materialchains count)
    (hsurf : ∀ s ∈ ss, (m.surfs s).poly.isSome = true →
      2 ≤ (m.surfs s).numedges ∧ (m.surfs s).numedges < MATERIALCHAIN_MAX_VERTS) :
    ∃ segs,
      overflowPath
        (addSurfs MATERIALCHAIN_MAX_VERTS m0 (materialchains + i) ss).chains (ss.length + 1)
        (some (((addSurfs MATERIALCHAIN_MAX_VERTS m0 (materialchains + i) ss).chains
          (materialchains + i)).overflow_tail.getD (materialchains + i))) = some segs ∧
      (segs.map fun a =>
        ((addSurfs MATERIALCHAIN_MAX_VERTS m0 (materialchains + i) ss).chains a).numverts).sum =
          totalEdges m.surfs ss ∧
      (segs.map fun a =>
        ((addSurfs MATERIALCHAIN_MAX_VERTS m0 (materialchains + i) ss).chains
          a).numindices).sum = totalIndices m.surfs ss := by
  have hsurfs : m0.surfs = m.surfs := by rcases hreset with h | h <;> rw [h] <;> rfl
  have hbrk0 : m0.brk = m.brk := by rcases hreset with h | h <;> rw [h] <;> rfl
  have hz : (m0.chains (materialchains + i)).numverts = 0 ∧
      (m0.chains (materialchains + i)).numindices = 0 ∧
      (m0.chains (materialchains + i)).overflow = none ∧
      (m0.chains (materialchains + i)).overflow_tail.getD (materialchains + i) =
        materialchains + i := by
    rcases hreset with h | h
    · have hc : (MaterialChains_Init m materialchains count).chains (materialchains + i) =
          zeroChain := memsetChains_inside _ _ _ _ (by omega)
      rw [h, hc]
      exact ⟨rfl, rfl, rfl, rfl⟩
    · rw [h, Init_Reverse_chain m materialchains count i hi]
      exact ⟨rfl, rfl, rfl, rfl⟩
  obtain ⟨hz1, hz2, hz3, hz4⟩ := hz
  obtain ⟨segs2, g1, g2, g3, g4⟩ := addSurfs_segment_totals MATERIALCHAIN_MAX_VERTS
    (by decide) (materialchains + i) ss m0 [] 0
    (by rw [hbrk0]; omega) (fun _ h => by simp at h)
    (by rw [hz3]; rfl) (by rw [hz1]) (by rw [hz1]; decide) (by rw [hz2])
    (by rw [hz1, hz2]; decide) (by rw [hsurfs]; exact hsurf)
  refine ⟨(materialchains + i) :: segs2, ?_, ?_, ?_⟩
  · rw [g4, hz4]
    simp only [overflowPath, Option.map_eq_some']
    refine ⟨segs2, ?_, rfl⟩
    rw [Nat.zero_add] at g1
    exact g1
  · rw [List.map_cons, List.sum_cons, g2, hz1, hsurfs]
    simp
  · rw [List.map_cons, List.sum_cons, g3, hz2, hsurfs]
    simp

theorem AddSurf_totals_over_segments_witness :
    ∃ segs,
      overflowPath
        (addSurfs MATERIALCHAIN_MAX_VERTS (MaterialChains_Init sampleBigMem 0 1) (0 + 0)
          [1, 2, 3]).chains ([1, 2, 3].length + 1)
        (some (((addSurfs MATERIALCHAIN_MAX_VERTS (MaterialChains_Init sampleBigMem 0 1)
          (0 + 0) [1, 2, 3]).chains (0 + 0)).overflow_tail.getD (0 + 0))) = some segs ∧
      (segs.map fun a =>
        ((addSurfs MATERIALCHAIN_MAX_VERTS (MaterialChains_Init sampleBigMem 0 1) (0 + 0)
          [1, 2, 3]).chains a).numverts).sum = totalEdges sampleBigMem.surfs [1, 2, 3] ∧
      (segs.map fun a =>
        ((addSurfs MATERIALCHAIN_MAX_VERTS (MaterialChains_Init sampleBigMem 0 1) (0 + 0)
          [1, 2, 3]).chains a).numindices).sum = totalIndices sampleBigMem.surfs [1, 2, 3] :=
  AddSurf_totals_over_segments sampleBigMem (MaterialChains_Init sampleBigMem 0 1) 0 1 0
    [1, 2, 3] (by decide) (by decide) (Or.inl rfl) (by decide)

/-! ## C11: submission order across segments -/

theorem surfWalk_exact (surfs : Nat → msurface_t) :
    ∀ (fuel : Nat) (p : Option Nat) (l : List Nat),
      surfWalk surfs fuel p = some l → surfWalk surfs l.length p = some l := by
  intro fuel
  induction fuel with
  | zero =>
    intro p l h
    cases p with
    | none =>
      simp [surfWalk] at h
      subst h
      rfl
    | some s => simp [surfWalk] at h
  | succ fuel ih =>
    intro p l h
    cases p with
    | none =>
      simp [surfWalk] at h
      subst h
      rfl
    | some s =>
      simp only [surfWalk, Option.map_eq_some'] at h
      obtain ⟨r, hr, rfl⟩ := h
      simp only [List.length_cons, surfWalk, Option.map_eq_some']
      exact ⟨r, ih _ r hr, rfl⟩

theorem surfWalk_of_le (surfs : Nat → msurface_t) (fuel fuel2 : Nat) (p : Option Nat)
    (l : List Nat) (h : surfWalk surfs fuel p = some l) (hle : l.length ≤ fuel2) :
    surfWalk surfs fuel2 p = some l :=
  surfWalk_mono surfs l.length fuel2 p l hle (surfWalk_exact surfs fuel p l h)

theorem overflowPath_exact (chains : Nat → materialchain_t) :
    ∀ (fuel : Nat) (p : Option Nat) (l : List Nat),
      overflowPath chains fuel p = some l → overflowPath chains l.length p = some l := by
  intro fuel
  induction fuel with
  | zero =>
    intro p l h
    cases p with
    | none =>
      simp [overflowPath] at h
      subst h
      rfl
    | some s => simp [overflowPath] at h
  | succ fuel ih =>
    intro p l h
    cases p with
    | none =>
      simp [overflowPath] at h
      subst h
      rfl
    | some s =>
      simp only [overflowPath, Option.map_eq_some'] at h
      obtain ⟨r, hr, rfl⟩ := h
      simp only [List.length_cons, overflowPath, Option.map_eq_some']
      exact ⟨r, ih _ r hr, rfl⟩

theorem overflowPath_of_le (chains : Nat → materialchain_t) (fuel fuel2 : Nat)
    (p : Option Nat) (l : List Nat) (h : overflowPath chains fuel p = some l)
    (hle : l.length ≤ fuel2) : overflowPath chains fuel2 p = some l :=
  overflowPath_mono chains l.length fuel2 p l hle (overflowPath_exact chains fuel p l h)

/-- Linking the block `nb` between the last block `bk` and the header `c`
extends the path by `nb`. -/
theorem overflowPath_insert (ch ch2 : Nat → materialchain_t) (bk nb c : Nat)
    (h1 : (ch2 bk).overflow = some nb) (h2 : (ch2 nb).overflow = some c)
    (h3 : (ch2 c).overflow = none) :
    ∀ (pre : List Nat) (fuel : Nat) (p : Option Nat),
      overflowPath ch fuel p = some (pre ++ [bk, c]) →
      (∀ x ∈ pre, (ch2 x).overflow = (ch x).overflow) →
      overflowPath ch2 (fuel + 1) p = some (pre ++ [bk, nb, c]) := by
  intro pre
  induction pre with
  | nil =>
    intro fuel p h _
    cases p with
    | none => cases fuel <;> simp [overflowPath] at h
    | some x =>
      cases fuel with
      | zero => simp [overflowPath] at h
      | succ f =>
        simp only [overflowPath, Option.map_eq_some', List.nil_append] at h
        obtain ⟨r, hr, hcons⟩ := h
        obtain ⟨hx, hrl⟩ := List.cons_eq_cons.mp hcons
        subst hx
        subst hrl
        cases f with
        | zero =>
          cases hq : (ch x).overflow <;> simp [hq, overflowPath] at hr
        | succ f2 =>
          simp [overflowPath, h1, h2, h3]
  | cons y pre ih =>
    intro fuel p h hagree
    cases p with
    | none => cases fuel <;> simp [overflowPath] at h
    | some x =>
      cases fuel with
      | zero => simp [overflowPath] at h
      | succ f =>
        simp only [overflowPath, Option.map_eq_some', List.cons_append] at h
        obtain ⟨r, hr, hcons⟩ := h
        obtain ⟨hx, hrl⟩ := List.cons_eq_cons.mp hcons
        subst hx
        subst hrl
        have := ih f _ hr (fun z hz => hagree z (List.mem_cons_of_mem _ hz))
        simp only [overflowPath, Option.map_eq_some', List.cons_append]
        refine ⟨pre ++ [bk, nb, c], ?_, rfl⟩
        rw [hagree x (List.mem_cons_self _ _)]
        exact this

/-- The handler with a tail, first overflow of the chain: the header's contents
move to the new block, which becomes the walk's start and leads to the header. -/
theorem HandleOverflow_tail_first (m : Mem) (c s t : Nat) (hc : c ≠ m.brk)
    (hot : (m.chains c).overflow_tail = some c) :
    (MaterialChain_HandleOverflow m c s (some t)).chains c =
      { m.chains c with numverts := 0, numindices := 0, surf := some s, overflow := none,
                        overflow_tail := some m.brk } ∧
    (MaterialChain_HandleOverflow m c s (some t)).chains m.brk =
      { m.chains c with overflow := some c, overflow_tail := some m.brk } ∧
    (∀ a, a ≠ c → a ≠ m.brk →
      (MaterialChain_HandleOverflow m c s (some t)).chains a = m.chains a) ∧
    (MaterialChain_HandleOverflow m c s (some t)).surfs =
      Function.update m.surfs s { m.surfs s with chain := none } ∧
    (MaterialChain_HandleOverflow m c s (some t)).tails =
      Function.update m.tails t (some s) := by
  refine ⟨?_, ?_, ?_, rfl, rfl⟩
  · simp [MaterialChain_HandleOverflow, Z_Malloc, hot]
  · simp [MaterialChain_HandleOverflow, Z_Malloc, hot, Function.update_noteq (Ne.symm hc)]
  · intro a h1 h2
    simp [MaterialChain_HandleOverflow, Z_Malloc, hot, Function.update_noteq h1,
      Function.update_noteq h2]

/-- The handler with a tail, later overflows: the new block is linked behind the
newest block `bk`, in front of the header, and the first block remembers it. -/
theorem HandleOverflow_tail_later (m : Mem) (c s t b1 bk : Nat) (hc : c ≠ m.brk)
    (hot : (m.chains c).overflow_tail = some b1) (hb1c : b1 ≠ c) (hb1 : b1 ≠ m.brk)
    (hbk : (m.chains b1).overflow_tail = some bk) :
    (MaterialChain_HandleOverflow m c s (some t)).chains c =
      { m.chains c with numverts := 0, numindices := 0, surf := some s, overflow := none,
                        overflow_tail := some b1 } ∧
    (MaterialChain_HandleOverflow m c s (some t)).chains m.brk =
      { m.chains c with overflow := some c, overflow_tail := none } ∧
    (∀ a, a ≠ c → a ≠ m.brk →
      ((MaterialChain_HandleOverflow m c s (some t)).chains a).surf = (m.chains a).surf ∧
      ((MaterialChain_HandleOverflow m c s (some t)).chains a).overflow =
        (if a = bk then some m.brk else (m.chains a).overflow) ∧
      ((MaterialChain_HandleOverflow m c s (some t)).chains a).overflow_tail =
        (if a = b1 then some m.brk else (m.chains a).overflow_tail)) ∧
    (MaterialChain_HandleOverflow m c s (some t)).surfs =
      Function.update m.surfs s { m.surfs s with chain := none } ∧
    (MaterialChain_HandleOverflow m c s (some t)).tails =
      Function.update m.tails t (some s) := by
  have hlast : ((Function.update m.chains m.brk zeroChain) b1).overflow_tail.getD b1 = bk := by
    rw [Function.update_noteq hb1, hbk]
    rfl
  refine ⟨?_, ?_, ?_, rfl, rfl⟩
  · simp [MaterialChain_HandleOverflow, Z_Malloc, hot, hb1c]
  · simp [MaterialChain_HandleOverflow, Z_Malloc, hot, hb1c,
      Function.update_noteq (Ne.symm hc)]
  · intro a h1 h2
    simp only [MaterialChain_HandleOverflow, Z_Malloc, hot, hb1c, if_false]
    rw [hlast, Function.update_noteq h1, Function.update_noteq h2]
    by_cases hab1 : a = b1
    · subst hab1
      by_cases habk : a = bk
      · subst habk
        simp [Function.update_noteq hb1]
      · simp [Function.update_noteq hb1, Function.update_noteq habk, habk]
    · by_cases habk : a = bk
      · subst habk
        simp [Function.update_noteq hab1, Function.update_noteq h2, hab1]
      · simp [Function.update_noteq hab1, Function.update_noteq habk,
          Function.update_noteq h2, hab1, habk]
/-- A tail append that does not overflow extends the header's segment. -/
theorem TailBuilt_link (maxVerts : Int) (hB : maxVerts ≤ 1073741824) (m : Mem) (c t s : Nat)
    (closed : List (Nat × List Nat)) (cur : List Nat)
    (hinv : TailBuilt maxVerts m c t closed cur)
    (hp : (m.surfs s).poly.isSome = true) (he0 : 0 ≤ (m.surfs s).numedges)
    (he1 : (m.surfs s).numedges < 1073741824)
    (hno : overflows maxVerts m c s = false)
    (hnd : (closed.flatMap Prod.snd ++ cur).Nodup)
    (hs : s ∉ closed.flatMap Prod.snd ++ cur) :
    ∃ m1, MaterialChain_AddSurf_Tail maxVerts m c s t = some m1 ∧
      TailBuilt maxVerts m1 c t closed (cur ++ [s]) ∧
      (∀ x, (m1.surfs x).poly = (m.surfs x).poly ∧
        (m1.surfs x).numedges = (m.surfs x).numedges) := by
  obtain ⟨h, last, pre, hcur, hsurf, hov, hn0, hn1, hwalk, htail, hcb, hblocks, hpath, hot,
    hfirst, hclosed⟩ := hinv
  have hscur : s ∉ cur := fun hm => hs (List.mem_append_right _ hm)
  have hlastcur : last ∈ cur := by rw [hcur]; simp
  have hne : last ≠ s := fun e => hscur (e ▸ hlastcur)
  have hndcur : cur.Nodup := (List.nodup_append.mp hnd).2.1
  obtain ⟨m1, e, f1, f2, f3, f4, f5, f6, f7, f8, -, -⟩ :=
    AddSurf_Tail_link_facts maxVerts m c s t last hp hno htail
  have hm1surfs : m1.surfs =
      Function.update (Function.update m.surfs s { m.surfs s with chain := none }) last
        { Function.update m.surfs s { m.surfs s with chain := none } last with
          chain := some s } := by
    have := AddSurf_Tail_link maxVerts m c s t last hp hno htail
    rw [e] at this
    have h2 := Option.some.inj this
    rw [h2, addCounts_surfs]
  have hw := wrap32_of_range (x := (m.chains c).numverts + (m.surfs s).numedges)
    (by omega) (by omega)
  have hlt : (m.chains c).numverts + (m.surfs s).numedges < maxVerts := by
    simp only [overflows, hw, decide_eq_false_iff_not, not_le] at hno
    exact hno
  refine ⟨m1, e, ⟨h, s, pre ++ [last], by rw [hcur], ?_, ?_, ?_, ?_, ?_, ?_, ?_, ?_, ?_, ?_,
    ?_, ?_⟩, f1⟩
  · rw [f5]; exact hsurf
  · rw [f5]; exact hov
  · rw [f5]; simp only []; rw [hw]; omega
  · rw [f5]; simp only []; rw [hw]; exact hlt
  · rw [hm1surfs]
    have := surfWalk_snoc m.surfs s last pre cur.length (some h) (by rw [← hcur]; exact hwalk)
      (by rw [← hcur]; exact hndcur) (by rw [← hcur]; exact hscur)
    rw [show (cur ++ [s]).length = cur.length + 1 by simp, hcur]
    rw [hcur] at this
    simpa using this
  · rw [f7]; simp
  · rw [f8]; exact hcb
  · intro b hb
    rw [f8]
    exact hblocks b hb
  · apply overflowPath_congr m.chains _ _ _ _ _ hpath
    intro x _
    by_cases hx : x = c
    · rw [hx, f5]
    · rw [f6 x hx]
  · rw [f5]; exact hot
  · intro b1 hb1
    have hmem : b1 ∈ closed.map Prod.fst := List.mem_of_mem_head? hb1
    rw [f6 b1 (hblocks b1 hmem).2]
    exact hfirst b1 hb1
  · intro bl hbl
    obtain ⟨hne2, hwalk2⟩ := hclosed bl hbl
    refine ⟨hne2, ?_⟩
    have hbmem : bl.1 ∈ closed.map Prod.fst := List.mem_map.mpr ⟨bl, hbl, rfl⟩
    rw [f6 bl.1 (hblocks bl.1 hbmem).2]
    apply surfWalk_congr m.surfs _ _ _ _ _ hwalk2
    intro x hx
    have hxin : x ∈ closed.flatMap Prod.snd := List.mem_flatMap.mpr ⟨bl, hbl, hx⟩
    have hxs : x ≠ s := fun e2 => hs (List.mem_append_left _ (e2 ▸ hxin))
    have hxl : x ≠ last := by
      intro e2
      exact (List.nodup_append.mp hnd).2.2 hxin (e2 ▸ hlastcur)
    rw [f4 x hxs hxl]
theorem append_last_split (l : List Nat) (h : l ≠ []) (c : Nat) :
    l ++ [c] = l.dropLast ++ [l.getLast h, c] := by
  have := List.dropLast_append_getLast h
  calc l ++ [c] = (l.dropLast ++ [l.getLast h]) ++ [c] := by rw [this]
    _ = l.dropLast ++ [l.getLast h, c] := by simp

theorem append_last_split2 (l : List Nat) (h : l ≠ []) (b c : Nat) :
    l.dropLast ++ [l.getLast h, b, c] = l ++ [b] ++ [c] := by
  have := List.dropLast_append_getLast h
  calc l.dropLast ++ [l.getLast h, b, c] = (l.dropLast ++ [l.getLast h]) ++ [b] ++ [c] := by
        simp
    _ = l ++ [b] ++ [c] := by rw [this]

/-- A tail append that overflows closes the header's segment into a new block
behind the older blocks and starts a new segment with the appended surface. -/
theorem TailBuilt_spill (maxVerts : Int) (hB : maxVerts ≤ 1073741824) (m : Mem) (c t s : Nat)
    (closed : List (Nat × List Nat)) (cur : List Nat)
    (hinv : TailBuilt maxVerts m c t closed cur)
    (hp : (m.surfs s).poly.isSome = true) (he0 : 0 ≤ (m.surfs s).numedges)
    (he1 : (m.surfs s).numedges < maxVerts)
    (hovf : overflows maxVerts m c s = true)
    (hs : s ∉ closed.flatMap Prod.snd ++ cur) :
    ∃ m1, MaterialChain_AddSurf_Tail maxVerts m c s t = some m1 ∧
      TailBuilt maxVerts m1 c t (closed ++ [(m.brk, cur)]) [s] ∧
      (∀ x, (m1.surfs x).poly = (m.surfs x).poly ∧
        (m1.surfs x).numedges = (m.surfs x).numedges) := by
  obtain ⟨h, last, pre, hcur, hsurf, hov, hn0, hn1, hwalk, htail, hcb, hblocks, hpath, hot,
    hfirst, hclosed⟩ := hinv
  have hscur : s ∉ cur := fun hm => hs (List.mem_append_right _ hm)
  have hcne : c ≠ m.brk := by omega
  have e := AddSurf_Tail_spill maxVerts m c s t hp hovf
  have hS := HandleOverflow_surfs
    { m with trace := m.trace ++ [Event.handleOverflow c s (some t)] } c s (some t)
  have hw0 := wrap32_of_range (x := 0 + (m.surfs s).numedges) (by omega) (by omega)
  have hcurne : cur ≠ [] := by rw [hcur]; simp
  -- facts shared by both shapes of the handler's result
  have hcommon : ∀ (ot : Option Nat) (blk : materialchain_t),
      (MaterialChain_HandleOverflow
        { m with trace := m.trace ++ [Event.handleOverflow c s (some t)] } c s (some t)).chains c =
        { m.chains c with numverts := 0, numindices := 0, surf := some s, overflow := none,
                          overflow_tail := ot } →
      (MaterialChain_HandleOverflow
        { m with trace := m.trace ++ [Event.handleOverflow c s (some t)] } c s
          (some t)).chains m.brk = blk →
      blk.surf = (m.chains c).surf →
      ∃ m1, MaterialChain_AddSurf_Tail maxVerts m c s t = some m1 ∧
        (m1.chains c).surf = some s ∧ (m1.chains c).overflow = none ∧
        (m1.chains c).overflow_tail = ot ∧
        0 ≤ (m1.chains c).numverts ∧ (m1.chains c).numverts < maxVerts ∧
        surfWalk m1.surfs [s].length (some s) = some [s] ∧
        m1.tails t = some s ∧ m1.brk = m.brk + 1 ∧
        (∀ a, a ≠ c → m1.chains a =
          (MaterialChain_HandleOverflow
            { m with trace := m.trace ++ [Event.handleOverflow c s (some t)] } c s
              (some t)).chains a) ∧
        m1.surfs = Function.update m.surfs s { m.surfs s with chain := none } ∧
        surfWalk m1.surfs cur.length (m1.chains m.brk).surf = some cur ∧
        (∀ x, (m1.surfs x).poly = (m.surfs x).poly ∧
          (m1.surfs x).numedges = (m.surfs x).numedges) := by
    intro ot blk k1 k2 k3
    have hsurfs : (addCounts (MaterialChain_HandleOverflow
        { m with trace := m.trace ++ [Event.handleOverflow c s (some t)] } c s (some t))
          c s).surfs = Function.update m.surfs s { m.surfs s with chain := none } := by
      rw [addCounts_surfs]
      rfl
    have hcc : (addCounts (MaterialChain_HandleOverflow
        { m with trace := m.trace ++ [Event.handleOverflow c s (some t)] } c s (some t))
          c s).chains c =
        { m.chains c with
          numverts := (m.surfs s).numedges,
          numindices := wrap32 (0 + wrap32 (wrap32 ((m.surfs s).numedges - 2) * 3)),
          surf := some s, overflow := none, overflow_tail := ot } := by
      rw [addCounts_chains_self, k1, (hS s).2]
      simp only [zero_add] at hw0 ⊢
      rw [hw0]
    refine ⟨_, e, ?_, ?_, ?_, ?_, ?_, ?_, ?_, ?_, ?_, hsurfs, ?_, ?_⟩
    · rw [hcc]
    · rw [hcc]
    · rw [hcc]
    · rw [hcc]; exact he0
    · rw [hcc]; exact he1
    · rw [hsurfs]
      simp [surfWalk]
    · rw [addCounts_tails]
      show (Function.update m.tails t (some s)) t = some s
      simp
    · rw [addCounts_brk, HandleOverflow_brk]
    · intro a ha
      rw [addCounts_chains_other _ _ _ _ ha]
    · rw [hsurfs, addCounts_chains_other _ _ _ _ (Ne.symm hcne), k2, k3, hsurf]
      apply surfWalk_congr m.surfs _ _ _ _ _ hwalk
      intro x hx
      have hxs : x ≠ s := fun e2 => hscur (e2 ▸ hx)
      rw [Function.update_noteq hxs]
    · intro x
      rw [hsurfs]
      by_cases hx : x = s
      · subst hx
        simp
      · simp [Function.update_noteq hx]
  -- walks of the older blocks are not disturbed
  have hold : ∀ (m1 : Mem),
      m1.surfs = Function.update m.surfs s { m.surfs s with chain := none } →
      (∀ bl ∈ closed, (m1.chains bl.1).surf = (m.chains bl.1).surf) →
      ∀ bl ∈ closed, bl.2 ≠ [] ∧
        surfWalk m1.surfs bl.2.length (m1.chains bl.1).surf = some bl.2 := by
    intro m1 hs1 hsf bl hbl
    obtain ⟨hne2, hwalk2⟩ := hclosed bl hbl
    refine ⟨hne2, ?_⟩
    rw [hsf bl hbl, hs1]
    apply surfWalk_congr m.surfs _ _ _ _ _ hwalk2
    intro x hx
    have hxin : x ∈ closed.flatMap Prod.snd := List.mem_flatMap.mpr ⟨bl, hbl, hx⟩
    have hxs : x ≠ s := fun e2 => hs (List.mem_append_left _ (e2 ▸ hxin))
    rw [Function.update_noteq hxs]
  cases hcl : closed with
  | nil =>
    subst hcl
    simp only [List.map_nil, List.head?_nil, Option.getD_none] at hot
    obtain ⟨k1, k2, k3, -, -⟩ := HandleOverflow_tail_first
      { m with trace := m.trace ++ [Event.handleOverflow c s (some t)] } c s t hcne hot
    obtain ⟨m1, e1, g1, g2, g3, g4, g5, g6, g7, g8, g9, g10, g11, g12⟩ :=
      hcommon (some m.brk) _ k1 k2 rfl
    refine ⟨m1, e1, ⟨s, s, [], rfl, g1, g2, g4, g5, g6, g7, by rw [g8]; omega, ?_, ?_, ?_, ?_,
      ?_⟩, g12⟩
    · intro b hb
      simp only [List.nil_append, List.map_cons, List.map_nil, List.mem_singleton] at hb
      rw [hb, g8]
      exact ⟨by omega, Ne.symm hcne⟩
    · have hb : (m1.chains m.brk).overflow = some c := by
        rw [g9 m.brk (Ne.symm hcne), k2]
      simp [overflowPath, hb, g2]
    · rw [g3]
      simp
    · intro b1 hb1
      simp only [List.nil_append, List.map_cons, List.map_nil, List.head?_cons,
        Option.mem_def, Option.some.injEq] at hb1
      subst hb1
      rw [g9 m.brk (Ne.symm hcne), k2]
      simp
    · intro bl hbl
      simp only [List.nil_append, List.mem_singleton] at hbl
      subst hbl
      exact ⟨hcurne, g11⟩
  | cons bl0 rest =>
    have hB1 : closed.map Prod.fst ≠ [] := by rw [hcl]; simp
    have hhead : (closed.map Prod.fst).head? = some bl0.1 := by rw [hcl]; rfl
    have hb1mem : bl0.1 ∈ closed.map Prod.fst := by rw [hcl]; simp
    have hlastq : (closed.map Prod.fst).getLast? =
        some ((closed.map Prod.fst).getLast hB1) := List.getLast?_eq_getLast _ hB1
    have hbkmem : (closed.map Prod.fst).getLast hB1 ∈ closed.map Prod.fst :=
      List.getLast_mem hB1
    rw [← hcl]
    rw [hhead] at hot hpath
    simp only [Option.getD_some] at hot hpath
    have hfirst1 := hfirst bl0.1 hhead
    rw [hlastq] at hfirst1
    simp only [Option.getD_some] at hfirst1
    obtain ⟨k1, k2, k3, -, -⟩ := HandleOverflow_tail_later
      { m with trace := m.trace ++ [Event.handleOverflow c s (some t)] } c s t bl0.1
      ((closed.map Prod.fst).getLast hB1) hcne hot (hblocks _ hb1mem).2
      (by have := (hblocks _ hb1mem).1; show bl0.1 ≠ m.brk; omega) hfirst1
    obtain ⟨m1, e1, g1, g2, g3, g4, g5, g6, g7, g8, g9, g10, g11, g12⟩ :=
      hcommon (some bl0.1) _ k1 k2 rfl
    have hmapfst : (closed ++ [(m.brk, cur)]).map Prod.fst =
        closed.map Prod.fst ++ [m.brk] := by simp
    have hfacts : ∀ a ∈ closed.map Prod.fst,
        (m1.chains a).surf = (m.chains a).surf ∧
        (m1.chains a).overflow =
          (if a = (closed.map Prod.fst).getLast hB1 then some m.brk
            else (m.chains a).overflow) ∧
        (m1.chains a).overflow_tail =
          (if a = bl0.1 then some m.brk else (m.chains a).overflow_tail) := by
      intro a ha
      have h1 := (hblocks a ha).2
      have h2 : a ≠ m.brk := by have := (hblocks a ha).1; omega
      rw [g9 a h1]
      exact k3 a h1 h2
    have hpnd := overflowPath_nodup m.chains _ _ _ hpath
    refine ⟨m1, e1, ⟨s, s, [], rfl, g1, g2, g4, g5, g6, g7, by rw [g8]; omega, ?_, ?_, ?_, ?_,
      ?_⟩, g12⟩
    · intro b hb
      rw [hmapfst] at hb
      rw [g8]
      rcases List.mem_append.mp hb with h1 | h1
      · exact ⟨by have := (hblocks b h1).1; omega, (hblocks b h1).2⟩
      · simp only [List.mem_singleton] at h1
        rw [h1]
        exact ⟨by omega, Ne.symm hcne⟩
    · rw [hmapfst]
      have hheadq : (closed.map Prod.fst ++ [m.brk]).head? = some bl0.1 := by
        rw [hcl]; rfl
      rw [hheadq]
      simp only [Option.getD_some]
      have hsplit : closed.map Prod.fst =
          (closed.map Prod.fst).dropLast ++ [(closed.map Prod.fst).getLast hB1] :=
        (List.dropLast_append_getLast hB1).symm
      have hins := overflowPath_insert m.chains m1.chains
        ((closed.map Prod.fst).getLast hB1) m.brk c
        (by rw [(hfacts _ hbkmem).2.1, if_pos rfl])
        (by rw [g9 m.brk (Ne.symm hcne), k2])
        g2 (closed.map Prod.fst).dropLast (closed.length + 1) (some bl0.1)
        (by rw [hpath, append_last_split _ hB1])
        (fun x hx => by
          have hxmem : x ∈ closed.map Prod.fst := List.mem_of_mem_dropLast hx
          rw [(hfacts x hxmem).2.1, if_neg]
          intro hxe
          have hnd2 : (closed.map Prod.fst).Nodup :=
            (List.nodup_append.mp hpnd).1
          rw [hsplit] at hnd2
          have := (List.nodup_append.mp hnd2).2.2 hx
            (by rw [hxe]; exact List.mem_singleton_self _)
          exact this)
      rw [show (closed ++ [(m.brk, cur)]).length + 1 = closed.length + 1 + 1 by simp, hins,
        append_last_split2 _ hB1]
    · rw [g3, hmapfst]
      rw [hcl]
      rfl
    · intro b1 hb1
      rw [hmapfst] at hb1 ⊢
      have hb1e : b1 = bl0.1 := by
        rw [hcl] at hb1
        simp only [List.map_cons, List.cons_append, List.head?_cons, Option.mem_def,
          Option.some.injEq] at hb1
        exact hb1.symm
      subst hb1e
      rw [(hfacts _ hb1mem).2.2, if_pos rfl]
      simp
    · intro bl hbl
      rcases List.mem_append.mp hbl with h1 | h1
      · exact hold m1 g10 (fun bl2 hbl2 =>
          (hfacts bl2.1 (List.mem_map.mpr ⟨bl2, hbl2, rfl⟩)).1) bl h1
      · simp only [List.mem_singleton] at h1
        subst h1
        exact ⟨hcurne, g11⟩
/-- Tail appends keep the tail-built shape and add the surfaces in submission
order, whether or not they overflow. -/
theorem addSurfsTail_TailBuilt (maxVerts : Int) (hB : maxVerts ≤ 1073741824) (c t : Nat) :
    ∀ (ss : List Nat) (m : Mem) (closed : List (Nat × List Nat)) (cur : List Nat),
      TailBuilt maxVerts m c t closed cur →
      (closed.flatMap Prod.snd ++ cur ++ ss).Nodup →
      (∀ s ∈ ss, (m.surfs s).poly.isSome = true ∧ 0 ≤ (m.surfs s).numedges ∧
        (m.surfs s).numedges < maxVerts) →
      ∃ m1 closed2 cur2, addSurfsTail maxVerts c t m ss = some m1 ∧
        TailBuilt maxVerts m1 c t closed2 cur2 ∧
        closed2.flatMap Prod.snd ++ cur2 = closed.flatMap Prod.snd ++ cur ++ ss := by
  intro ss
  induction ss with
  | nil =>
    intro m closed cur hinv _ _
    exact ⟨m, closed, cur, rfl, hinv, by simp⟩
  | cons s ss ih =>
    intro m closed cur hinv hnd hsurf
    obtain ⟨hp, he0, he1⟩ := hsurf s (List.mem_cons_self _ _)
    have hndA : (closed.flatMap Prod.snd ++ cur).Nodup := (List.nodup_append.mp hnd).1
    have hsA : s ∉ closed.flatMap Prod.snd ++ cur := fun hm =>
      (List.nodup_append.mp hnd).2.2 hm (List.mem_cons_self _ _)
    have hnd2 : (closed.flatMap Prod.snd ++ cur ++ [s] ++ ss).Nodup := by
      simpa using hnd
    by_cases hovf : overflows maxVerts m c s = true
    · obtain ⟨m2, e, hinv2, f1⟩ :=
        TailBuilt_spill maxVerts hB m c t s closed cur hinv hp he0 he1 hovf hsA
      obtain ⟨m1, closed2, cur2, g1, g2, g3⟩ := ih m2 (closed ++ [(m.brk, cur)]) [s] hinv2
        (by simpa using hnd2)
        (fun x hx => by
          rw [(f1 x).1, (f1 x).2]
          exact hsurf x (List.mem_cons_of_mem _ hx))
      refine ⟨m1, closed2, cur2, ?_, g2, ?_⟩
      · simp only [addSurfsTail, e]
        exact g1
      · rw [g3]
        simp
    · have hno : overflows maxVerts m c s = false := by simpa using hovf
      obtain ⟨m2, e, hinv2, f1⟩ :=
        TailBuilt_link maxVerts hB m c t s closed cur hinv hp he0 (by omega) hno hndA hsA
      obtain ⟨m1, closed2, cur2, g1, g2, g3⟩ := ih m2 closed (cur ++ [s]) hinv2
        (by simpa using hnd2)
        (fun x hx => by
          rw [(f1 x).1, (f1 x).2]
          exact hsurf x (List.mem_cons_of_mem _ hx))
      refine ⟨m1, closed2, cur2, ?_, g2, ?_⟩
      · simp only [addSurfsTail, e]
        exact g1
      · rw [g3]
        simp

theorem segmentSurfaces_append (m : Mem) (fuel : Nat) (segs2 : List Nat) (r : List Nat)
    (hr : segmentSurfaces m fuel segs2 = some r) :
    ∀ (closed : List (Nat × List Nat)),
      (∀ bl ∈ closed, surfWalk m.surfs fuel (m.chains bl.1).surf = some bl.2) →
      segmentSurfaces m fuel (closed.map Prod.fst ++ segs2) =
        some (closed.flatMap Prod.snd ++ r) := by
  intro closed
  induction closed with
  | nil =>
    intro _
    simpa using hr
  | cons bl closed ih =>
    intro h
    have h1 := h bl (List.mem_cons_self _ _)
    have h2 := ih (fun b hb => h b (List.mem_cons_of_mem _ hb))
    show (match surfWalk m.surfs fuel (m.chains bl.1).surf,
        segmentSurfaces m fuel (closed.map Prod.fst ++ segs2) with
      | some l, some r => some (l ++ r)
      | _, _ => none) = _
    rw [h1, h2]
    simp

theorem length_le_flatMap (closed : List (Nat × List Nat))
    (h : ∀ bl ∈ closed, bl.2 ≠ []) : closed.length ≤ (closed.flatMap Prod.snd).length := by
  induction closed with
  | nil => simp
  | cons bl closed ih =>
    have h1 : 0 < bl.2.length := List.length_pos.mpr (h bl (List.mem_cons_self _ _))
    have h2 := ih (fun b hb => h b (List.mem_cons_of_mem _ hb))
    simp only [List.length_cons, List.flatMap_cons, List.length_append]
    omega

theorem length_le_flatMap_of_mem (closed : List (Nat × List Nat)) (bl : Nat × List Nat)
    (h : bl ∈ closed) : bl.2.length ≤ (closed.flatMap Prod.snd).length := by
  induction closed with
  | nil => simp at h
  | cons b closed ih =>
    simp only [List.flatMap_cons, List.length_append]
    rcases List.mem_cons.mp h with e | hm
    · subst e
      omega
    · have := ih hm
      omega

/-- Walking a tail-built chain segment by segment yields the surfaces of the
blocks in submission order, then those of the header. -/
theorem TailBuilt_chainSurfaces (maxVerts : Int) (m : Mem) (c t : Nat)
    (closed : List (Nat × List Nat)) (cur : List Nat)
    (hinv : TailBuilt maxVerts m c t closed cur) (fuel : Nat)
    (hfuel : (closed.flatMap Prod.snd ++ cur).length ≤ fuel) :
    chainSurfaces m fuel c = some (closed.flatMap Prod.snd ++ cur) := by
  obtain ⟨h, last, pre, hcur, hsurf, hov, hn0, hn1, hwalk, htail, hcb, hblocks, hpath, hot,
    hfirst, hclosed⟩ := hinv
  have hcurlen : 0 < cur.length := by rw [hcur]; simp
  rw [List.length_append] at hfuel
  have hlen := length_le_flatMap closed (fun bl hbl => (hclosed bl hbl).1)
  have hstart : forEachStart m c = (closed.map Prod.fst).head?.getD c := by
    unfold forEachStart
    rw [hot]
  have hp2 := overflowPath_of_le m.chains _ fuel _ _ hpath (by simp; omega)
  have hcw : segmentSurfaces m fuel [c] = some cur := by
    have := surfWalk_of_le m.surfs _ fuel _ _ hwalk (by omega)
    simp [segmentSurfaces, hsurf, this]
  have hall := segmentSurfaces_append m fuel [c] cur hcw closed (fun bl hbl =>
    surfWalk_of_le m.surfs _ fuel _ _ (hclosed bl hbl).2
      (by have := length_le_flatMap_of_mem closed bl hbl; omega))
  unfold chainSurfaces
  rw [hstart, hp2]
  exact hall

/-- C11, as stated, fails: a chain reset with `MaterialChains_Init_Reverse`, the
caller's tail on surface 9, and `MaterialChain_AddSurf_Tail` on the surfaces 1,
2, 3 of 40000 edges each, so that every call after the first crosses the
budget.  The first segment's head is `NULL` when the handler closes it (tail
appends never write the head), so the walk over the segments yields `[2, 3]`:
surface 1 is reachable from surface 9 only. -/
theorem AddSurf_Tail_first_segment_lost :
    (addSurfsTail MATERIALCHAIN_MAX_VERTS 0 0 (MaterialChains_Init_Reverse sampleBigMem 0 1)
      [1, 2, 3]).map (fun m1 =>
        (overflowPath m1.chains 10 (some (forEachStart m1 0)), chainSurfaces m1 10 0)) =
      some (some [100, 101, 0], some [2, 3]) := by
  decide

/-- C11, amended: on a chain freshly reset with `MaterialChains_Init_Reverse`,
let `S1` be linked as the head with `MaterialChain_AddSurf` and the caller's
tail be set to `S1`.  For distinct surfaces `S1..SN` with geometry whose edge
counts are non-negative and below the budget, `MaterialChain_AddSurf_Tail` on
`S2, ..., SN` succeeds, however often the counts cross the budget, and walking
the chain in the order of `ForEach_MaterialChain` and, inside each visited
segment, its surfaces from the segment's head yields exactly `S1, ..., SN`.
The chain array lies below the zone's free space. -/
theorem AddSurf_Tail_order_across_segments (m : Mem) (materialchains count i tail s1 : Nat)
    (ss : List Nat) (hi : i < count) (hbrk : materialchains + count ≤ m.brk)
    (hnd : (s1 :: ss).Nodup)
    (hsurf : ∀ s ∈ s1 :: ss, (m.surfs s).poly.isSome = true ∧ 0 ≤ (m.surfs s).numedges ∧
      (m.surfs s).numedges < MATERIALCHAIN_MAX_VERTS) :
    ∃ m1, addSurfsTail MATERIALCHAIN_MAX_VERTS (materialchains + i) tail
        (setTail (MaterialChain_AddSurf MATERIALCHAIN_MAX_VERTS
          (MaterialChains_Init_Reverse m materialchains count) (materialchains + i) s1)
          tail s1) ss = some m1 ∧
      ∀ fuel, (s1 :: ss).length ≤ fuel →
        chainSurfaces m1 fuel (materialchains + i) = some (s1 :: ss) := by
  have hc := Init_Reverse_chain m materialchains count i hi
  obtain ⟨hp1, he0, he1⟩ := hsurf s1 (List.mem_cons_self _ _)
  have hMAX : MATERIALCHAIN_MAX_VERTS = 65536 := rfl
  have hw := wrap32_of_range (x := 0 + (m.surfs s1).numedges) (by omega) (by omega)
  have hno : overflows MATERIALCHAIN_MAX_VERTS
      (MaterialChains_Init_Reverse m materialchains count) (materialchains + i) s1 = false := by
    have he : ((MaterialChains_Init_Reverse m materialchains count).surfs s1).numedges =
        (m.surfs s1).numedges := rfl
    simp only [overflows, hc, he, hw, decide_eq_false_iff_not, not_le]
    omega
  obtain ⟨f1, f2, f3, f4, f5, f6, f7, -, -⟩ := AddSurf_link_facts MATERIALCHAIN_MAX_VERTS
    (MaterialChains_Init_Reverse m materialchains count) (materialchains + i) s1 hp1 hno
  have hsurfs0 : (MaterialChains_Init_Reverse m materialchains count).surfs = m.surfs := rfl
  have he00 : ((MaterialChains_Init_Reverse m materialchains count).surfs s1).numedges =
      (m.surfs s1).numedges := rfl
  rw [hc, he00, hw] at f4
  have hinv : TailBuilt MATERIALCHAIN_MAX_VERTS
      (setTail (MaterialChain_AddSurf MATERIALCHAIN_MAX_VERTS
        (MaterialChains_Init_Reverse m materialchains count) (materialchains + i) s1) tail s1)
      (materialchains + i) tail [] [s1] := by
    refine ⟨s1, s1, [], rfl, ?_, ?_, ?_, ?_, ?_, ?_, ?_, ?_, ?_, ?_, ?_, ?_⟩
    · show ((MaterialChain_AddSurf _ _ _ _).chains _).surf = _
      rw [f4]
    · show ((MaterialChain_AddSurf _ _ _ _).chains _).overflow = _
      rw [f4]
    · show 0 ≤ ((MaterialChain_AddSurf _ _ _ _).chains _).numverts
      rw [f4]; simp only []; omega
    · show ((MaterialChain_AddSurf _ _ _ _).chains _).numverts < _
      rw [f4]; simp only []; omega
    · show surfWalk (MaterialChain_AddSurf _ _ _ _).surfs 1 (some s1) = some [s1]
      simp only [surfWalk, f2, hc, Option.map_some']
    · simp [setTail]
    · show materialchains + i < (MaterialChain_AddSurf _ _ _ _).brk
      rw [f7]
      show materialchains + i < m.brk
      omega
    · intro b hb
      simp at hb
    · show overflowPath (MaterialChain_AddSurf _ _ _ _).chains 1 (some (materialchains + i)) =
        some [materialchains + i]
      simp [overflowPath, f4]
    · show ((MaterialChain_AddSurf _ _ _ _).chains _).overflow_tail = _
      rw [f4]
      rfl
    · intro b1 hb1
      simp at hb1
    · intro bl hbl
      simp at hbl
  obtain ⟨m1, closed2, cur2, g1, g2, g3⟩ := addSurfsTail_TailBuilt MATERIALCHAIN_MAX_VERTS
    (by decide) (materialchains + i) tail ss _ [] [s1] hinv (by simpa using hnd)
    (fun x hx => by
      show ((MaterialChain_AddSurf _ _ _ _).surfs x).poly.isSome = true ∧
        0 ≤ ((MaterialChain_AddSurf _ _ _ _).surfs x).numedges ∧
        ((MaterialChain_AddSurf _ _ _ _).surfs x).numedges < _
      rw [(f1 x).1, (f1 x).2]
      exact hsurf x (List.mem_cons_of_mem _ hx))
  refine ⟨m1, g1, ?_⟩
  intro fuel hfuel
  have := TailBuilt_chainSurfaces MATERIALCHAIN_MAX_VERTS m1 (materialchains + i) tail
    closed2 cur2 g2 fuel (by rw [g3]; simpa using hfuel)
  rw [this, g3]
  simp

theorem AddSurf_Tail_order_across_segments_witness :
    ∃ m1, addSurfsTail MATERIALCHAIN_MAX_VERTS (0 + 0) 0
        (setTail (MaterialChain_AddSurf MATERIALCHAIN_MAX_VERTS
          (MaterialChains_Init_Reverse sampleBigMem 0 1) (0 + 0) 1) 0 1) [2, 3] = some m1 ∧
      chainSurfaces m1 3 (0 + 0) = some [1, 2, 3] :=
  let ⟨m1, h1, h2⟩ := AddSurf_Tail_order_across_segments sampleBigMem 0 1 0 0 1 [2, 3]
    (by decide) (by decide) (by decide) (by decide)
  ⟨m1, h1, h2 3 (by decide)⟩

/-! ## C14: animation frames -/

theorem arrayAt_inside (a : List Int) (i : Int) (h0 : 0 ≤ i) (h1 : i < a.length) :
    arrayAt a i = a[i.toNat]? ∧ (arrayAt a i).isSome = true := by
  have hlt : i.toNat < a.length := by omega
  simp [arrayAt, h0, hlt]

/-- An array filled by the build has 10 entries. -/
theorem fillArray_length (ids : List Int) : (fillArray ids).length = 10 := by
  simp [fillArray]

/-- The entries of a filled array in front of `ids.length` are those of `ids`. -/
theorem fillArray_getElem? (ids : List Int) (i : Nat) (h1 : i < ids.length) (h2 : i < 10) :
    (fillArray ids)[i]? = ids[i]? := by
  unfold fillArray
  rw [List.getElem?_take_of_lt h2, List.getElem?_append_left h1]

/-- The lookup on an entry whose arrays have 10 entries and whose count is
between 1 and 10: the index lies inside the array and the entry there is the
result. -/
theorem resolveAnimation_inside (a : material_animation_t) (f : Int) (hf : 0 ≤ f)
    (hframes : a.frames.length = 10) (halt : a.alt.length = 10) :
    (0 < a.numframes → a.numframes ≤ 10 →
      0 ≤ f % a.numframes ∧ f % a.numframes < a.numframes ∧
      resolveAnimation a f false = a.frames[(f % a.numframes).toNat]? ∧
      (resolveAnimation a f false).isSome = true) ∧
    (0 < a.numalt → a.numalt ≤ 10 →
      0 ≤ f % a.numalt ∧ f % a.numalt < a.numalt ∧
      resolveAnimation a f true = a.alt[(f % a.numalt).toNat]? ∧
      (resolveAnimation a f true).isSome = true) := by
  refine ⟨?_, ?_⟩
  · intro hpos hcap
    have h0 : 0 ≤ f % a.numframes := Int.emod_nonneg _ (by omega)
    have h1 : f % a.numframes < a.numframes := Int.emod_lt_of_pos _ hpos
    have ht : Int.tmod f a.numframes = f % a.numframes := Int.tmod_eq_emod hf (by omega)
    have := arrayAt_inside a.frames (f % a.numframes) h0 (by rw [hframes]; omega)
    refine ⟨h0, h1, ?_, ?_⟩
    · simp only [resolveAnimation, ht, Bool.false_eq_true, if_false]
      exact this.1
    · simp only [resolveAnimation, ht, Bool.false_eq_true, if_false]
      exact this.2
  · intro hpos hcap
    have h0 : 0 ≤ f % a.numalt := Int.emod_nonneg _ (by omega)
    have h1 : f % a.numalt < a.numalt := Int.emod_lt_of_pos _ hpos
    have ht : Int.tmod f a.numalt = f % a.numalt := Int.tmod_eq_emod hf (by omega)
    have := arrayAt_inside a.alt (f % a.numalt) h0 (by rw [halt]; omega)
    refine ⟨h0, h1, ?_, ?_⟩
    · simp only [resolveAnimation, ht, if_true]
      exact this.1
    · simp only [resolveAnimation, ht, if_true]
      exact this.2

/-- What the build leaves in an entry: the counts are the lengths of the lists
it was given, neither above 10, and both arrays have 10 entries, the given ids
in front. -/
theorem buildAnimation_some (material : Int) (frameIds altIds : List Int)
    (a : material_animation_t) (h : buildAnimation material frameIds altIds = some a) :
    a.numframes = frameIds.length ∧ a.numalt = altIds.length ∧
    frameIds.length ≤ 10 ∧ altIds.length ≤ 10 ∧
    a.frames = fillArray frameIds ∧ a.alt = fillArray altIds := by
  unfold buildAnimation at h
  by_cases hc : 10 < frameIds.length ∨ 10 < altIds.length
  · rw [if_pos hc] at h
    exact Option.noConfusion h
  · rw [if_neg hc] at h
    have ha := Option.some.inj h
    rw [← ha]
    exact ⟨rfl, rfl, by omega, by omega, rfl, rfl⟩

/-- C14: the build produces an animation entry exactly when the animation has
at most 10 frames and 10 alternates, and for every entry it produces and every
non-negative frame index `f`, the lookup without the alternate flag
(`numframes > 0`) yields `frames[f mod numframes]` and with the flag
(`numalt > 0`) `alt[f mod numalt]`, the index lying inside the 10-entry array
and the result being the id the build was given at that place of the cycle;
for frames `[10, 11, 12]` and `f = 7` the result is 11. -/
theorem buildAnimation_resolves (material : Int) (frameIds altIds : List Int)
    (a : material_animation_t) (f : Int)
    (hbuild : buildAnimation material frameIds altIds = some a) (hf : 0 ≤ f) :
    ((buildAnimation material frameIds altIds).isSome = true ↔
      frameIds.length ≤ 10 ∧ altIds.length ≤ 10) ∧
    a.frames.length = 10 ∧ a.alt.length = 10 ∧
    (0 < a.numframes →
      0 ≤ f % a.numframes ∧ f % a.numframes < 10 ∧
      resolveAnimation a f false = a.frames[(f % a.numframes).toNat]? ∧
      resolveAnimation a f false = frameIds[(f % a.numframes).toNat]? ∧
      (resolveAnimation a f false).isSome = true) ∧
    (0 < a.numalt →
      0 ≤ f % a.numalt ∧ f % a.numalt < 10 ∧
      resolveAnimation a f true = a.alt[(f % a.numalt).toNat]? ∧
      resolveAnimation a f true = altIds[(f % a.numalt).toNat]? ∧
      (resolveAnimation a f true).isSome = true) ∧
    (buildAnimation 10 [10, 11, 12] []).bind (fun e => resolveAnimation e 7 false) =
      some 11 := by
  obtain ⟨k1, k2, k3, k4, k5, k6⟩ := buildAnimation_some material frameIds altIds a hbuild
  have hfl : a.frames.length = 10 := by rw [k5]; exact fillArray_length _
  have hal : a.alt.length = 10 := by rw [k6]; exact fillArray_length _
  obtain ⟨g1, g2⟩ := resolveAnimation_inside a f hf hfl hal
  refine ⟨?_, hfl, hal, ?_, ?_, by decide⟩
  · unfold buildAnimation
    by_cases hc : 10 < frameIds.length ∨ 10 < altIds.length
    · rw [if_pos hc]
      simp only [Option.isSome_none, Bool.false_eq_true, false_iff]
      omega
    · rw [if_neg hc]
      simp only [Option.isSome_some, true_iff]
      omega
  · intro hpos
    obtain ⟨h0, h1, h2, h3⟩ := g1 hpos (by omega)
    refine ⟨h0, by omega, h2, ?_, h3⟩
    rw [h2, k5]
    exact fillArray_getElem? frameIds _ (by omega) (by omega)
  · intro hpos
    obtain ⟨h0, h1, h2, h3⟩ := g2 hpos (by omega)
    refine ⟨h0, by omega, h2, ?_, h3⟩
    rw [h2, k6]
    exact fillArray_getElem? altIds _ (by omega) (by omega)

theorem buildAnimation_resolves_witness :
    buildAnimation 10 [10, 11, 12] [] = some sampleAnimation ∧ (0 : Int) ≤ 7 ∧
    (0 < sampleAnimation.numframes →
      0 ≤ (7 : Int) % sampleAnimation.numframes ∧ (7 : Int) % sampleAnimation.numframes < 10 ∧
      resolveAnimation sampleAnimation 7 false =
        sampleAnimation.frames[((7 : Int) % sampleAnimation.numframes).toNat]? ∧
      resolveAnimation sampleAnimation 7 false =
        [10, 11, 12][((7 : Int) % sampleAnimation.numframes).toNat]? ∧
      (resolveAnimation sampleAnimation 7 false).isSome = true) :=
  ⟨by decide, by decide,
    (buildAnimation_resolves 10 [10, 11, 12] [] sampleAnimation 7 (by decide)
      (by decide)).2.2.2.1⟩

/-- An entry the build cannot produce: with 11 frames the lookup at frame 10
asks for entry 10 of the 10-entry array, and the build refuses the animation. -/
theorem buildAnimation_refuses_eleven :
    resolveAnimation
      { material := 0, numframes := 11, numalt := 0,
        frames := [0, 1, 2, 3, 4, 5, 6, 7, 8, 9], alt := [0, 0, 0, 0, 0, 0, 0, 0, 0, 0] }
      10 false = none ∧
    buildAnimation 0 [0, 1, 2, 3, 4, 5, 6, 7, 8, 9, 10] [] = none := by
  decide

/-! ## C13: the material index -/

theorem mem_drop_iff_getElem? (l : List surface_material_t) (start : Nat)
    (p : surface_material_t) :
    p ∈ l.drop start ↔ ∃ id, start ≤ id ∧ l[id]? = some p := by
  rw [List.mem_iff_getElem?]
  constructor
  · rintro ⟨n, hn⟩
    rw [List.getElem?_drop] at hn
    exact ⟨start + n, by omega, hn⟩
  · rintro ⟨id, hle, hid⟩
    refine ⟨id - start, ?_⟩
    rw [List.getElem?_drop]
    rw [show start + (id - start) = id by omega]
    exact hid

/-- One class pass only appends materials, each the pairing of one of the
visited surfaces, and afterwards every visited pairing is among the materials
of the class. -/
theorem addClass_spec (start : Nat) :
    ∀ (ps : List surface_material_t) (materials : List surface_material_t),
      start ≤ materials.length →
      ∃ ext, addClass start materials ps = materials ++ ext ∧
        (∀ p ∈ ext, p ∈ ps) ∧
        (∀ p ∈ ps, p ∈ (addClass start materials ps).drop start) := by
  intro ps
  induction ps with
  | nil =>
    intro materials _
    exact ⟨[], by simp [addClass], by simp, by simp⟩
  | cons q ps ih =>
    intro materials hstart
    have hstep : addClass start materials (q :: ps) =
        addClass start (addMaterial start materials q) ps := rfl
    rw [hstep]
    by_cases hq : q ∈ materials.drop start
    · have e : addMaterial start materials q = materials := by simp [addMaterial, hq]
      rw [e]
      obtain ⟨ext, h1, h2, h3⟩ := ih materials hstart
      refine ⟨ext, h1, fun p hp => List.mem_cons_of_mem _ (h2 p hp), ?_⟩
      intro p hp
      rcases List.mem_cons.mp hp with h | h
      · subst h
        rw [h1, List.drop_append_of_le_length hstart]
        exact List.mem_append_left _ hq
      · exact h3 p h
    · have e : addMaterial start materials q = materials ++ [q] := by simp [addMaterial, hq]
      rw [e]
      obtain ⟨ext, h1, h2, h3⟩ := ih (materials ++ [q]) (by simp; omega)
      refine ⟨q :: ext, by rw [h1]; simp, ?_, ?_⟩
      · intro p hp
        rcases List.mem_cons.mp hp with h | h
        · exact h ▸ List.mem_cons_self _ _
        · exact List.mem_cons_of_mem _ (h2 p h)
      · intro p hp
        rcases List.mem_cons.mp hp with h | h
        · subst h
          rw [h1, List.append_assoc, List.drop_append_of_le_length hstart]
          simp
        · exact h3 p h

/-- The class loop: the index has one entry per class and a final one, starts
at the current material count, never decreases, and ends at the final material
count; materials already present keep their ids; and the materials of each
class are exactly those between the class's entry and the next. -/
theorem buildClasses_spec (surfs : List ClassifiedSurface) :
    ∀ (classes : List Nat) (materials : List surface_material_t),
      (buildClasses surfs classes materials).1.length = classes.length + 1 ∧
      (buildClasses surfs classes materials).1.head? = some materials.length ∧
      (∀ e ∈ (buildClasses surfs classes materials).1, materials.length ≤ e) ∧
      (buildClasses surfs classes materials).1.Pairwise (fun a b => a ≤ b) ∧
      (buildClasses surfs classes materials).1.getLast? =
        some (buildClasses surfs classes materials).2.length ∧
      (∃ ext, (buildClasses surfs classes materials).2 = materials ++ ext) ∧
      (∀ j cls lo hi, classes[j]? = some cls →
        (buildClasses surfs classes materials).1[j]? = some lo →
        (buildClasses surfs classes materials).1[j + 1]? = some hi →
        (∀ s ∈ surfs, s.cls = cls → ∃ id, lo ≤ id ∧ id < hi ∧
          (buildClasses surfs classes materials).2[id]? = some s.material) ∧
        (∀ id, lo ≤ id → id < hi → ∃ s ∈ surfs, s.cls = cls ∧
          (buildClasses surfs classes materials).2[id]? = some s.material)) := by
  intro classes
  induction classes with
  | nil =>
    intro materials
    refine ⟨rfl, rfl, ?_, ?_, rfl, ⟨[], by simp [buildClasses]⟩, ?_⟩
    · intro e he
      simp only [buildClasses, List.mem_singleton] at he
      omega
    · simp [buildClasses]
    · intro j cls lo hi hj
      simp at hj
  | cons c classes ih =>
    intro materials
    obtain ⟨ext1, a1, a2, a3⟩ :=
      addClass_spec materials.length (classPairings surfs c) materials (le_refl _)
    obtain ⟨i1, i2, i3, i4, i5, ⟨ext2, i6⟩, i7⟩ :=
      ih (addClass materials.length materials (classPairings surfs c))
    have hlen1 : materials.length ≤
        (addClass materials.length materials (classPairings surfs c)).length := by
      rw [a1]; simp
    have hunf : buildClasses surfs (c :: classes) materials =
        (materials.length ::
          (buildClasses surfs classes
            (addClass materials.length materials (classPairings surfs c))).1,
         (buildClasses surfs classes
            (addClass materials.length materials (classPairings surfs c))).2) := rfl
    rw [hunf]
    refine ⟨by simp [i1], rfl, ?_, ?_, ?_, ⟨ext1 ++ ext2, by simp only []; rw [i6, a1]; simp⟩,
      ?_⟩
    · intro e he
      rcases List.mem_cons.mp he with h | h
      · omega
      · have := i3 e h
        omega
    · refine List.pairwise_cons.mpr ⟨?_, i4⟩
      intro e he
      have := i3 e he
      omega
    · simp only []
      rw [← i5]
      cases hL : (buildClasses surfs classes
          (addClass materials.length materials (classPairings surfs c))).1 with
      | nil =>
        rw [hL] at i1
        simp at i1
      | cons b l => exact List.getLast?_cons_cons
    · intro j cls lo hi hj hlo hhi
      cases j with
      | zero =>
        simp only [List.getElem?_cons_zero, Option.some.injEq] at hj hlo
        subst hj
        subst hlo
        simp only [zero_add, List.getElem?_cons_succ] at hhi
        have hhi2 : hi = (addClass materials.length materials (classPairings surfs c)).length := by
          have h0 : (buildClasses surfs classes
              (addClass materials.length materials (classPairings surfs c))).1[0]? =
              (buildClasses surfs classes
                (addClass materials.length materials (classPairings surfs c))).1.head? := by
            cases (buildClasses surfs classes
              (addClass materials.length materials (classPairings surfs c))).1 <;> simp
          rw [h0, i2] at hhi
          exact (Option.some.inj hhi).symm
        simp only []
        constructor
        · intro s hs hcls
          have hp : s.material ∈ classPairings surfs c := by
            unfold classPairings
            exact List.mem_map.mpr ⟨s, List.mem_filter.mpr ⟨hs, by simpa using hcls⟩, rfl⟩
          obtain ⟨id, hid1, hid2⟩ := (mem_drop_iff_getElem? _ _ _).mp (a3 _ hp)
          have hidlt : id < (addClass materials.length materials
              (classPairings surfs c)).length := by
            by_contra hge
            rw [List.getElem?_eq_none (by omega)] at hid2
            cases hid2
          refine ⟨id, hid1, by omega, ?_⟩
          rw [i6, List.getElem?_append_left hidlt]
          exact hid2
        · intro id hlo2 hhi3
          have hidlt : id < (addClass materials.length materials
              (classPairings surfs c)).length := by omega
          have hget : (buildClasses surfs classes
              (addClass materials.length materials (classPairings surfs c))).2[id]? =
              (addClass materials.length materials (classPairings surfs c))[id]? := by
            rw [i6, List.getElem?_append_left hidlt]
          rw [hget, a1, List.getElem?_append_right hlo2]
          have hidx : id - materials.length < ext1.length := by
            rw [a1, List.length_append] at hidlt
            omega
          have hmem : ext1[id - materials.length] ∈ classPairings surfs c :=
            a2 _ (List.getElem_mem _)
          unfold classPairings at hmem
          obtain ⟨s, hs, hsm⟩ := List.mem_map.mp hmem
          obtain ⟨hs1, hs2⟩ := List.mem_filter.mp hs
          refine ⟨s, hs1, by simpa using hs2, ?_⟩
          rw [List.getElem?_eq_getElem hidx, hsm]
      | succ j =>
        simp only [List.getElem?_cons_succ] at hj hlo hhi
        exact i7 j cls lo hi hj hlo hhi

/-- C13: for every brush model the build produces, `material_index` has one
entry per material class in the order sky, base, fullbright, fence,
fence-fullbright, liquid and a final entry at `MATERIAL_END`; it is
non-decreasing; the materials of class `i` are exactly those with an id in
`[material_index[i], material_index[i + 1])`; and the final entry equals
`nummaterials`, the number of materials. -/
theorem material_index_partitions (surfs : List ClassifiedSurface) :
    (GL_BuildMaterials surfs).material_index.length = MATERIAL_END + 1 ∧
    (GL_BuildMaterials surfs).material_index.Pairwise (fun a b => a ≤ b) ∧
    (GL_BuildMaterials surfs).material_index[MATERIAL_END]? =
      some (GL_BuildMaterials surfs).nummaterials ∧
    (GL_BuildMaterials surfs).nummaterials = (GL_BuildMaterials surfs).materials.length ∧
    (∀ cls lo hi, cls < MATERIAL_END →
      (GL_BuildMaterials surfs).material_index[cls]? = some lo →
      (GL_BuildMaterials surfs).material_index[cls + 1]? = some hi →
      lo ≤ hi ∧
      (∀ s ∈ surfs, s.cls = cls → ∃ id, lo ≤ id ∧ id < hi ∧
        (GL_BuildMaterials surfs).materials[id]? = some s.material) ∧
      (∀ id, lo ≤ id → id < hi → ∃ s ∈ surfs, s.cls = cls ∧
        (GL_BuildMaterials surfs).materials[id]? = some s.material)) := by
  obtain ⟨h1, -, -, h4, h5, -, h7⟩ := buildClasses_spec surfs (List.range MATERIAL_END) []
  have hlen : (buildClasses surfs (List.range MATERIAL_END) []).1.length = MATERIAL_END + 1 := by
    rw [h1, List.length_range]
  refine ⟨hlen, h4, ?_, rfl, ?_⟩
  · show (buildClasses surfs (List.range MATERIAL_END) []).1[MATERIAL_END]? =
      some (buildClasses surfs (List.range MATERIAL_END) []).2.length
    rw [← h5, List.getLast?_eq_getElem?, hlen]
    rfl
  · intro cls lo hi hcls hlo hhi
    have hj : (List.range MATERIAL_END)[cls]? = some cls := by
      rw [List.getElem?_range hcls]
    obtain ⟨g1, g2⟩ := h7 cls cls lo hi hj hlo hhi
    refine ⟨?_, g1, g2⟩
    have hlo2 : cls < (buildClasses surfs (List.range MATERIAL_END) []).1.length := by
      rw [hlen]; omega
    have hhi2 : cls + 1 < (buildClasses surfs (List.range MATERIAL_END) []).1.length := by
      rw [hlen]; omega
    have hlo3 : (buildClasses surfs (List.range MATERIAL_END) []).1[cls]? = some lo := hlo
    have hhi3 : (buildClasses surfs (List.range MATERIAL_END) []).1[cls + 1]? = some hi := hhi
    rw [List.getElem?_eq_getElem hlo2] at hlo3
    rw [List.getElem?_eq_getElem hhi2] at hhi3
    have := List.pairwise_iff_getElem.mp h4 cls (cls + 1) hlo2 hhi2 (by omega)
    rw [Option.some.inj hlo3, Option.some.inj hhi3] at this
    exact this

theorem material_index_partitions_witness :
    (1 : Nat) ≤ 3 ∧
      (∀ s ∈ sampleSurfaces, s.cls = 1 → ∃ id, 1 ≤ id ∧ id < 3 ∧
        (GL_BuildMaterials sampleSurfaces).materials[id]? = some s.material) ∧
      (∀ id, 1 ≤ id → id < 3 → ∃ s ∈ sampleSurfaces, s.cls = 1 ∧
        (GL_BuildMaterials sampleSurfaces).materials[id]? = some s.material) :=
  (material_index_partitions sampleSurfaces).2.2.2.2 1 1 3 (by decide) (by decide) (by decide)

/-! ## C15: lightmap allocation within one block -/

theorem runTop_ge (allocated : Nat → Nat) :
    ∀ (w x i : Nat), x ≤ i → i < x + w → allocated i ≤ runTop allocated x w := by
  intro w
  induction w with
  | zero =>
    intro x i h1 h2
    omega
  | succ w ih =>
    intro x i h1 h2
    simp only [runTop]
    by_cases hi : i = x
    · subst hi
      exact le_max_left _ _
    · exact le_trans (ih (x + 1) i (by omega) (by omega)) (le_max_right _ _)

theorem runTop_le (allocated : Nat → Nat) (v : Nat) :
    ∀ (w x : Nat), (∀ i, x ≤ i → i < x + w → allocated i ≤ v) →
      runTop allocated x w ≤ v := by
  intro w
  induction w with
  | zero =>
    intro x _
    simp [runTop]
  | succ w ih =>
    intro x h
    simp only [runTop]
    exact max_le (h x (le_refl _) (by omega))
      (ih (x + 1) (fun i h1 h2 => h i (by omega) (by omega)))

theorem bestRun_mem (allocated : Nat → Nat) (w : Nat) :
    ∀ (xs : List Nat) (b : Nat × Nat), bestRun allocated w xs = some b →
      b.1 ∈ xs ∧ b.2 = runTop allocated b.1 w := by
  intro xs
  induction xs with
  | nil =>
    intro b h
    simp [bestRun] at h
  | cons x xs ih =>
    intro b h
    simp only [bestRun] at h
    cases hr : bestRun allocated w xs with
    | none =>
      simp only [hr, Option.some.injEq] at h
      subst h
      exact ⟨List.mem_cons_self _ _, rfl⟩
    | some b2 =>
      simp only [hr] at h
      by_cases hle : runTop allocated x w ≤ b2.2
      · simp only [hle, if_true, Option.some.injEq] at h
        subst h
        exact ⟨List.mem_cons_self _ _, rfl⟩
      · simp only [hle, if_false, Option.some.injEq] at h
        subst h
        exact ⟨List.mem_cons_of_mem _ (ih b2 hr).1, (ih b2 hr).2⟩

/-- A successful allocation: the rectangle starts on a run inside the block, at
the run's height, and fits below the block's bottom edge. -/
theorem LM_AllocBlock_some (allocated : Nat → Nat) (w h : Nat) (r : glRect_t × (Nat → Nat))
    (hr : LM_AllocBlock allocated w h = some r) :
    r.1.w = w ∧ r.1.h = h ∧ r.1.l + w ≤ BLOCK_WIDTH ∧
    r.1.t = runTop allocated r.1.l w ∧ r.1.t + h ≤ BLOCK_HEIGHT ∧
    r.2 = fun i => if r.1.l ≤ i ∧ i < r.1.l + w then r.1.t + h else allocated i := by
  unfold LM_AllocBlock at hr
  cases hb : bestRun allocated w (List.range (BLOCK_WIDTH + 1 - w)) with
  | none => simp [hb] at hr
  | some b =>
    simp only [hb] at hr
    by_cases hfit : b.2 + h ≤ BLOCK_HEIGHT
    · simp only [hfit, if_true, Option.some.injEq] at hr
      subst hr
      obtain ⟨h1, h2⟩ := bestRun_mem allocated w _ b hb
      have h3 := List.mem_range.mp h1
      exact ⟨rfl, rfl, by simp only []; omega, h2, hfit, rfl⟩
    · simp [hfit] at hr

theorem sum_run_indicator (x w h : Nat) (hx : x + w ≤ BLOCK_WIDTH) :
    ∑ i in Finset.range BLOCK_WIDTH, (if x ≤ i ∧ i < x + w then h else 0) = w * h := by
  rw [Finset.sum_ite, Finset.sum_const_zero, add_zero, Finset.sum_const, smul_eq_mul]
  have hcard : (Finset.filter (fun i => x ≤ i ∧ i < x + w)
      (Finset.range BLOCK_WIDTH)).card = w := by
    have : Finset.filter (fun i => x ≤ i ∧ i < x + w) (Finset.range BLOCK_WIDTH) =
        Finset.Ico x (x + w) := by
      ext i
      simp only [Finset.mem_filter, Finset.mem_range, Finset.mem_Ico]
      omega
    rw [this, Nat.card_Ico]
    omega
  rw [hcard]

/-- One successful allocation keeps the block's invariant. -/
theorem LM_AllocBlock_inv (allocated : Nat → Nat) (placed : List glRect_t) (w h : Nat)
    (r : glRect_t × (Nat → Nat)) (hinv : AtlasInv allocated placed)
    (hr : LM_AllocBlock allocated w h = some r) : AtlasInv r.2 (placed ++ [r.1]) := by
  obtain ⟨i1, i2, i3, i4⟩ := hinv
  obtain ⟨hw, hh, hx, hy, hfit, ha⟩ := LM_AllocBlock_some allocated w h r hr
  have hge : ∀ i, r.1.l ≤ i → i < r.1.l + w → allocated i ≤ r.1.t := by
    intro i h1 h2
    rw [hy]
    exact runTop_ge allocated w r.1.l i h1 h2
  have hmono : ∀ i, allocated i ≤ r.2 i := by
    intro i
    rw [ha]
    simp only []
    split_ifs with hc
    · have := hge i hc.1 hc.2
      omega
    · exact le_refl _
  refine ⟨?_, ?_, ?_, ?_⟩
  · intro i
    rw [ha]
    simp only []
    split_ifs
    · exact hfit
    · exact i1 i
  · intro q hq
    rcases List.mem_append.mp hq with hq1 | hq1
    · obtain ⟨q1, q2, q3⟩ := i2 q hq1
      exact ⟨q1, q2, fun i h1 h2 => le_trans (q3 i h1 h2) (hmono i)⟩
    · simp only [List.mem_singleton] at hq1
      subst hq1
      refine ⟨by rw [hw]; exact hx, by rw [hh]; exact hfit, ?_⟩
      intro i h1 h2
      rw [ha]
      simp only []
      rw [hw] at h2
      rw [if_pos ⟨h1, h2⟩, hh]
  · rw [List.pairwise_append]
    refine ⟨i3, List.pairwise_singleton _ _, ?_⟩
    intro q hq q2 hq2
    simp only [List.mem_singleton] at hq2
    subst hq2
    rintro ⟨i, j, a1, a2, a3, a4, b1, b2, b3, b4⟩
    have := (i2 q hq).2.2 i a1 a2
    rw [hw] at b2
    have := hge i b1 b2
    omega
  · have harea : totalArea (placed ++ [r.1]) = totalArea placed + w * h := by
      simp [totalArea, hw, hh]
    have hsum : columnSum allocated + w * h ≤ columnSum r.2 := by
      unfold columnSum
      rw [← sum_run_indicator r.1.l w h hx, ← Finset.sum_add_distrib]
      apply Finset.sum_le_sum
      intro i _
      rw [ha]
      simp only []
      split_ifs with hc
      · have := hge i hc.1 hc.2
        omega
      · omega
    omega

theorem allocateAll_inv :
    ∀ (reqs : List (Nat × Nat)) (allocated : Nat → Nat) (placed : List glRect_t),
      AtlasInv allocated placed →
      AtlasInv (allocateAll allocated reqs).2 (placed ++ (allocateAll allocated reqs).1) := by
  intro reqs
  induction reqs with
  | nil =>
    intro allocated placed hinv
    simpa [allocateAll] using hinv
  | cons req reqs ih =>
    intro allocated placed hinv
    cases hr : LM_AllocBlock allocated req.1 req.2 with
    | none =>
      have e : allocateAll allocated (req :: reqs) = allocateAll allocated reqs := by
        simp only [allocateAll, hr]
      rw [e]
      exact ih allocated placed hinv
    | some r =>
      have e : allocateAll allocated (req :: reqs) =
          (r.1 :: (allocateAll r.2 reqs).1, (allocateAll r.2 reqs).2) := by
        simp only [allocateAll, hr]
      rw [e]
      have := ih r.2 (placed ++ [r.1]) (LM_AllocBlock_inv allocated placed _ _ r hinv hr)
      simpa using this

theorem allocateAll_append :
    ∀ (reqs more : List (Nat × Nat)) (allocated : Nat → Nat),
      (allocateAll allocated (reqs ++ more)).1 =
        (allocateAll allocated reqs).1 ++
          (allocateAll (allocateAll allocated reqs).2 more).1 := by
  intro reqs
  induction reqs with
  | nil =>
    intro more allocated
    simp [allocateAll]
  | cons req reqs ih =>
    intro more allocated
    cases hr : LM_AllocBlock allocated req.1 req.2 with
    | none =>
      simp only [List.cons_append, allocateAll, hr]
      exact ih more allocated
    | some r =>
      simp only [List.cons_append, allocateAll, hr]
      exact congrArg (List.cons r.1) (ih more r.2)

theorem columnSum_le (allocated : Nat → Nat) (h : ∀ i, allocated i ≤ BLOCK_HEIGHT) :
    columnSum allocated ≤ BLOCK_WIDTH * BLOCK_HEIGHT := by
  unfold columnSum
  calc ∑ i in Finset.range BLOCK_WIDTH, allocated i
      ≤ ∑ _i in Finset.range BLOCK_WIDTH, BLOCK_HEIGHT :=
        Finset.sum_le_sum (fun i _ => h i)
    _ = BLOCK_WIDTH * BLOCK_HEIGHT := by simp

theorem runTop_eq (allocated : Nat → Nat) (x w v i : Nat) (h1 : x ≤ i) (h2 : i < x + w)
    (hi : allocated i = v) (hle : ∀ j, x ≤ j → j < x + w → allocated j ≤ v) :
    runTop allocated x w = v :=
  le_antisymm (runTop_le allocated v w x hle) (hi ▸ runTop_ge allocated w x i h1 h2)

/-- The scan returns the leftmost of the lowest runs. -/
theorem bestRun_leftmost (allocated : Nat → Nat) (w x0 : Nat) (post : List Nat)
    (hpost : ∀ x ∈ post, runTop allocated x0 w ≤ runTop allocated x w) :
    ∀ (pre : List Nat), (∀ x ∈ pre, runTop allocated x0 w < runTop allocated x w) →
      bestRun allocated w (pre ++ x0 :: post) = some (x0, runTop allocated x0 w) := by
  intro pre
  induction pre with
  | nil =>
    intro _
    simp only [List.nil_append, bestRun]
    cases hr : bestRun allocated w post with
    | none => rfl
    | some b =>
      obtain ⟨b1, b2⟩ := bestRun_mem allocated w post b hr
      have := hpost b.1 b1
      simp only []
      rw [if_pos (by rw [b2]; exact this)]
  | cons p pre ih =>
    intro hpre
    have h1 := ih (fun x hx => hpre x (List.mem_cons_of_mem _ hx))
    have h2 := hpre p (List.mem_cons_self _ _)
    show (match bestRun allocated w (pre ++ x0 :: post) with
      | none => some (p, runTop allocated p w)
      | some b =>
        if runTop allocated p w ≤ b.2 then some (p, runTop allocated p w) else some b) = _
    rw [h1]
    show (if runTop allocated p w ≤ runTop allocated x0 w then _ else _) = _
    rw [if_neg (by omega)]

theorem range_split (x0 k : Nat) :
    List.range (x0 + (k + 1)) = List.range x0 ++ x0 :: (List.range k).map (fun j => x0 + (j + 1)) := by
  rw [List.range_add, List.range_succ_eq_map]
  simp [Function.comp_def]

theorem LM_AllocBlock_of_bestRun (allocated : Nat → Nat) (w h x y : Nat)
    (hb : bestRun allocated w (List.range (BLOCK_WIDTH + 1 - w)) = some (x, y))
    (hfit : y + h ≤ BLOCK_HEIGHT) :
    LM_AllocBlock allocated w h =
      some ({ l := x, t := y, w := w, h := h },
        fun i => if x ≤ i ∧ i < x + w then y + h else allocated i) := by
  unfold LM_AllocBlock
  rw [hb]
  simp only [hfit, if_true]

theorem allocateAll_cons_some (allocated : Nat → Nat) (w h : Nat) (reqs : List (Nat × Nat))
    (r : glRect_t × (Nat → Nat)) (hr : LM_AllocBlock allocated w h = some r) :
    (allocateAll allocated ((w, h) :: reqs)).1 = r.1 :: (allocateAll r.2 reqs).1 := by
  simp only [allocateAll, hr]

/-- The spec's example: on an empty block, requests of 64x32, 64x32 and 200x32
are placed at (0, 0), (64, 0) and (0, 32). -/
theorem allocateAll_example :
    (allocateAll (fun _ => 0) [(64, 32), (64, 32), (200, 32)]).1 =
      [{ l := 0, t := 0, w := 64, h := 32 }, { l := 64, t := 0, w := 64, h := 32 },
       { l := 0, t := 32, w := 200, h := 32 }] := by
  -- first request: every run of the empty block has height 0
  have t1 : ∀ x, runTop (fun _ => 0) x 64 = 0 := fun x =>
    Nat.le_zero.mp (runTop_le _ 0 64 x (fun _ _ _ => le_refl _))
  have b1 : bestRun (fun _ => 0) 64 (List.range (BLOCK_WIDTH + 1 - 64)) = some (0, 0) := by
    have hsplit : List.range (BLOCK_WIDTH + 1 - 64) =
        List.range 0 ++ 0 :: (List.range 192).map (fun j => 0 + (j + 1)) :=
      range_split 0 192
    rw [hsplit, bestRun_leftmost _ 64 0 _ (fun x _ => by rw [t1, t1]) (List.range 0)
      (fun x hx => by simp at hx), t1]
  have e1 := LM_AllocBlock_of_bestRun _ 64 32 0 0 b1 (by decide)
  -- second request: runs that start left of column 64 have height 32, the others 0
  have t2lo : ∀ x, x < 64 →
      runTop (fun i => if 0 ≤ i ∧ i < 0 + 64 then 0 + 32 else 0) x 64 = 32 := by
    intro x hx
    apply runTop_eq _ x 64 32 x (le_refl _) (by omega)
    · dsimp only
      rw [if_pos (by omega)]
    · intro j _ _
      dsimp only
      split_ifs <;> omega
  have t2hi : ∀ x, 64 ≤ x →
      runTop (fun i => if 0 ≤ i ∧ i < 0 + 64 then 0 + 32 else 0) x 64 = 0 := by
    intro x hx
    apply Nat.le_zero.mp
    apply runTop_le
    intro j h1 _
    dsimp only
    rw [if_neg (by omega)]
  have b2 : bestRun (fun i => if 0 ≤ i ∧ i < 0 + 64 then 0 + 32 else 0) 64
      (List.range (BLOCK_WIDTH + 1 - 64)) = some (64, 0) := by
    have hsplit : List.range (BLOCK_WIDTH + 1 - 64) =
        List.range 64 ++ 64 :: (List.range 128).map (fun j => 64 + (j + 1)) :=
      range_split 64 128
    rw [hsplit, bestRun_leftmost _ 64 64 _
      (fun x _ => by rw [t2hi 64 (le_refl _)]; exact Nat.zero_le _) (List.range 64)
      (fun x hx => by
        rw [t2hi 64 (le_refl _), t2lo x (List.mem_range.mp hx)]
        decide),
      t2hi 64 (le_refl _)]
  have e2 := LM_AllocBlock_of_bestRun _ 64 32 64 0 b2 (by decide)
  -- third request: every run of 200 columns crosses column 100, of height 32
  have t3 : ∀ x, x ≤ 56 →
      runTop (fun i => if 64 ≤ i ∧ i < 64 + 64 then 0 + 32
        else (if 0 ≤ i ∧ i < 0 + 64 then 0 + 32 else 0)) x 200 = 32 := by
    intro x hx
    apply runTop_eq _ x 200 32 100 (by omega) (by omega)
    · dsimp only
      rw [if_pos (by omega)]
    · intro j _ _
      dsimp only
      split_ifs <;> omega
  have b3 : bestRun (fun i => if 64 ≤ i ∧ i < 64 + 64 then 0 + 32
        else (if 0 ≤ i ∧ i < 0 + 64 then 0 + 32 else 0)) 200
      (List.range (BLOCK_WIDTH + 1 - 200)) = some (0, 32) := by
    have hsplit : List.range (BLOCK_WIDTH + 1 - 200) =
        List.range 0 ++ 0 :: (List.range 56).map (fun j => 0 + (j + 1)) :=
      range_split 0 56
    rw [hsplit, bestRun_leftmost _ 200 0 _
      (fun x hx => by
        obtain ⟨j, hj, rfl⟩ := List.mem_map.mp hx
        have := List.mem_range.mp hj
        rw [t3 0 (by omega), t3 (0 + (j + 1)) (by omega)])
      (List.range 0) (fun x hx => by simp at hx), t3 0 (by omega)]
  have e3 := LM_AllocBlock_of_bestRun _ 200 32 0 32 b3 (by decide)
  rw [allocateAll_cons_some _ _ _ _ _ e1, allocateAll_cons_some _ _ _ _ _ e2,
    allocateAll_cons_some _ _ _ _ _ e3]
  rfl

/-- C15: for every sequence of `Allocate(width, height)` requests on an empty
256x256 lightmap block, the rectangles of the successful calls lie inside the
block and no two of them overlap; the cumulative allocated area never
decreases as the sequence goes on and is at most 256 * 256; and on an empty
block `Allocate(64,32)`, `Allocate(64,32)`, `Allocate(200,32)` return `(0,0)`,
`(64,0)` and `(0,32)`. -/
theorem allocations_inside_disjoint (reqs more : List (Nat × Nat)) :
    (∀ r ∈ (allocateAll (fun _ => 0) reqs).1,
      r.l + r.w ≤ BLOCK_WIDTH ∧ r.t + r.h ≤ BLOCK_HEIGHT) ∧
    (allocateAll (fun _ => 0) reqs).1.Pairwise (fun r1 r2 => ¬ rectOverlap r1 r2) ∧
    totalArea (allocateAll (fun _ => 0) reqs).1 ≤
      totalArea (allocateAll (fun _ => 0) (reqs ++ more)).1 ∧
    totalArea (allocateAll (fun _ => 0) reqs).1 ≤ 256 * 256 ∧
    (allocateAll (fun _ => 0) [(64, 32), (64, 32), (200, 32)]).1 =
      [{ l := 0, t := 0, w := 64, h := 32 }, { l := 64, t := 0, w := 64, h := 32 },
       { l := 0, t := 32, w := 200, h := 32 }] := by
  have hempty : AtlasInv (fun _ => 0) [] := by
    refine ⟨fun _ => Nat.zero_le _, ?_, List.Pairwise.nil, ?_⟩
    · intro r hr
      simp at hr
    · simp [totalArea]
  have hinv := allocateAll_inv reqs (fun _ => 0) [] hempty
  rw [List.nil_append] at hinv
  obtain ⟨i1, i2, i3, i4⟩ := hinv
  refine ⟨fun r hr => ⟨(i2 r hr).1, (i2 r hr).2.1⟩, i3, ?_, ?_, allocateAll_example⟩
  · rw [allocateAll_append]
    simp [totalArea]
  · exact le_trans i4 (columnSum_le _ i1)

/-! ## C18, C19: the chunk search of the WAV loader -/

theorem GetLittleLong_snd (wav : Int → Nat) (p : Int) : (GetLittleLong wav p).2 = p + 4 := rfl

theorem clearBit0_succ_bounds (x : Int) : x ≤ clearBit0 (x + 1) ∧ clearBit0 (x + 1) ≤ x + 1 := by
  unfold clearBit0
  omega

/-- The three ways through the loop body: too few bytes left, a bad length, or
a chunk header that is accepted and compared with the name. -/
theorem FindNextChunk_iter_cases (wav : Int → Nat) (name : List Nat) (s : WavState) :
    (s.iff_end ≤ s.last_chunk + 8 ∧
      FindNextChunk_iter wav name s = (true, { s with data_p := none })) ∨
    (s.last_chunk + 8 < s.iff_end ∧
      FindNextChunk_iter wav name s =
        (true, { s with data_p := none,
                        iff_chunk_len := (GetLittleLong wav (s.last_chunk + 4)).1 })) ∨
    (s.last_chunk + 8 < s.iff_end ∧ 0 ≤ (GetLittleLong wav (s.last_chunk + 4)).1 ∧
      s.last_chunk + 8 + (GetLittleLong wav (s.last_chunk + 4)).1 ≤ s.iff_end ∧
      FindNextChunk_iter wav name s =
        (decide (strncmp wav s.last_chunk name 4 = 0),
          { s with
            iff_chunk_len := (GetLittleLong wav (s.last_chunk + 4)).1
            last_chunk := s.last_chunk + 8 +
              clearBit0 (wrap32 ((GetLittleLong wav (s.last_chunk + 4)).1 + 1))
            data_p := some s.last_chunk })) := by
  by_cases h1 : s.last_chunk + 8 ≥ s.iff_end
  · left
    refine ⟨h1, ?_⟩
    unfold FindNextChunk_iter
    rw [if_pos h1]
  · by_cases h2 : (GetLittleLong wav (s.last_chunk + 4)).1 < 0 ∨
        (GetLittleLong wav (s.last_chunk + 4)).1 >
          s.iff_end - (GetLittleLong wav (s.last_chunk + 4)).2
    · right; left
      refine ⟨by omega, ?_⟩
      unfold FindNextChunk_iter
      rw [if_neg h1]
      simp only [h2, if_true]
    · right; right
      have h3 := GetLittleLong_snd wav (s.last_chunk + 4)
      refine ⟨by omega, by omega, by omega, ?_⟩
      unfold FindNextChunk_iter
      rw [if_neg h1]
      simp only [h2, if_false]
      have e1 : (GetLittleLong wav (s.last_chunk + 4)).2 - 8 = s.last_chunk := by omega
      have e2 : (GetLittleLong wav (s.last_chunk + 4)).2 = s.last_chunk + 8 := by omega
      rw [e1, e2]

/-- More fuel does not change a result already reached. -/
theorem FindNextChunk_fuel_mono (wav : Int → Nat) (name : List Nat) :
    ∀ (fuel k : Nat) (s s' : WavState), FindNextChunk fuel wav name s = some s' →
      FindNextChunk (fuel + k) wav name s = some s' := by
  intro fuel
  induction fuel with
  | zero =>
    intro k s s' h
    simp [FindNextChunk] at h
  | succ n ih =>
    intro k s s' h
    have e : n + 1 + k = (n + k) + 1 := by omega
    rw [e]
    unfold FindNextChunk at h ⊢
    by_cases hr : (FindNextChunk_iter wav name s).1 = true
    · rw [if_pos hr] at h ⊢
      exact h
    · rw [if_neg hr] at h ⊢
      exact ih k _ _ h

/-- With `chunkFuel` passes the search returns, and a non-null `data_p` is the
start of an accepted chunk header that matches the name. -/
theorem FindNextChunk_returns (wav : Int → Nat) (name : List Nat) :
    ∀ (fuel : Nat) (s : WavState), s.iff_end - s.last_chunk ≤ 2147483647 →
      chunkFuel s ≤ fuel →
      ∃ s', FindNextChunk fuel wav name s = some s' ∧ s'.iff_end = s.iff_end ∧
        s'.iff_data = s.iff_data ∧ s.last_chunk ≤ s'.last_chunk ∧
        (s'.data_p = none → s'.last_chunk ≤ s.iff_end + 1 ∨ s'.last_chunk = s.last_chunk) ∧
        ∀ p, s'.data_p = some p →
          s.last_chunk ≤ p ∧ strncmp wav p name 4 = 0 ∧
          s'.iff_chunk_len = (GetLittleLong wav (p + 4)).1 ∧
          0 ≤ s'.iff_chunk_len ∧ p + 8 + s'.iff_chunk_len ≤ s'.iff_end ∧
          s'.last_chunk = p + 8 + clearBit0 (s'.iff_chunk_len + 1) := by
  intro fuel
  induction fuel with
  | zero =>
    intro s _ hf
    unfold chunkFuel at hf
    omega
  | succ n ih =>
    intro s hd hf
    unfold chunkFuel at hf
    unfold FindNextChunk
    rcases FindNextChunk_iter_cases wav name s with ⟨_, h⟩ | ⟨_, h⟩ | ⟨h1, h2, h3, h⟩
    · rw [h]
      refine ⟨_, if_pos rfl, rfl, rfl, le_refl _, fun _ => Or.inr rfl, ?_⟩
      intro p hp
      simp at hp
    · rw [h]
      refine ⟨_, if_pos rfl, rfl, rfl, le_refl _, fun _ => Or.inr rfl, ?_⟩
      intro p hp
      simp at hp
    · rw [h]
      have hw : wrap32 ((GetLittleLong wav (s.last_chunk + 4)).1 + 1) =
          (GetLittleLong wav (s.last_chunk + 4)).1 + 1 :=
        wrap32_of_range (by omega) (by omega)
      have hb := clearBit0_succ_bounds (GetLittleLong wav (s.last_chunk + 4)).1
      by_cases hm : strncmp wav s.last_chunk name 4 = 0
      · refine ⟨_, if_pos (by simp only [hm, decide_True]), rfl, rfl, ?_, ?_, ?_⟩
        · show s.last_chunk ≤ s.last_chunk + 8 + clearBit0 (wrap32 _)
          rw [hw]
          omega
        · intro hp
          simp at hp
        · intro p hp
          have hp2 : s.last_chunk = p := Option.some.inj hp
          subst hp2
          refine ⟨le_refl _, hm, rfl, h2, h3, ?_⟩
          show s.last_chunk + 8 + clearBit0 (wrap32 _) = _
          rw [hw]
      · rw [if_neg (by simp only [hm, decide_False]; exact Bool.false_ne_true)]
        obtain ⟨s', g1, g2, g3, g4, g5, g6⟩ := ih
          { s with
            iff_chunk_len := (GetLittleLong wav (s.last_chunk + 4)).1
            last_chunk := s.last_chunk + 8 +
              clearBit0 (wrap32 ((GetLittleLong wav (s.last_chunk + 4)).1 + 1))
            data_p := some s.last_chunk }
          (by
            show s.iff_end - (s.last_chunk + 8 + clearBit0 (wrap32 _)) ≤ _
            rw [hw]
            omega)
          (by
            unfold chunkFuel
            show (s.iff_end - (s.last_chunk + 8 + clearBit0 (wrap32 _))).toNat / 8 + 1 ≤ n
            rw [hw]
            omega)
        have g4b : s.last_chunk + 8 + clearBit0 (wrap32
            ((GetLittleLong wav (s.last_chunk + 4)).1 + 1)) ≤ s'.last_chunk := g4
        rw [hw] at g4b
        refine ⟨s', g1, g2, g3, by omega, ?_, ?_⟩
        · intro hn
          rcases g5 hn with g | g
          · left
            exact g
          · left
            have g' : s'.last_chunk = s.last_chunk + 8 + clearBit0 (wrap32
                ((GetLittleLong wav (s.last_chunk + 4)).1 + 1)) := g
            rw [hw] at g'
            show s'.last_chunk ≤ s.iff_end + 1
            omega
        · intro p hp
          obtain ⟨k1, k2⟩ := g6 p hp
          have k1b : s.last_chunk + 8 + clearBit0 (wrap32
              ((GetLittleLong wav (s.last_chunk + 4)).1 + 1)) ≤ p := k1
          rw [hw] at k1b
          exact ⟨by omega, k2⟩

/-- One character of a successful `strncmp` against a non-NUL character. -/
theorem strncmp_step (wav : Int → Nat) (p : Int) (c : Nat) (rest : List Nat) (n : Nat)
    (hc : c % 256 ≠ 0) (h : strncmp wav p (c :: rest) (n + 1) = 0) :
    wav p % 256 = c % 256 ∧ strncmp wav (p + 1) rest n = 0 := by
  unfold strncmp at h
  simp only [List.headD_cons, List.tail_cons] at h
  by_cases h1 : byteAt wav p = ((c % 256 : Nat) : Int)
  · rw [if_neg (not_not.mpr h1)] at h
    have h2 : ¬ byteAt wav p = 0 := by
      rw [h1]
      omega
    rw [if_neg h2] at h
    unfold byteAt at h1
    exact ⟨by omega, h⟩
  · rw [if_pos h1] at h
    omega

/-- A `strncmp` of 0 against a name of four non-NUL characters: the four bytes
are the name. -/
theorem strncmp_four (wav : Int → Nat) (p : Int) (a b c d : Nat)
    (ha : a % 256 ≠ 0) (hb : b % 256 ≠ 0) (hc : c % 256 ≠ 0) (hd : d % 256 ≠ 0)
    (h : strncmp wav p [a, b, c, d] 4 = 0) :
    wav p % 256 = a % 256 ∧ wav (p + 1) % 256 = b % 256 ∧
    wav (p + 1 + 1) % 256 = c % 256 ∧ wav (p + 1 + 1 + 1) % 256 = d % 256 := by
  obtain ⟨k1, h1⟩ := strncmp_step wav p a _ 3 ha h
  obtain ⟨k2, h2⟩ := strncmp_step wav _ b _ 2 hb h1
  obtain ⟨k3, h3⟩ := strncmp_step wav _ c _ 1 hc h2
  obtain ⟨k4, -⟩ := strncmp_step wav _ d _ 0 hd h3
  exact ⟨k1, k2, k3, k4⟩

/-- The search returns for every fuel from `chunkFuel` on, with one result,
which satisfies `ChunkFound`. -/
theorem FindNextChunk_found (wav : Int → Nat) (name : List Nat) (s : WavState)
    (hd : s.iff_end - s.last_chunk ≤ 2147483647) :
    ∃ s', (∀ fuel, chunkFuel s ≤ fuel → FindNextChunk fuel wav name s = some s') ∧
      s'.iff_end = s.iff_end ∧ ChunkFound wav name s.last_chunk s' := by
  obtain ⟨s', g1, g2, -, -, -, g6⟩ := FindNextChunk_returns wav name (chunkFuel s) s hd (le_refl _)
  refine ⟨s', ?_, g2, ?_⟩
  · intro fuel hf
    have e : fuel = chunkFuel s + (fuel - chunkFuel s) := by omega
    rw [e]
    exact FindNextChunk_fuel_mono wav name _ _ _ _ g1
  · intro p hp
    obtain ⟨k1, k2, k3, k4, k5, -⟩ := g6 p hp
    refine ⟨k1, k2, ?_, k3, k4, k5⟩
    intro a b c d hn ha hb hc hdd
    rw [hn] at k2
    exact strncmp_four wav p a b c d ha hb hc hdd k2

/-- C18: for every buffer content, chunk name and parser state with at most
INT_MAX bytes from `last_chunk` to `iff_end` (the buffer length is an `int`
and the position lies inside the buffer), a pass of the loop of
`FindNextChunk` that does not return leaves `last_chunk` at least 8 bytes
further and `iff_end` as it was, a pass with fewer than 9 bytes from
`last_chunk` to `iff_end` returns, and the function returns within
`(iff_end - last_chunk) / 8 + 1` passes whatever lengths the buffer holds. -/
theorem FindNextChunk_terminates (wav : Int → Nat) (name : List Nat) (s : WavState)
    (hd : s.iff_end - s.last_chunk ≤ 2147483647) :
    ((FindNextChunk_iter wav name s).1 = false →
      s.last_chunk + 8 ≤ (FindNextChunk_iter wav name s).2.last_chunk ∧
      (FindNextChunk_iter wav name s).2.iff_end = s.iff_end) ∧
    (s.iff_end - s.last_chunk < 9 → (FindNextChunk_iter wav name s).1 = true) ∧
    ∃ s', ∀ fuel, (s.iff_end - s.last_chunk).toNat / 8 + 1 ≤ fuel →
      FindNextChunk fuel wav name s = some s' := by
  refine ⟨?_, ?_, ?_⟩
  · intro hr
    rcases FindNextChunk_iter_cases wav name s with ⟨_, h⟩ | ⟨_, h⟩ | ⟨h1, h2, h3, h⟩
    · rw [h] at hr
      exact Bool.noConfusion hr
    · rw [h] at hr
      exact Bool.noConfusion hr
    · rw [h]
      have hw : wrap32 ((GetLittleLong wav (s.last_chunk + 4)).1 + 1) =
          (GetLittleLong wav (s.last_chunk + 4)).1 + 1 :=
        wrap32_of_range (by omega) (by omega)
      have hb := clearBit0_succ_bounds (GetLittleLong wav (s.last_chunk + 4)).1
      refine ⟨?_, rfl⟩
      show s.last_chunk + 8 ≤ s.last_chunk + 8 + clearBit0 (wrap32 _)
      rw [hw]
      omega
  · intro hlt
    rcases FindNextChunk_iter_cases wav name s with ⟨_, h⟩ | ⟨_, h⟩ | ⟨h1, _, _, _⟩
    · rw [h]
    · rw [h]
    · omega
  · obtain ⟨s', g, -, -⟩ := FindNextChunk_found wav name s hd
    exact ⟨s', g⟩

theorem FindNextChunk_terminates_witness :
    sampleChunkState.iff_end - sampleChunkState.last_chunk ≤ 2147483647 ∧
    ∃ s', ∀ fuel, (sampleChunkState.iff_end - sampleChunkState.last_chunk).toNat / 8 + 1 ≤ fuel →
      FindNextChunk fuel (bufferOf eightBitWav) tagData sampleChunkState = some s' :=
  ⟨by decide,
    (FindNextChunk_terminates (bufferOf eightBitWav) tagData sampleChunkState (by decide)).2.2⟩

/-- C19: for every buffer content, chunk name and parser state with at most
INT_MAX bytes from `last_chunk` to `iff_end`, `FindNextChunk` returns, and
when it leaves `data_p` non-null then `data_p` is a chunk header at or behind
the starting `last_chunk` whose tag `strncmp` finds equal to the name (byte
for byte for a name of four non-NUL characters), `iff_chunk_len` is that
header's length field, is not negative, and
`data_p + 8 + iff_chunk_len <= iff_end`; the only other outcome is a null
`data_p`. `FindChunk` does the same from `iff_data`. -/
theorem FindNextChunk_found_in_bounds (wav : Int → Nat) (name : List Nat) (s : WavState) :
    (s.iff_end - s.last_chunk ≤ 2147483647 →
      ∃ s', (∀ fuel, chunkFuel s ≤ fuel → FindNextChunk fuel wav name s = some s') ∧
        s'.iff_end = s.iff_end ∧ ChunkFound wav name s.last_chunk s') ∧
    (s.iff_end - s.iff_data ≤ 2147483647 →
      ∃ s', (∀ fuel, (s.iff_end - s.iff_data).toNat / 8 + 1 ≤ fuel →
          FindChunk fuel wav name s = some s') ∧
        s'.iff_end = s.iff_end ∧ ChunkFound wav name s.iff_data s') :=
  ⟨FindNextChunk_found wav name s,
    fun h => FindNextChunk_found wav name { s with last_chunk := s.iff_data } h⟩

theorem FindNextChunk_found_in_bounds_witness :
    sampleChunkState.iff_end - sampleChunkState.last_chunk ≤ 2147483647 ∧
    ∃ s', (∀ fuel, chunkFuel sampleChunkState ≤ fuel →
        FindNextChunk fuel (bufferOf eightBitWav) tagData sampleChunkState = some s') ∧
      s'.iff_end = sampleChunkState.iff_end ∧
      ChunkFound (bufferOf eightBitWav) tagData sampleChunkState.last_chunk s' :=
  ⟨by decide,
    (FindNextChunk_found_in_bounds (bufferOf eightBitWav) tagData sampleChunkState).1 (by decide)⟩

/-- The search for "data" on the 8-bit sample file finds the chunk at offset 36
with a body of 2 bytes. -/
theorem FindNextChunk_on_sample :
    FindNextChunk 5 (bufferOf eightBitWav) tagData sampleChunkState =
      some { data_p := some 36, iff_end := 46, last_chunk := 46, iff_data := 12,
             iff_chunk_len := 2 } := by
  decide

/-- C20: on the 46-byte file `fourBitWav` (PCM, one channel, 4 bits per
sample) `GetWavinfo` reaches the data chunk with `info.width = 4 / 8 = 0` and
the division of line 351 divides by zero; the same file with 8 bits per sample
is parsed to a width of 1 and 2 samples. -/
theorem GetWavinfo_divides_by_zero :
    GetWavinfo (some (bufferOf fourBitWav)) 46 zeroWavState = .error .divideByZero ∧
    GetWavinfo (some (bufferOf eightBitWav)) 46 zeroWavState =
      .ok { rate := 11025, width := 1, channels := 1, loopstart := -1, samples := 2,
            dataofs := 44 } :=
  ⟨rfl, rfl⟩

/-! ## C21: rejected headers leave the record zeroed -/

/-- `FindChunk` from a non-negative `iff_data` in a buffer whose end is at most
INT_MAX returns with the fuel `GetWavinfo` passes, and a chunk it finds starts
at or behind `iff_data`. -/
theorem FindChunk_returns (wav : Int → Nat) (name : List Nat) (wavlength : Int) (s : WavState)
    (hend : s.iff_end = wavlength) (hlen : wavlength ≤ 2147483647) (h0 : 0 ≤ s.iff_data) :
    ∃ s', FindChunk (wavlength.toNat / 8 + 1) wav name s = some s' ∧
      s'.iff_end = wavlength ∧ ∀ p, s'.data_p = some p → s.iff_data ≤ p := by
  obtain ⟨s', g1, g2, -, -, -, g6⟩ := FindNextChunk_returns wav name (wavlength.toNat / 8 + 1)
    { s with last_chunk := s.iff_data }
    (by
      show s.iff_end - s.iff_data ≤ 2147483647
      omega)
    (by
      unfold chunkFuel
      show (s.iff_end - s.iff_data).toNat / 8 + 1 ≤ wavlength.toNat / 8 + 1
      rw [hend]
      omega)
  refine ⟨s', g1, ?_, ?_⟩
  · rw [g2]
    exact hend
  · intro p hp
    exact (g6 p hp).1

/-- C21: for every buffer of at most INT_MAX bytes (`wavlength` is an `int`)
and whatever earlier calls left in the parser's variables, `GetWavinfo` returns
the record with every field zero when the buffer pointer is null, when the
search for a RIFF chunk ends with a null `data_p`, when the RIFF chunk found is
not followed by the tag "WAVE", when the search for a "fmt " chunk behind it
ends with a null `data_p`, and when the format code read from the fmt chunk is
not 1; both searches return. The zero record has `channels = 0`, which is not
1, so the test of `S_LoadSound` rejects the sound. -/
theorem GetWavinfo_zero_on_bad_header (wav : Int → Nat) (wavlength : Int) (s : WavState)
    (hlen : wavlength ≤ 2147483647) :
    GetWavinfo none wavlength s = .ok zeroInfo ∧
    (∃ s1, FindChunk (wavlength.toNat / 8 + 1) wav tagRIFF
        { s with iff_data := 0, iff_end := wavlength } = some s1 ∧
      (s1.data_p = none → GetWavinfo (some wav) wavlength s = .ok zeroInfo) ∧
      ∀ p, s1.data_p = some p →
        (strncmp wav (p + 8) tagWAVE 4 ≠ 0 →
          GetWavinfo (some wav) wavlength s = .ok zeroInfo) ∧
        (strncmp wav (p + 8) tagWAVE 4 = 0 →
          ∃ s2, FindChunk (wavlength.toNat / 8 + 1) wav tagFmt
              { s1 with iff_data := p + 12 } = some s2 ∧
            (s2.data_p = none → GetWavinfo (some wav) wavlength s = .ok zeroInfo) ∧
            ∀ q, s2.data_p = some q → (GetLittleShort wav (q + 8)).1 ≠ 1 →
              GetWavinfo (some wav) wavlength s = .ok zeroInfo)) ∧
    zeroInfo = { rate := 0, width := 0, channels := 0, loopstart := 0, samples := 0,
                 dataofs := 0 } ∧
    zeroInfo.channels ≠ 1 ∧ S_LoadSound_rejects zeroInfo = true := by
  refine ⟨rfl, ?_, rfl, by decide, by decide⟩
  obtain ⟨s1, h1, e1, b1⟩ := FindChunk_returns wav tagRIFF wavlength
    { s with iff_data := 0, iff_end := wavlength } rfl hlen (le_refl _)
  refine ⟨s1, h1, ?_, ?_⟩
  · intro hn
    simp only [GetWavinfo, h1, hn]
  · intro p hp
    have hp0 : (0 : Int) ≤ p := b1 p hp
    refine ⟨?_, ?_⟩
    · intro hw
      simp only [GetWavinfo, h1, hp, hw, ne_eq, not_false_eq_true, if_true]
    · intro hw
      obtain ⟨s2, h2, -, -⟩ := FindChunk_returns wav tagFmt wavlength
        { s1 with iff_data := p + 12 } e1 hlen (by show (0 : Int) ≤ p + 12; omega)
      refine ⟨s2, h2, ?_, ?_⟩
      all_goals simp only [hp] at h2
      · intro hn
        simp only [GetWavinfo, h1, hp, hw, h2, hn, ne_eq, not_true_eq_false, if_false]
      · intro q hq hf
        simp only [GetWavinfo, h1, hp, hw, h2, hq, hf, ne_eq, not_true_eq_false, if_false,
          not_false_eq_true, if_true]

theorem GetWavinfo_zero_on_bad_header_witness :
    (46 : Int) ≤ 2147483647 ∧ GetWavinfo none 46 zeroWavState = .ok zeroInfo ∧
    S_LoadSound_rejects zeroInfo = true :=
  ⟨by decide,
    (GetWavinfo_zero_on_bad_header (bufferOf adpcmWav) 46 zeroWavState (by decide)).1,
    (GetWavinfo_zero_on_bad_header (bufferOf adpcmWav) 46 zeroWavState (by decide)).2.2.2.2⟩

/-- The four rejections on sample files: no RIFF chunk, RIFF without "WAVE", no
fmt chunk, and format code 2; the 8-bit PCM file is accepted with one channel. -/
theorem GetWavinfo_on_bad_samples :
    GetWavinfo (some (bufferOf noRiffWav)) 46 zeroWavState = .ok zeroInfo ∧
    GetWavinfo (some (bufferOf noWaveWav)) 46 zeroWavState = .ok zeroInfo ∧
    GetWavinfo (some (bufferOf noFmtWav)) 22 zeroWavState = .ok zeroInfo ∧
    GetWavinfo (some (bufferOf adpcmWav)) 46 zeroWavState = .ok zeroInfo ∧
    (GetWavinfo (some (bufferOf eightBitWav)) 46 zeroWavState).toOption.map
      S_LoadSound_rejects = some false :=
  ⟨rfl, rfl, rfl, rfl, rfl⟩

end TyrQuake
